import Mathlib

/-!
Verification of the template parameter engine of the aoc-runtime repository
(`src/config.rs`) together with the argument resolution of `src/args.rs`.

Strings are modelled as `List Char`.  The regex patterns that
`Config::load` constructs are star-free (no unbounded repetition), so the
compiled pattern is modelled as a finite regular expression together with a
complete list of parses in the preference order of a leftmost-first
(Perl-like) matcher, which is the documented match semantics of the Rust
regex crate.  All definitions are structural or fueled recursions so that
they evaluate inside the kernel.
-/

namespace Aoc

/-- The `Language` enum of `args.rs`, in declaration order
(`strum::EnumIter` iterates in this order). -/
inductive Language
  | rust
  | csharp
  | java
  | python
deriving DecidableEq, Repr

/-- The order of `Language::iter()`. -/
def Language.all : List Language := [.rust, .csharp, .java, .python]

/-- The `Display` impl for `Language`: the debug name lowercased. -/
def Language.str : Language → List Char
  | .rust => "rust".data
  | .csharp => "csharp".data
  | .java => "java".data
  | .python => "python".data

/-- Models `str::to_lowercase` on the ASCII input appearing here. -/
def toLowerL (l : List Char) : List Char := l.map Char.toLower

/-- The `FromStr` impl for `Language` (args.rs lines 39–51): the first enum
value whose lowercase display form equals `s.to_lowercase()`; `none` models
the `Err("unknown language: ...")` case. -/
def Language.fromStr (s : List Char) : Option Language :=
  Language.all.find? (fun l => l.str = toLowerL s)

/-- Characters matched by the regex class `\s` (ASCII part; templates and
working directories in the claims are ASCII). -/
def isWs (c : Char) : Bool :=
  c = ' ' || c = Char.ofNat 9 || c = Char.ofNat 10 || c = Char.ofNat 11 ||
  c = Char.ofNat 12 || c = Char.ofNat 13

/-- Strip the literal `p` from the front of `s`, returning the rest. -/
def stripPre : List Char → List Char → Option (List Char)
  | [], s => some s
  | _ :: _, [] => none
  | p :: ps, c :: cs => if c = p then stripPre ps cs else none

/-- The three recognized parameter names of `Config::load`
(`[("year", false), ("day", true), ("language", false)]`). -/
inductive PKind
  | year
  | day
  | language
deriving DecidableEq, Repr

def PKind.nameL : PKind → List Char
  | .year => "year".data
  | .day => "day".data
  | .language => "language".data

def PKind.paddable : PKind → Bool
  | .day => true
  | _ => false

/-- Models `Config::build_param_regex(param, paddable)`, which compiles
`\{\{\s*(pad\s+)?param\s*\}\}` (the `(pad\s+)` group only when `paddable`),
as a matcher anchored at the front of `s`: the result is (whether the `pad`
group matched, the rest of `s` after the match).

The greedy left-to-right reading implemented here coincides with the regex
semantics because the pattern is deterministic on its own matches: each
`\s*` and `\s+` is followed by a non-whitespace requirement, and whenever
`pad` followed by whitespace parses, the empty branch of `(pad\s+)?` cannot
succeed instead, since no parameter name starts with `p`. -/
def matchTail (name : List Char) (pad : Bool) (s2 : List Char) :
    Option (Bool × List Char) :=
  match stripPre name s2 with
  | none => none
  | some s4 =>
    match stripPre ['}', '}'] (s4.dropWhile isWs) with
    | none => none
    | some s6 => some (pad, s6)

def matchParam (name : List Char) (paddable : Bool) (s : List Char) :
    Option (Bool × List Char) :=
  match stripPre ['{', '{'] s with
  | none => none
  | some s1 =>
    if paddable then
      match stripPre ['p', 'a', 'd'] (s1.dropWhile isWs) with
      | some (c :: cs) =>
        if isWs c then matchTail name true (cs.dropWhile isWs)
        else matchTail name false (s1.dropWhile isWs)
      | _ => matchTail name false (s1.dropWhile isWs)
    else matchTail name false (s1.dropWhile isWs)

/-- Short form for the matcher of one parameter kind. -/
def matchP (k : PKind) (s : List Char) : Option (Bool × List Char) :=
  matchParam k.nameL k.paddable s

/-- Try the three parameter regexes at the front of `s`.

In `Config::load` the match ranges of all three regexes over the whole
template are collected and merged sorted by start offset.  Matches of
distinct parameter regexes never overlap: every match is `{{`, a brace-free
interior, `}}`, and after `{{\s*` the next character (`y`, `p` or `d`, `l`)
determines the parameter uniquely, so the merged sorted list of ranges is
exactly what one left-to-right scan trying the three matchers at each
position produces. -/
def markerAt (s : List Char) : Option (PKind × Bool × List Char) :=
  match matchP .year s with
  | some (p, r) => some (.year, p, r)
  | none =>
    match matchP .day s with
    | some (p, r) => some (.day, p, r)
    | none =>
      match matchP .language s with
      | some (p, r) => some (.language, p, r)
      | none => none

/-- One piece of the template: a literal character (escaped with
`regex::escape` when the pattern is built) or a parameter marker
occurrence. -/
inductive Seg
  | lit (c : Char)
  | mark (k : PKind) (pad : Bool) (text : List Char)
deriving DecidableEq, Repr

/-- The left-to-right walk over the sorted marker ranges in `Config::load`
(lines 60–93): literal gaps are escaped character by character, each marker
range keeps its original text.  Fueled structural recursion; fuel
`t.length` always suffices because every step consumes at least one
character. -/
def segGo : Nat → List Char → List Seg
  | 0, _ => []
  | fuel + 1, t =>
    match markerAt t with
    | some (k, pad, rest) =>
      .mark k pad (t.take (t.length - rest.length)) :: segGo fuel rest
    | none =>
      match t with
      | [] => []
      | c :: cs => .lit c :: segGo fuel cs

def segments (t : List Char) : List Seg := segGo t.length t

/-- Star-free regular expressions: exactly the constructs appearing in the
patterns built by `Config::load`.  `cls lo hi` is a character range
`[lo-hi]`, `opt` a greedy `(...)?`, `grp` a named capture group
`(?P<n>...)`. -/
inductive Reg
  | eps
  | chr (c : Char)
  | cls (lo hi : Char)
  | seq (a b : Reg)
  | alt (a b : Reg)
  | opt (a : Reg)
  | grp (n : List Char) (a : Reg)
deriving DecidableEq, Repr

/-- A sequence of literal characters: the effect of `regex::escape`d text,
and of literal text left in the pattern (the regex crate treats a `{` that
does not start a valid repetition as a literal character, so unreplaced
marker text matches itself literally). -/
def litR (l : List Char) : Reg := l.foldr (fun c r => .seq (.chr c) r) .eps

/-- The sub-pattern `(?P<year>\d{4})`. -/
def yearBlob : Reg :=
  .grp "year".data
    (.seq (.cls '0' '9') (.seq (.cls '0' '9') (.seq (.cls '0' '9') (.cls '0' '9'))))

/-- The sub-pattern `(?P<day>[1-9]|1[0-9]|2[0-5])`. -/
def dayBlob : Reg :=
  .grp "day".data
    (.alt (.cls '1' '9')
      (.alt (.seq (.chr '1') (.cls '0' '9')) (.seq (.chr '2') (.cls '0' '5'))))

/-- The sub-pattern `(?P<padday>0[1-9]|1[0-9]|2[0-5])`. -/
def padDayBlob : Reg :=
  .grp "padday".data
    (.alt (.seq (.chr '0') (.cls '1' '9'))
      (.alt (.seq (.chr '1') (.cls '0' '9')) (.seq (.chr '2') (.cls '0' '5'))))

/-- The sub-pattern `(?P<language>rust|csharp|java|python)`: the alternation
is generated from `Language::iter()` in declaration order, lowercased. -/
def langBlob : Reg :=
  .grp "language".data
    (.alt (litR "rust".data)
      (.alt (litR "csharp".data) (.alt (litR "java".data) (litR "python".data))))

/-- The four replacement keys of `Config::load` lines 97–111, in array
order: `{{year}}`, `{{day}}`, `{{pad day}}`, `{{language}}`.  Only these
exact strings are replaced by capture sub-patterns, because
`String::replace` searches literally. -/
inductive CKind
  | cyear
  | cday
  | cpadday
  | clang
deriving DecidableEq, Repr

def CKind.text : CKind → List Char
  | .cyear => "{{year}}".data
  | .cday => "{{day}}".data
  | .cpadday => "{{pad day}}".data
  | .clang => "{{language}}".data

def CKind.blob : CKind → Reg
  | .cyear => yearBlob
  | .cday => dayBlob
  | .cpadday => padDayBlob
  | .clang => langBlob

/-- The test `i < replacements.len() - 1`: every replacement except
`{{language}}` opens a `(` after its capture sub-pattern, closed by a `)?`
appended at the very end of the pattern. -/
def CKind.wrapsOpt : CKind → Bool
  | .clang => false
  | _ => true

def canonOf (text : List Char) : Option CKind :=
  if text = CKind.cyear.text then some .cyear
  else if text = CKind.cday.text then some .cday
  else if text = CKind.cpadday.text then some .cpadday
  else if text = CKind.clang.text then some .clang
  else none

/-- The constructed pattern as a regular expression.  Escaped literal gaps
and marker texts left unreplaced (whitespace variants of the markers) both
match literally.  A replaced marker contributes its capture sub-pattern;
every non-final replacement kind additionally opens a group extending to
the end of the pattern, closed by one of the trailing `)?`, which is
exactly `opt` wrapped around the remainder. -/
def astOf : List Seg → Reg
  | [] => .eps
  | .lit c :: rest => .seq (.chr c) (astOf rest)
  | .mark _ _ text :: rest =>
    match canonOf text with
    | some ck =>
      if ck.wrapsOpt then .seq ck.blob (.opt (astOf rest)) else .seq ck.blob (astOf rest)
    | none => .seq (litR text) (astOf rest)

def canonCount (ck : CKind) (segs : List Seg) : Nat :=
  segs.countP (fun s =>
    match s with
    | .mark _ _ tx => decide (canonOf tx = some ck)
    | _ => false)

/-- The failure of `Regex::new(&pattern)?` on line 139. -/
inductive CompErr
  | regexCompile
deriving DecidableEq, Repr

/-- A canonical marker occurring twice makes `Regex::new` fail: the pattern
then contains two capture groups with the same name, which the regex crate
rejects, and for the non-final replacement kinds the spliced `(` appears
once per occurrence while the closing `)?` is appended only once per kind,
leaving the groups unbalanced as well. -/
def dupCanon (segs : List Seg) : Bool :=
  [CKind.cyear, CKind.cday, CKind.cpadday, CKind.clang].any
    (fun ck => 2 ≤ canonCount ck segs)

/-- Template to compiled extraction pattern: `Config::load` lines 56–134
plus the `Regex::new(&pattern)?` on line 139. -/
def compile (t : List Char) : Except CompErr Reg :=
  let segs := segments t
  if dupCanon segs then .error .regexCompile else .ok (astOf segs)

/-- Named captures of one parse; entries of outer groups come later. -/
abbrev Caps := List (List Char × List Char)

/-- All parses of `re` against a prefix of `s`, in the preference order of a
leftmost-first (Perl-like) regex engine, which is the match semantics of
the Rust regex crate: alternations try their branches left to right,
`(...)?` prefers the present branch, and sequencing backtracks.  Each parse
yields its named captures and the remaining suffix of `s`.  The head of
the list is the parse such an engine reports. -/
def parses : Reg → List Char → List (Caps × List Char)
  | .eps, s => [([], s)]
  | .chr c, s =>
    match s with
    | [] => []
    | x :: xs => if x = c then [([], xs)] else []
  | .cls lo hi, s =>
    match s with
    | [] => []
    | x :: xs => if lo ≤ x ∧ x ≤ hi then [([], xs)] else []
  | .seq a b, s =>
    (parses a s).flatMap (fun pr => (parses b pr.2).map (fun qr => (pr.1 ++ qr.1, qr.2)))
  | .alt a b, s => parses a s ++ parses b s
  | .opt a, s => parses a s ++ [([], s)]
  | .grp n a, s =>
    (parses a s).map (fun pr => (pr.1 ++ [(n, s.take (s.length - pr.2.length))], pr.2))

/-- Models `Regex::captures(candidate)`: scan candidate start positions
left to right; at the first position admitting a parse, report the first
parse in preference order.  Fueled by the number of positions. -/
def capGo : Nat → Reg → List Char → Option Caps
  | 0, _, _ => none
  | fuel + 1, re, s =>
    match (parses re s).head?, s with
    | some pr, _ => some pr.1
    | none, [] => none
    | none, _ :: cs => capGo fuel re cs

def findCap (re : Reg) (s : List Char) : Option Caps := capGo (s.length + 1) re s

/-- Models `Captures::name`: the capture of the group with that name (every
group name occurs at most once in the patterns built here). -/
def lookupCap (n : List Char) : Caps → Option (List Char)
  | [] => none
  | (m, tx) :: rest => if m = n then some tx else lookupCap n rest

/-- Decimal value of a digit character. -/
def digToNat (c : Char) : Nat := c.toNat - 48

/-- Models `str::parse` at `u16` and `u8` on captured text: all-digit,
non-empty strings parse to their decimal value.  The captured texts here
are at most four digits, so no overflow is reachable. -/
def parseNatL (l : List Char) : Option Nat :=
  if l ≠ [] ∧ l.all Char.isDigit then
    some (l.foldl (fun a c => 10 * a + digToNat c) 0)
  else none

/-- The `OptionalParameters` struct of `config.rs`. -/
structure OptParams where
  year : Option Nat
  day : Option Nat
  language : Option Language
deriving DecidableEq, Repr

/-- The extraction part of `Config::load` (lines 56–157): build and compile
the pattern from the template, run it against the working directory, and
parse whichever named groups matched; `day` falls back to the `padday`
group.  A non-matching candidate yields all-`none`, not an error. -/
def extractP (t cwd : List Char) : Except CompErr OptParams :=
  match compile t with
  | .error e => .error e
  | .ok re =>
    match findCap re cwd with
    | none => .ok ⟨none, none, none⟩
    | some caps =>
      .ok
        { year := (lookupCap "year".data caps).bind parseNatL
          day :=
            ((lookupCap "day".data caps).or (lookupCap "padday".data caps)).bind parseNatL
          language := (lookupCap "language".data caps).bind Language.fromStr }

/-- Models `to_string` on `u16` and `u8` (decimal).  Fueled structural
recursion so that it evaluates in the kernel; fuel `n + 1` always
suffices. -/
def natStrGo : Nat → Nat → List Char
  | 0, _ => []
  | fuel + 1, n =>
    if n < 10 then [Nat.digitChar n] else natStrGo fuel (n / 10) ++ [Nat.digitChar (n % 10)]

def natStr (n : Nat) : List Char := natStrGo (n + 1) n

/-- Models `format!("{:0>2}", value)`: left-pad with `0` to width 2. -/
def pad2 (v : List Char) : List Char :=
  if v.length < 2 then List.replicate (2 - v.length) '0' ++ v else v

/-- Models `re.replace_all(&path, value)`: replace every non-overlapping
match of the parameter regex, scanning left to right.  The replacement
values, decimal digits or a lowercase language token, contain no `$`, so
the replacement-string expansion of the regex crate never fires. -/
def repGo (k : PKind) (r : List Char) : Nat → List Char → List Char
  | 0, s => s
  | fuel + 1, s =>
    match matchP k s with
    | some (_, rest) => r ++ repGo k r fuel rest
    | none =>
      match s with
      | [] => []
      | c :: cs => c :: repGo k r fuel cs

def replaceAllP (k : PKind) (r s : List Char) : List Char := repGo k r s.length s

/-- The texts of all non-overlapping matches of parameter `k` in `s`
(the matches `find_iter` yields, and the presence test behind
`re.captures(&path)`). -/
def textsGo (k : PKind) : Nat → List Char → List (List Char)
  | 0, _ => []
  | fuel + 1, s =>
    match matchP k s with
    | some (_, rest) => s.take (s.length - rest.length) :: textsGo k fuel rest
    | none =>
      match s with
      | [] => []
      | _ :: cs => textsGo k fuel cs

def findTextsP (k : PKind) (s : List Char) : List (List Char) := textsGo k s.length s

/-- The `pad` group of the leftmost match of parameter `k` in `s`
(`re.captures(&path)` followed by `captures.get(1).is_some()`); `none` when
the regex does not match at all. -/
def firstPadGo (k : PKind) : Nat → List Char → Option Bool
  | 0, _ => none
  | fuel + 1, s =>
    match matchP k s with
    | some (pad, _) => some pad
    | none =>
      match s with
      | [] => none
      | _ :: cs => firstPadGo k fuel cs

def firstPad (k : PKind) (s : List Char) : Option Bool := firstPadGo k (s.length + 1) s

/-- One iteration of the loop in `Config::build` (lines 165–195): skip the
parameter when its value is absent; otherwise fail when its regex has no
match in the current path (the source error reads
`failed to find <param> in template path`), else substitute every match,
zero-padding the value to width 2 when the leftmost match used the padded
form. -/
def buildStep (k : PKind) (v : Option (List Char)) (path : List Char) :
    Except PKind (List Char) :=
  match v with
  | none => .ok path
  | some vs =>
    match firstPad k path with
    | none => .error k
    | some padUsed => .ok (replaceAllP k (if padUsed then pad2 vs else vs) path)

/-- Models `Config::build`: substitute year, then day, then language into
the template.  The error value names the parameter of the failing
`failed to find ... in template path`. -/
def buildPath (t : List Char) (y d : Option Nat) (lg : Option Language) :
    Except PKind (List Char) :=
  match buildStep .year (y.map natStr) t with
  | .error e => .error e
  | .ok p1 =>
    match buildStep .day (d.map natStr) p1 with
    | .error e => .error e
    | .ok p2 => buildStep .language (lg.map Language.str) p2

/-- The date components of `Local::now()` as used by `Args::build`. -/
structure DateNow where
  year : Nat
  month : Nat
  day : Nat
deriving DecidableEq, Repr

/-- The explicit command-line parameters of `Args`. -/
structure ArgsP where
  year : Option Nat
  day : Option Nat
  language : Option Language
deriving DecidableEq, Repr

/-- Models `Args::build` (args.rs lines 174–185): the explicit value, else
the value extracted from the working directory, else the date-based
default — the current year when the month is December else the previous
year, and the current day of month when December else 1.  `language` has no
date default. -/
def argsBuild (args : ArgsP) (optional : OptParams) (now : DateNow) : ArgsP :=
  { year := (args.year.or optional.year).or
      (some (now.year - (if now.month < 12 then 1 else 0)))
    day := (args.day.or optional.day).or
      (some (if now.month = 12 then now.day else 1))
    language := args.language.or optional.language }

/-- The clap range validator of `Args::day`: `1..=25`. -/
def dayArgOk (d : Nat) : Bool := 1 ≤ d && d ≤ 25

/-- Characters that can appear strictly inside a marker match, between the
`{{` and the `}}`: whitespace and the letters of `pad`, `year`, `day`,
`language`. -/
def midChar (c : Char) : Bool :=
  isWs c || ['y', 'e', 'a', 'r', 'd', 'p', 'l', 'n', 'g', 'u'].contains c

/-- Characters that can appear anywhere in a marker match. -/
def markerChar (c : Char) : Bool := c = '{' || c = '}' || midChar c

/-- Whitespace-only text. -/
def wsOnly (l : List Char) : Prop := ∀ c ∈ l, isWs c = true

/-- The exact texts the parameter regex of kind `k` matches, with `pad`
telling whether the `(pad\\s+)` group participated: `{{`, optional
whitespace, for the padded form `pad` plus at least one whitespace
character, the parameter name, optional whitespace, `}}`. -/
def MarkerShape (k : PKind) (pad : Bool) (pre : List Char) : Prop :=
  ∃ w1 padtxt w2,
    pre = '{' :: '{' :: (w1 ++ padtxt ++ k.nameL ++ w2 ++ ['}', '}']) ∧
    wsOnly w1 ∧ wsOnly w2 ∧
    ((pad = false ∧ padtxt = []) ∨
      (pad = true ∧ k = .day ∧
        ∃ c w3, padtxt = 'p' :: 'a' :: 'd' :: c :: w3 ∧ isWs c = true ∧ wsOnly w3))

/-- Replacement values spliced in by `Config::build` are inert for the
marker regexes: non-empty, brace-free, and containing at least one
character that cannot occur in any marker match.  Decimal numbers and the
language tokens all qualify. -/
def inertVal (r : List Char) : Prop :=
  r ≠ [] ∧ (∀ c ∈ r, c ≠ '{' ∧ c ≠ '}') ∧ ∃ c ∈ r, markerChar c = false

/-- Is `p` a prefix of `s`? -/
def isPreL : List Char → List Char → Bool
  | [], _ => true
  | _ :: _, [] => false
  | p :: ps, c :: cs => c = p && isPreL ps cs

/-- The number of positions of `t` at which the exact string `m` occurs. -/
def countOcc (m : List Char) : List Char → Nat
  | [] => if isPreL m [] then 1 else 0
  | c :: cs => (if isPreL m (c :: cs) then 1 else 0) + countOcc m cs

/-- The parameter kind a canonical replacement key belongs to. -/
def CKind.kind : CKind → PKind
  | .cyear => .year
  | .cday => .day
  | .cpadday => .day
  | .clang => .language

/-- Whether the canonical replacement key uses the padded form. -/
def CKind.pad : CKind → Bool
  | .cpadday => true
  | _ => false

/-- The bodies of all capture groups named `nm` inside a regular
expression. -/
def groupsNamed (nm : List Char) : Reg → List Reg
  | .eps => []
  | .chr _ => []
  | .cls _ _ => []
  | .seq a b => groupsNamed nm a ++ groupsNamed nm b
  | .alt a b => groupsNamed nm a ++ groupsNamed nm b
  | .opt a => groupsNamed nm a
  | .grp n a => (if n = nm then [a] else []) ++ groupsNamed nm a

/-- Does `s` contain any parameter marker occurrence? -/
def hasMarker (s : List Char) : Bool :=
  (segments s).any (fun sg =>
    match sg with
    | .mark _ _ _ => true
    | .lit _ => false)

/-- The group body of the plain day capture, `[1-9]|1[0-9]|2[0-5]`. -/
def dayBody : Reg :=
  .alt (.cls '1' '9')
    (.alt (.seq (.chr '1') (.cls '0' '9')) (.seq (.chr '2') (.cls '0' '5')))

/-- The group body of the padded day capture, `0[1-9]|1[0-9]|2[0-5]`. -/
def padBody : Reg :=
  .alt (.seq (.chr '0') (.cls '1' '9'))
    (.alt (.seq (.chr '1') (.cls '0' '9')) (.seq (.chr '2') (.cls '0' '5')))

/-- The group body of the year capture, `\d{4}`. -/
def yearBody : Reg :=
  .seq (.cls '0' '9') (.seq (.cls '0' '9') (.seq (.cls '0' '9') (.cls '0' '9')))

/-- The group body of the language capture, `rust|csharp|java|python`. -/
def langBody : Reg :=
  .alt (litR "rust".data)
    (.alt (litR "csharp".data) (.alt (litR "java".data) (litR "python".data)))

/-- A four-digit string, the shape of a rendered four-digit year. -/
def Digit4 (v : List Char) : Prop :=
  ∃ a b c d, v = [a, b, c, d] ∧ ('0' ≤ a ∧ a ≤ '9') ∧ ('0' ≤ b ∧ b ≤ '9') ∧
    ('0' ≤ c ∧ c ≤ '9') ∧ ('0' ≤ d ∧ d ≤ '9')

/-- A one-digit day string matched by the first branch of the plain day
pattern. -/
def Day1 (v : List Char) : Prop := ∃ x, v = [x] ∧ '1' ≤ x ∧ x ≤ '9'

/-- A two-digit day string matched by one branch of the padded day
pattern. -/
def Day2 (v : List Char) : Prop :=
  ∃ x, (v = ['0', x] ∧ '1' ≤ x ∧ x ≤ '9') ∨ (v = ['1', x] ∧ '0' ≤ x ∧ x ≤ '9') ∨
    (v = ['2', x] ∧ '0' ≤ x ∧ x ≤ '5')

/-- Does every marker segment carry a canonical marker text? -/
def segCanon : Seg → Bool
  | .lit _ => true
  | .mark _ _ tx => (canonOf tx).isSome

/-- The result of substituting all three parameter values into a
segmented template: literal characters stay, each marker is replaced by
the value of its parameter (`replace_all` substitutes the same value into
every match of the parameter regex, whatever its pad flag). -/
def segSub3 (yv dv lv : List Char) : Seg → List Char
  | .lit c => [c]
  | .mark .year _ _ => yv
  | .mark .day _ _ => dv
  | .mark .language _ _ => lv

/-- The capture list the extraction pattern reports on the fully
substituted template: one entry per marker, in template order, named by
the group each canonical marker was replaced with. -/
def capsOf3 (yv dv lv : List Char) : List Seg → Caps
  | [] => []
  | .lit _ :: rest => capsOf3 yv dv lv rest
  | .mark .year _ _ :: rest => ("year".data, yv) :: capsOf3 yv dv lv rest
  | .mark .day false _ :: rest => ("day".data, dv) :: capsOf3 yv dv lv rest
  | .mark .day true _ :: rest => ("padday".data, dv) :: capsOf3 yv dv lv rest
  | .mark .language _ _ :: rest => ("language".data, lv) :: capsOf3 yv dv lv rest

/-- The pad flag of the first marker segment of parameter `k`. -/
def firstMarkPad (k : PKind) : List Seg → Option Bool
  | [] => none
  | .mark q pad _ :: rest => if q = k then some pad else firstMarkPad k rest
  | .lit _ :: rest => firstMarkPad k rest

/-! ## Theorems -/

/-! ### Structure of marker matches -/

theorem stripPre_iff {p s r : List Char} : stripPre p s = some r ↔ s = p ++ r := by
  induction p generalizing s with
  | nil => simp [stripPre]
  | cons c cs ih =>
    cases s with
    | nil => simp [stripPre]
    | cons x xs =>
      by_cases hx : x = c
      · subst hx
        simp [stripPre, ih]
      · simp [stripPre, hx, Ne.symm hx]

theorem midChar_ne_braceL {c : Char} (h : midChar c = true) : c ≠ '{' := by
  rintro rfl
  exact absurd h (by decide)

theorem midChar_ne_braceR {c : Char} (h : midChar c = true) : c ≠ '}' := by
  rintro rfl
  exact absurd h (by decide)

theorem isWs_midChar {c : Char} (h : isWs c = true) : midChar c = true := by
  simp [midChar, h]

theorem mem_takeWhile_ws {s : List Char} {c : Char} (h : c ∈ s.takeWhile isWs) :
    isWs c = true :=
  List.mem_takeWhile_imp h

theorem matchTail_decomp {name s2 r : List Char} {pad0 pad : Bool}
    (hname : ∀ c ∈ name, midChar c = true)
    (h : matchTail name pad0 s2 = some (pad, r)) :
    pad = pad0 ∧ ∃ mid2, s2 = mid2 ++ '}' :: '}' :: r ∧ ∀ c ∈ mid2, midChar c = true := by
  unfold matchTail at h
  cases h1 : stripPre name s2 with
  | none => simp [h1] at h
  | some s4 =>
    simp only [h1] at h
    cases h2 : stripPre ['}', '}'] (s4.dropWhile isWs) with
    | none => simp [h2] at h
    | some s6 =>
      simp only [h2, Option.some.injEq, Prod.mk.injEq] at h
      obtain ⟨rfl, rfl⟩ : pad = pad0 ∧ r = s6 := ⟨h.1.symm, h.2.symm⟩
      have hs2 : s2 = name ++ s4 := stripPre_iff.mp h1
      have hdw : s4.dropWhile isWs = '}' :: '}' :: r := by
        simpa using stripPre_iff.mp h2
      refine ⟨rfl, name ++ s4.takeWhile isWs, ?_, ?_⟩
      · conv_lhs => rw [hs2, ← List.takeWhile_append_dropWhile isWs s4]
        rw [hdw, List.append_assoc]
      · intro c hc
        rcases List.mem_append.mp hc with hc | hc
        · exact hname c hc
        · exact isWs_midChar (mem_takeWhile_ws hc)

theorem matchTail_decomp_dw {name s1 r : List Char} {pad0 pad : Bool}
    (hname : ∀ c ∈ name, midChar c = true)
    (h : matchTail name pad0 (s1.dropWhile isWs) = some (pad, r)) :
    pad = pad0 ∧ ∃ mid, s1 = mid ++ '}' :: '}' :: r ∧ ∀ c ∈ mid, midChar c = true := by
  obtain ⟨hp, mid2, hmid, hmem⟩ := matchTail_decomp hname h
  refine ⟨hp, s1.takeWhile isWs ++ mid2, ?_, ?_⟩
  · conv_lhs => rw [← List.takeWhile_append_dropWhile isWs s1]
    rw [hmid, List.append_assoc]
  · intro c hc
    rcases List.mem_append.mp hc with hc | hc
    · exact isWs_midChar (mem_takeWhile_ws hc)
    · exact hmem c hc

theorem matchParam_decomp {name : List Char} {pb : Bool} {s r : List Char} {pad : Bool}
    (hname : ∀ c ∈ name, midChar c = true)
    (h : matchParam name pb s = some (pad, r)) :
    ∃ mid, s = '{' :: '{' :: (mid ++ '}' :: '}' :: r) ∧ ∀ c ∈ mid, midChar c = true := by
  unfold matchParam at h
  cases h1 : stripPre ['{', '{'] s with
  | none => simp [h1] at h
  | some s1 =>
    simp only [h1] at h
    have hs : s = '{' :: '{' :: s1 := by simpa using stripPre_iff.mp h1
    subst hs
    cases pb with
    | false =>
      rw [if_neg (by simp)] at h
      obtain ⟨-, mid, hmid, hmem⟩ := matchTail_decomp_dw hname h
      exact ⟨mid, by rw [hmid], hmem⟩
    | true =>
      rw [if_pos rfl] at h
      split at h
      next c cs h2 =>
        by_cases hw : isWs c = true
        · rw [if_pos hw] at h
          obtain ⟨-, mid2, hmid, hmem⟩ := matchTail_decomp_dw hname h
          have hs2 : s1.dropWhile isWs = 'p' :: 'a' :: 'd' :: c :: cs := by
            simpa using stripPre_iff.mp h2
          refine ⟨s1.takeWhile isWs ++ ('p' :: 'a' :: 'd' :: c :: mid2), ?_, ?_⟩
          · have hs1 : s1
                = s1.takeWhile isWs ++ ('p' :: 'a' :: 'd' :: c :: (mid2 ++ '}' :: '}' :: r)) := by
              conv_lhs => rw [← List.takeWhile_append_dropWhile isWs s1]
              rw [hs2, hmid]
            conv_lhs => rw [hs1]
            simp [List.append_assoc]
          · intro x hx
            rcases List.mem_append.mp hx with hx | hx
            · exact isWs_midChar (mem_takeWhile_ws hx)
            · simp only [List.mem_cons] at hx
              rcases hx with rfl | rfl | rfl | rfl | hx
              · decide
              · decide
              · decide
              · exact isWs_midChar hw
              · exact hmem x hx
        · rw [if_neg hw] at h
          obtain ⟨-, mid, hmid, hmem⟩ := matchTail_decomp_dw hname h
          exact ⟨mid, by rw [hmid], hmem⟩
      next x h2 =>
        obtain ⟨-, mid, hmid, hmem⟩ := matchTail_decomp_dw hname h
        exact ⟨mid, by rw [hmid], hmem⟩

theorem matchP_name_mid (k : PKind) : ∀ c ∈ k.nameL, midChar c = true := by
  cases k <;> decide

theorem matchP_decomp {k : PKind} {s r : List Char} {pad : Bool}
    (h : matchP k s = some (pad, r)) :
    ∃ mid, s = '{' :: '{' :: (mid ++ '}' :: '}' :: r) ∧ ∀ c ∈ mid, midChar c = true :=
  matchParam_decomp (matchP_name_mid k) h

theorem matchP_length {k : PKind} {s r : List Char} {pad : Bool}
    (h : matchP k s = some (pad, r)) : r.length < s.length := by
  obtain ⟨mid, hs, -⟩ := matchP_decomp h
  subst hs
  simp [List.length_append]
  omega

theorem matchParam_none_nil {name : List Char} {pb : Bool} :
    matchParam name pb [] = none := rfl

theorem matchParam_none_head {name : List Char} {pb : Bool} {c : Char} {cs : List Char}
    (hc : c ≠ '{') : matchParam name pb (c :: cs) = none := by
  unfold matchParam
  have h : stripPre ['{', '{'] (c :: cs) = none := by
    simp [stripPre, hc]
  simp [h]

theorem matchParam_none_head2 {name : List Char} {pb : Bool} {x : List Char}
    (hx : ∀ c, x.head? = some c → c ≠ '{') :
    matchParam name pb ('{' :: x) = none := by
  unfold matchParam
  have h : stripPre ['{', '{'] ('{' :: x) = none := by
    cases x with
    | nil => rfl
    | cons c cs =>
      have := hx c rfl
      simp [stripPre, this]
  simp [h]

theorem head_drop_append {mid r : List Char} (hmem : ∀ c ∈ mid, midChar c = true)
    {i : Nat} (hi : i ≤ mid.length + 1) :
    ∃ c, ((mid ++ '}' :: '}' :: r).drop i).head? = some c ∧ c ≠ '{' := by
  induction mid generalizing i with
  | nil =>
    match i, hi with
    | 0, _ => exact ⟨'}', rfl, by decide⟩
    | 1, _ => exact ⟨'}', rfl, by decide⟩
  | cons m ms ih =>
    cases i with
    | zero =>
      refine ⟨m, rfl, midChar_ne_braceL (hmem m (by simp))⟩
    | succ j =>
      have hj : j ≤ ms.length + 1 := by
        simpa using Nat.succ_le_succ_iff.mp (by simpa using hi)
      exact ih (fun c hc => hmem c (by simp [hc])) hj

/-- No marker match of any parameter starts strictly inside a marker match:
positions 1 through the end of the match all fail, because the interior and
the closing braces never provide the required `{{`. -/
theorem no_match_inside {mid r : List Char} (hmem : ∀ c ∈ mid, midChar c = true)
    {k : Nat} (h1 : 1 ≤ k) (h2 : k ≤ mid.length + 3) (name : List Char) (pb : Bool) :
    matchParam name pb (('{' :: '{' :: (mid ++ '}' :: '}' :: r)).drop k) = none := by
  obtain ⟨j, rfl⟩ : ∃ j, k = j + 1 := ⟨k - 1, by omega⟩
  rw [List.drop_succ_cons]
  cases j with
  | zero =>
    rw [List.drop_zero]
    refine matchParam_none_head2 (fun c hc => ?_)
    cases mid with
    | nil =>
      simp at hc
      subst hc
      decide
    | cons m ms =>
      simp at hc
      subst hc
      exact midChar_ne_braceL (hmem m (by simp))
  | succ i =>
    rw [List.drop_succ_cons]
    have hi : i ≤ mid.length + 1 := by omega
    obtain ⟨c, hc, hne⟩ := head_drop_append hmem hi
    cases hd : (mid ++ '}' :: '}' :: r).drop i with
    | nil => rw [hd] at hc; exact absurd hc (by simp)
    | cons c0 cs0 =>
      rw [hd] at hc
      simp at hc
      subst hc
      exact matchParam_none_head hne

theorem matchTail_strip {name s2 : List Char} {x : Bool × List Char} {pad0 : Bool}
    (h : matchTail name pad0 s2 = some x) :
    ∃ s4, stripPre name s2 = some s4 := by
  unfold matchTail at h
  cases h1 : stripPre name s2 with
  | none => simp [h1] at h
  | some s4 => exact ⟨s4, rfl⟩

theorem matchP_head {k : PKind} {s : List Char} {pad : Bool} {r : List Char}
    (h : matchP k s = some (pad, r)) :
    ∃ s1 c cs, stripPre ['{', '{'] s = some s1 ∧ s1.dropWhile isWs = c :: cs ∧
      ((k = .year ∧ c = 'y') ∨ (k = .day ∧ c = 'd') ∨ (k = .day ∧ c = 'p') ∨
        (k = .language ∧ c = 'l')) := by
  unfold matchP matchParam at h
  cases h1 : stripPre ['{', '{'] s with
  | none => simp [h1] at h
  | some s1 =>
    simp only [h1] at h
    cases k with
    | year =>
      simp only [PKind.nameL, PKind.paddable, Bool.false_eq_true, if_false] at h
      obtain ⟨s4, h4⟩ := matchTail_strip h
      have := stripPre_iff.mp h4
      exact ⟨s1, 'y', _, rfl, by rw [this]; rfl, Or.inl ⟨rfl, rfl⟩⟩
    | language =>
      simp only [PKind.nameL, PKind.paddable, Bool.false_eq_true, if_false] at h
      obtain ⟨s4, h4⟩ := matchTail_strip h
      have := stripPre_iff.mp h4
      exact ⟨s1, 'l', _, rfl, by rw [this]; rfl, Or.inr (Or.inr (Or.inr ⟨rfl, rfl⟩))⟩
    | day =>
      simp only [PKind.nameL, PKind.paddable, if_true] at h
      split at h
      next c cs h2 =>
        have := stripPre_iff.mp h2
        exact ⟨s1, 'p', _, rfl, by rw [this]; rfl, Or.inr (Or.inr (Or.inl ⟨rfl, rfl⟩))⟩
      next x h2 =>
        obtain ⟨s4, h4⟩ := matchTail_strip h
        have := stripPre_iff.mp h4
        exact ⟨s1, 'd', _, rfl, by rw [this]; rfl, Or.inr (Or.inl ⟨rfl, rfl⟩)⟩

/-- Distinct parameter regexes never match at the same position: after
`{{\s*`, the next character determines the parameter. -/
theorem matchP_exclusive {k₁ k₂ : PKind} {s : List Char} {x : Bool × List Char}
    (hne : k₁ ≠ k₂) (h : matchP k₁ s = some x) : matchP k₂ s = none := by
  cases h2 : matchP k₂ s with
  | none => rfl
  | some y =>
    exfalso
    obtain ⟨pad1, r1⟩ := x
    obtain ⟨pad2, r2⟩ := y
    obtain ⟨s1, c1, cs1, hs1, hdw1, hk1⟩ := matchP_head h
    obtain ⟨s1', c2, cs2, hs1', hdw2, hk2⟩ := matchP_head h2
    rw [hs1] at hs1'
    injection hs1' with hs1''
    subst hs1''
    rw [hdw1] at hdw2
    injection hdw2 with hc _
    subst hc
    rcases hk1 with ⟨hA, rfl⟩ | ⟨hA, rfl⟩ | ⟨hA, rfl⟩ | ⟨hA, rfl⟩ <;>
      rcases hk2 with ⟨hB, hc2⟩ | ⟨hB, hc2⟩ | ⟨hB, hc2⟩ | ⟨hB, hc2⟩ <;>
      first
        | exact hne (hA.trans hB.symm)
        | exact absurd hc2 (by decide)

theorem markerAt_matchP {t : List Char} {k : PKind} {pad : Bool} {rest : List Char}
    (h : markerAt t = some (k, pad, rest)) : matchP k t = some (pad, rest) := by
  unfold markerAt at h
  cases h1 : matchP .year t with
  | some x =>
    obtain ⟨p, r⟩ := x
    simp only [h1] at h
    obtain ⟨rfl, rfl, rfl⟩ : PKind.year = k ∧ p = pad ∧ r = rest := by
      simpa using h
    exact h1
  | none =>
    simp only [h1] at h
    cases h2 : matchP .day t with
    | some x =>
      obtain ⟨p, r⟩ := x
      simp only [h2] at h
      obtain ⟨rfl, rfl, rfl⟩ : PKind.day = k ∧ p = pad ∧ r = rest := by
        simpa using h
      exact h2
    | none =>
      simp only [h2] at h
      cases h3 : matchP .language t with
      | some x =>
        obtain ⟨p, r⟩ := x
        simp only [h3] at h
        obtain ⟨rfl, rfl, rfl⟩ : PKind.language = k ∧ p = pad ∧ r = rest := by
          simpa using h
        exact h3
      | none => simp [h3] at h

theorem markerAt_none {t : List Char} (h : markerAt t = none) (k : PKind) :
    matchP k t = none := by
  unfold markerAt at h
  cases h1 : matchP .year t with
  | some x => simp [h1] at h
  | none =>
    simp only [h1] at h
    cases h2 : matchP .day t with
    | some x => simp [h2] at h
    | none =>
      simp only [h2] at h
      cases h3 : matchP .language t with
      | some x => simp [h3] at h
      | none => cases k
                · exact h1
                · exact h2
                · exact h3

theorem markerAt_of_matchP {k : PKind} {t : List Char} {pad : Bool} {rest : List Char}
    (h : matchP k t = some (pad, rest)) : markerAt t = some (k, pad, rest) := by
  unfold markerAt
  cases k with
  | year => simp [h]
  | day =>
    have hy : matchP .year t = none := matchP_exclusive (by decide) h
    simp [hy, h]
  | language =>
    have hy : matchP .year t = none := matchP_exclusive (by decide) h
    have hd : matchP .day t = none := matchP_exclusive (by decide) h
    simp [hy, hd, h]

theorem markerAt_length {t : List Char} {k : PKind} {pad : Bool} {rest : List Char}
    (h : markerAt t = some (k, pad, rest)) : rest.length < t.length :=
  matchP_length (markerAt_matchP h)

/-! ### Fuel invariance and step equations for the scanning functions -/

theorem segGo_agree : ∀ (f1 f2 : Nat) (t : List Char),
    t.length ≤ f1 → t.length ≤ f2 → segGo f1 t = segGo f2 t := by
  intro f1
  induction f1 with
  | zero =>
    intro f2 t h1 _
    have ht : t = [] := List.length_eq_zero.mp (Nat.le_zero.mp h1)
    subst ht
    cases f2 <;> rfl
  | succ f ih =>
    intro f2 t h1 h2
    cases f2 with
    | zero =>
      have ht : t = [] := List.length_eq_zero.mp (Nat.le_zero.mp h2)
      subst ht
      rfl
    | succ g =>
      cases hm : markerAt t with
      | some x =>
        obtain ⟨k, pad, rest⟩ := x
        have hl : rest.length < t.length := markerAt_length hm
        simp only [segGo, hm]
        rw [ih g rest (by omega) (by omega)]
      | none =>
        cases t with
        | nil => rfl
        | cons c cs =>
          simp only [segGo, hm]
          have hc : cs.length ≤ f := by
            simp only [List.length_cons] at h1
            omega
          have hg : cs.length ≤ g := by
            simp only [List.length_cons] at h2
            omega
          rw [ih g cs hc hg]

theorem segments_nil : segments [] = [] := rfl

theorem segments_eq_mark {t : List Char} {k : PKind} {pad : Bool} {rest : List Char}
    (h : markerAt t = some (k, pad, rest)) :
    segments t = .mark k pad (t.take (t.length - rest.length)) :: segments rest := by
  have hl : rest.length < t.length := markerAt_length h
  obtain ⟨n, hn⟩ : ∃ n, t.length = n + 1 := ⟨t.length - 1, by omega⟩
  unfold segments
  conv_lhs => rw [hn]
  simp only [segGo, h]
  congr 1
  exact segGo_agree n rest.length rest (by omega) le_rfl

theorem segments_eq_lit {c : Char} {cs : List Char} (h : markerAt (c :: cs) = none) :
    segments (c :: cs) = .lit c :: segments cs := by
  show segGo (cs.length + 1) (c :: cs) = _
  simp only [segGo, h]
  rfl

theorem repGo_agree (k : PKind) (r : List Char) : ∀ (f1 f2 : Nat) (t : List Char),
    t.length ≤ f1 → t.length ≤ f2 → repGo k r f1 t = repGo k r f2 t := by
  intro f1
  induction f1 with
  | zero =>
    intro f2 t h1 _
    have ht : t = [] := List.length_eq_zero.mp (Nat.le_zero.mp h1)
    subst ht
    cases f2 <;> rfl
  | succ f ih =>
    intro f2 t h1 h2
    cases f2 with
    | zero =>
      have ht : t = [] := List.length_eq_zero.mp (Nat.le_zero.mp h2)
      subst ht
      rfl
    | succ g =>
      cases hm : matchP k t with
      | some x =>
        obtain ⟨pad, rest⟩ := x
        have hl : rest.length < t.length := matchP_length hm
        simp only [repGo, hm]
        rw [ih g rest (by omega) (by omega)]
      | none =>
        cases t with
        | nil => rfl
        | cons c cs =>
          simp only [repGo, hm]
          have hc : cs.length ≤ f := by
            simp only [List.length_cons] at h1
            omega
          have hg : cs.length ≤ g := by
            simp only [List.length_cons] at h2
            omega
          rw [ih g cs hc hg]

theorem repP_nil {k : PKind} {r : List Char} : replaceAllP k r [] = [] := rfl

theorem repP_match {k : PKind} {r s : List Char} {pad : Bool} {rest : List Char}
    (h : matchP k s = some (pad, rest)) :
    replaceAllP k r s = r ++ replaceAllP k r rest := by
  have hl : rest.length < s.length := matchP_length h
  obtain ⟨n, hn⟩ : ∃ n, s.length = n + 1 := ⟨s.length - 1, by omega⟩
  unfold replaceAllP
  conv_lhs => rw [hn]
  simp only [repGo, h]
  congr 1
  exact repGo_agree k r n rest.length rest (by omega) le_rfl

theorem repP_lit {k : PKind} {r : List Char} {c : Char} {cs : List Char}
    (h : matchP k (c :: cs) = none) :
    replaceAllP k r (c :: cs) = c :: replaceAllP k r cs := by
  show repGo k r (cs.length + 1) (c :: cs) = _
  simp only [repGo, h]
  rfl

theorem textsGo_agree (k : PKind) : ∀ (f1 f2 : Nat) (t : List Char),
    t.length ≤ f1 → t.length ≤ f2 → textsGo k f1 t = textsGo k f2 t := by
  intro f1
  induction f1 with
  | zero =>
    intro f2 t h1 _
    have ht : t = [] := List.length_eq_zero.mp (Nat.le_zero.mp h1)
    subst ht
    cases f2 <;> rfl
  | succ f ih =>
    intro f2 t h1 h2
    cases f2 with
    | zero =>
      have ht : t = [] := List.length_eq_zero.mp (Nat.le_zero.mp h2)
      subst ht
      rfl
    | succ g =>
      cases hm : matchP k t with
      | some x =>
        obtain ⟨pad, rest⟩ := x
        have hl : rest.length < t.length := matchP_length hm
        simp only [textsGo, hm]
        rw [ih g rest (by omega) (by omega)]
      | none =>
        cases t with
        | nil => rfl
        | cons c cs =>
          simp only [textsGo, hm]
          have hc : cs.length ≤ f := by
            simp only [List.length_cons] at h1
            omega
          have hg : cs.length ≤ g := by
            simp only [List.length_cons] at h2
            omega
          rw [ih g cs hc hg]

theorem textsP_nil {k : PKind} : findTextsP k [] = [] := rfl

theorem textsP_match {k : PKind} {s : List Char} {pad : Bool} {rest : List Char}
    (h : matchP k s = some (pad, rest)) :
    findTextsP k s = s.take (s.length - rest.length) :: findTextsP k rest := by
  have hl : rest.length < s.length := matchP_length h
  obtain ⟨n, hn⟩ : ∃ n, s.length = n + 1 := ⟨s.length - 1, by omega⟩
  unfold findTextsP
  conv_lhs => rw [hn]
  simp only [textsGo, h]
  congr 1
  exact textsGo_agree k n rest.length rest (by omega) le_rfl

theorem textsP_lit {k : PKind} {c : Char} {cs : List Char}
    (h : matchP k (c :: cs) = none) :
    findTextsP k (c :: cs) = findTextsP k cs := by
  show textsGo k (cs.length + 1) (c :: cs) = _
  simp only [textsGo, h]
  rfl

theorem firstPadGo_agree (k : PKind) : ∀ (f1 f2 : Nat) (t : List Char),
    t.length + 1 ≤ f1 → t.length + 1 ≤ f2 → firstPadGo k f1 t = firstPadGo k f2 t := by
  intro f1
  induction f1 with
  | zero =>
    intro f2 t h1 _
    omega
  | succ f ih =>
    intro f2 t h1 h2
    cases f2 with
    | zero => omega
    | succ g =>
      cases hm : matchP k t with
      | some x =>
        obtain ⟨pad, rest⟩ := x
        simp only [firstPadGo, hm]
      | none =>
        cases t with
        | nil => rfl
        | cons c cs =>
          simp only [firstPadGo, hm]
          have hc : cs.length + 1 ≤ f := by
            simp only [List.length_cons] at h1
            omega
          have hg : cs.length + 1 ≤ g := by
            simp only [List.length_cons] at h2
            omega
          rw [ih g cs hc hg]

theorem firstPad_nil {k : PKind} : firstPad k [] = none := rfl

theorem firstPad_match {k : PKind} {s : List Char} {pad : Bool} {rest : List Char}
    (h : matchP k s = some (pad, rest)) : firstPad k s = some pad := by
  unfold firstPad
  obtain ⟨n, hn⟩ : ∃ n, s.length + 1 = n + 1 := ⟨s.length, rfl⟩
  rw [hn]
  simp only [firstPadGo, h]

theorem firstPad_lit {k : PKind} {c : Char} {cs : List Char}
    (h : matchP k (c :: cs) = none) : firstPad k (c :: cs) = firstPad k cs := by
  show firstPadGo k (cs.length + 1 + 1) (c :: cs) = _
  simp only [firstPadGo, h]
  exact firstPadGo_agree k (cs.length + 1) (cs.length + 1) cs le_rfl le_rfl

theorem capGo_agree (re : Reg) : ∀ (f1 f2 : Nat) (t : List Char),
    t.length + 1 ≤ f1 → t.length + 1 ≤ f2 → capGo f1 re t = capGo f2 re t := by
  intro f1
  induction f1 with
  | zero =>
    intro f2 t h1 _
    omega
  | succ f ih =>
    intro f2 t h1 h2
    cases f2 with
    | zero => omega
    | succ g =>
      cases hm : (parses re t).head? with
      | some pr => simp only [capGo, hm]
      | none =>
        cases t with
        | nil => simp only [capGo, hm]
        | cons c cs =>
          simp only [capGo, hm]
          have hc : cs.length + 1 ≤ f := by
            simp only [List.length_cons] at h1
            omega
          have hg : cs.length + 1 ≤ g := by
            simp only [List.length_cons] at h2
            omega
          rw [ih g cs hc hg]

theorem findCap_nil {re : Reg} (h : parses re [] = []) : findCap re [] = none := by
  unfold findCap capGo
  simp [h]

theorem findCap_head {re : Reg} {s : List Char} {pr : Caps × List Char}
    (h : (parses re s).head? = some pr) : findCap re s = some pr.1 := by
  unfold findCap
  obtain ⟨n, hn⟩ : ∃ n, s.length + 1 = n + 1 := ⟨s.length, rfl⟩
  rw [hn]
  simp only [capGo, h]

theorem findCap_step {re : Reg} {c : Char} {cs : List Char}
    (h : (parses re (c :: cs)).head? = none) :
    findCap re (c :: cs) = findCap re cs := by
  show capGo (cs.length + 1 + 1) re (c :: cs) = _
  simp only [capGo, h]
  exact capGo_agree re (cs.length + 1) (cs.length + 1) cs le_rfl le_rfl

/-! ### Exact shape of marker matches: soundness and completeness -/

theorem dropWhile_ws_append {w z : List Char} (hw : wsOnly w)
    (hz : ∀ c, z.head? = some c → isWs c = false) :
    List.dropWhile isWs (w ++ z) = z := by
  induction w with
  | nil =>
    cases z with
    | nil => rfl
    | cons c zs =>
      simp only [List.nil_append, List.dropWhile_cons, hz c rfl]
      simp
  | cons c cs ih =>
    have hc : isWs c = true := hw c (by simp)
    simp only [List.cons_append, List.dropWhile_cons, hc]
    simp only [if_true]
    exact ih (fun x hx => hw x (by simp [hx]))

theorem matchTail_shape {name s2 r : List Char} {pad0 pad : Bool}
    (h : matchTail name pad0 s2 = some (pad, r)) :
    pad = pad0 ∧ ∃ w2, s2 = name ++ (w2 ++ '}' :: '}' :: r) ∧ wsOnly w2 := by
  unfold matchTail at h
  cases h1 : stripPre name s2 with
  | none => simp [h1] at h
  | some s4 =>
    simp only [h1] at h
    cases h2 : stripPre ['}', '}'] (s4.dropWhile isWs) with
    | none => simp [h2] at h
    | some s6 =>
      simp only [h2, Option.some.injEq, Prod.mk.injEq] at h
      obtain ⟨rfl, rfl⟩ : pad = pad0 ∧ r = s6 := ⟨h.1.symm, h.2.symm⟩
      have hs2 : s2 = name ++ s4 := stripPre_iff.mp h1
      have hdw : s4.dropWhile isWs = '}' :: '}' :: r := by
        simpa using stripPre_iff.mp h2
      refine ⟨rfl, s4.takeWhile isWs, ?_, fun c hc => mem_takeWhile_ws hc⟩
      conv_lhs => rw [hs2, ← List.takeWhile_append_dropWhile isWs s4]
      rw [hdw]

theorem stripPre_day_p {x : List Char} : stripPre ['d', 'a', 'y'] ('p' :: x) = none := by
  simp [stripPre]

theorem matchP_shape {k : PKind} {s : List Char} {pad : Bool} {rest : List Char}
    (h : matchP k s = some (pad, rest)) :
    ∃ pre, s = pre ++ rest ∧ MarkerShape k pad pre := by
  unfold matchP matchParam at h
  cases h1 : stripPre ['{', '{'] s with
  | none => simp [h1] at h
  | some s1 =>
    simp only [h1] at h
    have hs : s = '{' :: '{' :: s1 := by simpa using stripPre_iff.mp h1
    subst hs
    have hsplit : s1 = s1.takeWhile isWs ++ s1.dropWhile isWs :=
      (List.takeWhile_append_dropWhile isWs s1).symm
    have hw1 : wsOnly (s1.takeWhile isWs) := fun c hc => mem_takeWhile_ws hc
    cases k with
    | year =>
      simp only [PKind.nameL, PKind.paddable, Bool.false_eq_true, if_false] at h
      obtain ⟨rfl, w2, hdw, hw2⟩ := matchTail_shape h
      refine ⟨'{' :: '{' :: (s1.takeWhile isWs ++ [] ++ "year".data ++ w2 ++ ['}', '}']),
        ?_, s1.takeWhile isWs, [], w2, rfl, hw1, hw2, Or.inl ⟨rfl, rfl⟩⟩
      simp only [List.cons_append]
      congr 1
      congr 1
      conv_lhs => rw [hsplit, hdw]
      simp [List.append_assoc]
    | language =>
      simp only [PKind.nameL, PKind.paddable, Bool.false_eq_true, if_false] at h
      obtain ⟨rfl, w2, hdw, hw2⟩ := matchTail_shape h
      refine ⟨'{' :: '{' :: (s1.takeWhile isWs ++ [] ++ "language".data ++ w2 ++ ['}', '}']),
        ?_, s1.takeWhile isWs, [], w2, rfl, hw1, hw2, Or.inl ⟨rfl, rfl⟩⟩
      simp only [List.cons_append]
      congr 1
      congr 1
      conv_lhs => rw [hsplit, hdw]
      simp [List.append_assoc]
    | day =>
      simp only [PKind.nameL, PKind.paddable, if_true] at h
      split at h
      next c cs h2 =>
        by_cases hwc : isWs c = true
        · rw [if_pos hwc] at h
          obtain ⟨rfl, w2, hdw, hw2⟩ := matchTail_shape h
          have hs2 : s1.dropWhile isWs = 'p' :: 'a' :: 'd' :: c :: cs := by
            simpa using stripPre_iff.mp h2
          have hcs : cs = cs.takeWhile isWs ++ cs.dropWhile isWs :=
            (List.takeWhile_append_dropWhile isWs cs).symm
          refine ⟨'{' :: '{' :: (s1.takeWhile isWs ++
              ('p' :: 'a' :: 'd' :: c :: cs.takeWhile isWs) ++ "day".data ++ w2 ++ ['}', '}']),
            ?_, s1.takeWhile isWs, 'p' :: 'a' :: 'd' :: c :: cs.takeWhile isWs, w2, rfl,
            hw1, hw2,
            Or.inr ⟨rfl, rfl, c, cs.takeWhile isWs, rfl, hwc,
              fun x hx => mem_takeWhile_ws hx⟩⟩
          simp only [List.cons_append]
          congr 1
          congr 1
          conv_lhs => rw [hsplit, hs2]
          conv_lhs => rw [hcs, hdw]
          simp [List.append_assoc]
        · rw [if_neg hwc] at h
          exfalso
          obtain ⟨s4, h4⟩ := matchTail_strip h
          have hs2 : s1.dropWhile isWs = 'p' :: 'a' :: 'd' :: c :: cs := by
            simpa using stripPre_iff.mp h2
          rw [hs2] at h4
          rw [stripPre_day_p] at h4
          exact absurd h4 (by simp)
      next x h2 =>
        obtain ⟨rfl, w2, hdw, hw2⟩ := matchTail_shape h
        refine ⟨'{' :: '{' :: (s1.takeWhile isWs ++ [] ++ "day".data ++ w2 ++ ['}', '}']),
          ?_, s1.takeWhile isWs, [], w2, rfl, hw1, hw2, Or.inl ⟨rfl, rfl⟩⟩
        simp only [List.cons_append]
        congr 1
        congr 1
        conv_lhs => rw [hsplit, hdw]
        simp [List.append_assoc]

theorem nameL_head (k : PKind) :
    ∃ c cs, k.nameL = c :: cs ∧ isWs c = false ∧ c ≠ 'p' := by
  cases k with
  | year => exact ⟨'y', _, rfl, by decide, by decide⟩
  | day => exact ⟨'d', _, rfl, by decide, by decide⟩
  | language => exact ⟨'l', _, rfl, by decide, by decide⟩

theorem matchTail_complete {name w2 w : List Char} {pad0 : Bool}
    (hw2 : wsOnly w2) :
    matchTail name pad0 (name ++ (w2 ++ '}' :: '}' :: w)) = some (pad0, w) := by
  unfold matchTail
  have h1 : stripPre name (name ++ (w2 ++ '}' :: '}' :: w))
      = some (w2 ++ '}' :: '}' :: w) := stripPre_iff.mpr rfl
  have h2 : (w2 ++ '}' :: '}' :: w).dropWhile isWs = '}' :: '}' :: w :=
    dropWhile_ws_append hw2 (fun c hc => by
      simp only [List.head?_cons, Option.some.injEq] at hc
      subst hc
      decide)
  have h3 : stripPre ['}', '}'] ('}' :: '}' :: w) = some w := stripPre_iff.mpr rfl
  simp only [h1, h2, h3]

/-- Completeness: the parameter regex of kind `k` matches every text of the
corresponding shape, whatever follows it, consuming exactly the shape. -/
theorem matchP_complete {k : PKind} {pad : Bool} {pre : List Char}
    (hs : MarkerShape k pad pre) (w : List Char) :
    matchP k (pre ++ w) = some (pad, w) := by
  obtain ⟨w1, padtxt, w2, hpre, hw1, hw2, hdisj⟩ := hs
  subst hpre
  obtain ⟨nc, ncs, hnck, hncw, hncp⟩ := nameL_head k
  unfold matchP matchParam
  have h1 : stripPre ['{', '{']
      (('{' :: '{' :: (w1 ++ padtxt ++ k.nameL ++ w2 ++ ['}', '}'])) ++ w)
      = some ((w1 ++ padtxt ++ k.nameL ++ w2 ++ ['}', '}']) ++ w) :=
    stripPre_iff.mpr (by simp)
  simp only [h1]
  rcases hdisj with ⟨rfl, rfl⟩ | ⟨rfl, rfl, c, w3, rfl, hwc, hw3⟩
  · -- plain form: no pad text
    have hdw : ((w1 ++ [] ++ k.nameL ++ w2 ++ ['}', '}']) ++ w).dropWhile isWs
        = k.nameL ++ (w2 ++ '}' :: '}' :: w) := by
      have hassoc : (w1 ++ [] ++ k.nameL ++ w2 ++ ['}', '}']) ++ w
          = w1 ++ (k.nameL ++ (w2 ++ '}' :: '}' :: w)) := by
        simp [List.append_assoc]
      rw [hassoc]
      exact dropWhile_ws_append hw1 (fun x hx => by
        rw [hnck] at hx
        simp only [List.cons_append, List.head?_cons, Option.some.injEq] at hx
        subst hx
        exact hncw)
    have htail : matchTail k.nameL false (k.nameL ++ (w2 ++ '}' :: '}' :: w))
        = some (false, w) := matchTail_complete hw2
    cases hk : k.paddable with
    | false =>
      rw [if_neg (by simp [hk])]
      rw [hdw, htail]
    | true =>
      rw [if_pos (by simp [hk])]
      rw [hdw]
      have hpadfail : stripPre ['p', 'a', 'd'] (k.nameL ++ (w2 ++ '}' :: '}' :: w)) = none := by
        rw [hnck]
        simp only [List.cons_append]
        unfold stripPre
        rw [if_neg hncp]
      simp only [hpadfail]
      exact htail
  · -- padded form
    have hdw : ((w1 ++ ('p' :: 'a' :: 'd' :: c :: w3) ++ PKind.day.nameL ++ w2 ++ ['}', '}']) ++ w).dropWhile isWs
        = 'p' :: 'a' :: 'd' :: c :: (w3 ++ (PKind.day.nameL ++ (w2 ++ '}' :: '}' :: w))) := by
      have hassoc : (w1 ++ ('p' :: 'a' :: 'd' :: c :: w3) ++ PKind.day.nameL ++ w2 ++ ['}', '}']) ++ w
          = w1 ++ ('p' :: 'a' :: 'd' :: c :: (w3 ++ (PKind.day.nameL ++ (w2 ++ '}' :: '}' :: w)))) := by
        simp [List.append_assoc]
      rw [hassoc]
      exact dropWhile_ws_append hw1 (fun x hx => by
        simp only [List.head?_cons, Option.some.injEq] at hx
        subst hx
        decide)
    rw [if_pos (by decide)]
    rw [hdw]
    have hpad : stripPre ['p', 'a', 'd']
        ('p' :: 'a' :: 'd' :: c :: (w3 ++ (PKind.day.nameL ++ (w2 ++ '}' :: '}' :: w))))
        = some (c :: (w3 ++ (PKind.day.nameL ++ (w2 ++ '}' :: '}' :: w)))) := stripPre_iff.mpr rfl
    simp only [hpad]
    rw [if_pos hwc]
    have hdw3 : (w3 ++ (PKind.day.nameL ++ (w2 ++ '}' :: '}' :: w))).dropWhile isWs
        = PKind.day.nameL ++ (w2 ++ '}' :: '}' :: w) :=
      dropWhile_ws_append hw3 (fun x hx => by
        rw [hnck] at hx
        simp only [List.cons_append, List.head?_cons, Option.some.injEq] at hx
        subst hx
        exact hncw)
    rw [hdw3]
    exact matchTail_complete hw2

theorem matchP_consumed {k : PKind} {s : List Char} {pad : Bool} {rest : List Char}
    (h : matchP k s = some (pad, rest)) :
    s.take (s.length - rest.length) ++ rest = s ∧
    MarkerShape k pad (s.take (s.length - rest.length)) := by
  obtain ⟨pre, heq, hshape⟩ := matchP_shape h
  subst heq
  have hlen : (pre ++ rest).length - rest.length = pre.length := by
    simp [List.length_append]
  rw [hlen, List.take_left]
  exact ⟨rfl, hshape⟩

/-- A match reads nothing beyond the text it consumes: the same consumed
text followed by any suffix matches, returning that suffix. -/
theorem matchP_suffix {k : PKind} {u t : List Char} {pad : Bool}
    (h : matchP k (u ++ t) = some (pad, t)) (w : List Char) :
    matchP k (u ++ w) = some (pad, w) := by
  obtain ⟨pre, heq, hshape⟩ := matchP_shape h
  have hu : u = pre := List.append_cancel_right heq
  subst hu
  exact matchP_complete hshape w

theorem midChar_markerChar {c : Char} (h : midChar c = true) : markerChar c = true := by
  simp [markerChar, h]

theorem shape_chars {k : PKind} {pad : Bool} {pre : List Char}
    (h : MarkerShape k pad pre) : ∀ c ∈ pre, markerChar c = true := by
  obtain ⟨w1, padtxt, w2, hpre, hw1, hw2, hdisj⟩ := h
  subst hpre
  intro c hc
  simp only [List.mem_cons, List.mem_append] at hc
  rcases hc with rfl | rfl | hc
  · decide
  · decide
  rcases hc with (((hc | hc) | hc) | hc) | hc
  · exact midChar_markerChar (isWs_midChar (hw1 c hc))
  · rcases hdisj with ⟨-, rfl⟩ | ⟨-, -, x, w3, rfl, hwx, hw3⟩
    · simp at hc
    · simp only [List.mem_cons] at hc
      rcases hc with rfl | rfl | rfl | rfl | hc
      · decide
      · decide
      · decide
      · exact midChar_markerChar (isWs_midChar hwx)
      · exact midChar_markerChar (isWs_midChar (hw3 c hc))
  · exact midChar_markerChar (matchP_name_mid k c hc)
  · exact midChar_markerChar (isWs_midChar (hw2 c hc))
  · rcases hc with rfl | rfl | hc
    · decide
    · decide
    · simp at hc

theorem shape_ends {k : PKind} {pad : Bool} {pre : List Char}
    (h : MarkerShape k pad pre) : pre.getLast? = some '}' := by
  obtain ⟨w1, padtxt, w2, hpre, -, -, -⟩ := h
  subst hpre
  have : '{' :: '{' :: (w1 ++ padtxt ++ k.nameL ++ w2 ++ ['}', '}'])
      = ('{' :: '{' :: (w1 ++ padtxt ++ k.nameL ++ w2 ++ ['}'])) ++ ['}'] := by
    simp
  rw [this, List.getLast?_append_of_ne_nil _ (by simp)]
  rfl

theorem getLast?_mem {l : List Char} {a : Char} (h : l.getLast? = some a) : a ∈ l := by
  have hx : a ∈ l.getLast? := Option.mem_def.mpr h
  obtain ⟨hne, ha⟩ := List.mem_getLast?_eq_getLast hx
  rw [ha]
  exact List.getLast_mem hne

theorem matchP_no_inside {p : PKind} {s restp : List Char} {pad : Bool}
    (hp : matchP p s = some (pad, restp)) :
    ∀ i, 1 ≤ i → i < s.length - restp.length → ∀ q : PKind, matchP q (s.drop i) = none := by
  obtain ⟨mid, hs, hmem⟩ := matchP_decomp hp
  subst hs
  intro i h1 h2 q
  have hlen : ('{' :: '{' :: (mid ++ '}' :: '}' :: restp)).length - restp.length
      = mid.length + 4 := by
    simp only [List.length_cons, List.length_append]
    omega
  rw [hlen] at h2
  exact no_match_inside hmem h1 (by omega) q.nameL q.paddable

theorem no_match_over {k x : PKind} {s rest : List Char} {pad : Bool}
    (hk : matchP k s = some (pad, rest)) (hx0 : matchP x s = none) :
    ∀ i, i < s.length - rest.length → matchP x (s.drop i) = none := by
  intro i hi
  cases i with
  | zero => simpa using hx0
  | succ j => exact matchP_no_inside hk (j + 1) (by omega) hi x

theorem texts_skip {p : PKind} {u rest : List Char}
    (h : ∀ i < u.length, matchP p ((u ++ rest).drop i) = none) :
    findTextsP p (u ++ rest) = findTextsP p rest := by
  induction u with
  | nil => simp
  | cons c cs ih =>
    have h0 : matchP p (c :: (cs ++ rest)) = none := by simpa using h 0 (by simp)
    rw [List.cons_append, textsP_lit h0]
    exact ih (fun i hi => by
      have := h (i + 1) (by simp only [List.length_cons]; omega)
      simpa using this)

theorem rep_skip {q : PKind} {r u rest : List Char}
    (h : ∀ i < u.length, matchP q ((u ++ rest).drop i) = none) :
    replaceAllP q r (u ++ rest) = u ++ replaceAllP q r rest := by
  induction u with
  | nil => simp
  | cons c cs ih =>
    have h0 : matchP q (c :: (cs ++ rest)) = none := by simpa using h 0 (by simp)
    rw [List.cons_append, repP_lit h0]
    rw [ih (fun i hi => by
      have := h (i + 1) (by simp only [List.length_cons]; omega)
      simpa using this)]
    rfl

theorem texts_prefix_skip {p : PKind} {r x : List Char}
    (hr : ∀ c ∈ r, c ≠ '{') :
    findTextsP p (r ++ x) = findTextsP p x := by
  induction r with
  | nil => simp
  | cons c cs ih =>
    rw [List.cons_append, textsP_lit (matchParam_none_head (hr c (by simp)))]
    exact ih (fun y hy => hr y (by simp [hy]))

/-- Decompose `replace_all` at the first match: either there is no match
at all and the string is returned unchanged, or the string splits into a
match-free prefix, the first match, and the replaced remainder. -/
theorem repP_first (q : PKind) (r : List Char) (cs : List Char) :
    (replaceAllP q r cs = cs ∧ ∀ i < cs.length, matchP q (cs.drop i) = none) ∨
    ∃ u v pad rest, cs = u ++ v ∧ matchP q v = some (pad, rest) ∧
      (∀ i < u.length, matchP q (cs.drop i) = none) ∧
      replaceAllP q r cs = u ++ (r ++ replaceAllP q r rest) := by
  induction cs with
  | nil => exact Or.inl ⟨rfl, by simp⟩
  | cons c cs0 ih =>
    cases h0 : matchP q (c :: cs0) with
    | some x =>
      obtain ⟨pad, rest⟩ := x
      exact Or.inr ⟨[], c :: cs0, pad, rest, rfl, h0, by simp, by
        rw [repP_match h0]; simp⟩
    | none =>
      rcases ih with ⟨hid, hno⟩ | ⟨u, v, pad, rest, hcs, hv, hu, hrw⟩
      · refine Or.inl ⟨by rw [repP_lit h0, hid], ?_⟩
        intro i hi
        cases i with
        | zero => simpa using h0
        | succ j =>
          have := hno j (by simp only [List.length_cons] at hi; omega)
          simpa using this
      · refine Or.inr ⟨c :: u, v, pad, rest, by rw [hcs]; rfl, hv, ?_, ?_⟩
        · intro i hi
          cases i with
          | zero => simpa using h0
          | succ j =>
            have := hu j (by simp only [List.length_cons] at hi; omega)
            simpa using this
        · rw [repP_lit h0, hrw]
          rfl

/-- The replacement of one parameter creates no new match of any
parameter at the front: an inert replacement value can neither begin nor
end a marker, and cannot lie inside one. -/
theorem no_new_match {p q : PKind} {r : List Char} (hr : inertVal r)
    {c : Char} {cs : List Char}
    (hq0 : matchP q (c :: cs) = none) (hp0 : matchP p (c :: cs) = none) :
    matchP p (c :: replaceAllP q r cs) = none := by
  cases hres : matchP p (c :: replaceAllP q r cs) with
  | none => rfl
  | some x =>
    exfalso
    obtain ⟨pad, rest'⟩ := x
    obtain ⟨pre, heq, hshape⟩ := matchP_shape hres
    rcases repP_first q r cs with ⟨hid, -⟩ | ⟨u, v, pad2, rest, hcs, hv, -, hrw⟩
    · rw [hid] at heq
      have hc := matchP_complete hshape rest'
      rw [← heq, hp0] at hc
      exact absurd hc (by simp)
    · rw [hrw] at heq
      -- heq : c :: (u ++ (r ++ replaceAllP q r rest)) = pre ++ rest'
      have hpre : pre = (c :: (u ++ (r ++ replaceAllP q r rest))).take pre.length := by
        rw [heq, List.take_left]
      by_cases hle : pre.length ≤ (c :: u).length
      · -- the would-be match lies inside the unreplaced prefix
        have hpre2 : pre = (c :: u).take pre.length := by
          have hL : c :: (u ++ (r ++ replaceAllP q r rest))
              = (c :: u) ++ (r ++ replaceAllP q r rest) := by simp
          conv_lhs => rw [hpre, hL]
          rw [List.take_append_of_le_length hle]
        have hprefix : (c :: u).take pre.length ++ (c :: u).drop pre.length = c :: u :=
          List.take_append_drop _ _
        have hcs2 : c :: cs = pre ++ ((c :: u).drop pre.length ++ v) := by
          rw [hcs]
          conv_lhs => rw [show c :: (u ++ v) = (c :: u) ++ v by simp]
          conv_lhs => rw [← hprefix]
          rw [← hpre2]
          simp [List.append_assoc]
        have hc := matchP_complete hshape ((c :: u).drop pre.length ++ v)
        rw [← hcs2, hp0] at hc
        exact absurd hc (by simp)
      · -- the would-be match extends into the replaced value
        push_neg at hle
        set j := pre.length - (c :: u).length with hj
        have hj1 : 1 ≤ j := by omega
        by_cases hjr : j < r.length
        · -- it would end strictly inside the replacement value
          have hpre2 : pre = (c :: u) ++ r.take j := by
            have hL : c :: (u ++ (r ++ replaceAllP q r rest))
                = (c :: u) ++ (r ++ replaceAllP q r rest) := by simp
            have hlen : pre.length = (c :: u).length + j := by omega
            conv_lhs => rw [hpre, hL, hlen]
            rw [List.take_append]
            congr 1
            exact List.take_append_of_le_length (by omega)
          have hlast := shape_ends hshape
          rw [hpre2] at hlast
          have htk : r.take j ≠ [] := by
            intro hnil
            have : j = 0 ∨ r = [] := List.take_eq_nil_iff.mp hnil
            rcases this with h | h
            · omega
            · rw [h] at hjr; simp at hjr
          rw [List.getLast?_append_of_ne_nil _ htk] at hlast
          have : ('}' : Char) ∈ r.take j := getLast?_mem hlast
          have : ('}' : Char) ∈ r := List.take_subset _ _ this
          exact absurd rfl (hr.2.1 '}' this).2
        · -- the replacement value would lie entirely inside the match
          push_neg at hjr
          obtain ⟨bad, hbad, hbadm⟩ := hr.2.2
          have hpre2 : pre = (c :: u) ++ (r ++ (replaceAllP q r rest).take (j - r.length)) := by
            have hL : c :: (u ++ (r ++ replaceAllP q r rest))
                = (c :: u) ++ (r ++ replaceAllP q r rest) := by simp
            have hlen : pre.length = (c :: u).length + j := by omega
            conv_lhs => rw [hpre, hL, hlen]
            rw [List.take_append]
            congr 1
            have hlen2 : j = r.length + (j - r.length) := by omega
            conv_lhs => rw [hlen2]
            rw [List.take_append]
          have hmem : bad ∈ pre := by
            rw [hpre2]
            simp [hbad]
          have := shape_chars hshape bad hmem
          rw [hbadm] at this
          exact absurd this (by simp)

/-! ### Replacement values are inert -/

theorem markerChar_not_digit {c : Char} (h : markerChar c = true) : c.isDigit = false := by
  simp [markerChar, midChar, isWs] at h
  rcases h with ((rfl | rfl) |
    ((((((rfl | rfl) | rfl) | rfl) | rfl) | rfl) |
      (rfl | rfl | rfl | rfl | rfl | rfl | rfl | rfl | rfl | rfl))) <;> decide

theorem digit_not_markerChar {c : Char} (h : c.isDigit = true) : markerChar c = false := by
  cases hm : markerChar c with
  | false => rfl
  | true => rw [markerChar_not_digit hm] at h; exact absurd h (by simp)

theorem inert_of_digits {l : List Char} (hne : l ≠ [])
    (hd : ∀ c ∈ l, c.isDigit = true) : inertVal l := by
  refine ⟨hne, ?_, ?_⟩
  · intro c hc
    have := digit_not_markerChar (hd c hc)
    constructor
    · rintro rfl
      exact absurd (hd _ hc) (by decide)
    · rintro rfl
      exact absurd (hd _ hc) (by decide)
  · cases l with
    | nil => exact absurd rfl hne
    | cons c cs =>
      exact ⟨c, by simp, digit_not_markerChar (hd c (by simp))⟩

theorem digitChar_isDigit {m : Nat} (h : m < 10) : (Nat.digitChar m).isDigit = true := by
  interval_cases m <;> decide

theorem natStrGo_digits : ∀ (fuel n : Nat), ∀ c ∈ natStrGo fuel n, c.isDigit = true := by
  intro fuel
  induction fuel with
  | zero => intro n c hc; simp [natStrGo] at hc
  | succ f ih =>
    intro n c hc
    by_cases hn : n < 10
    · rw [natStrGo, if_pos hn] at hc
      simp only [List.mem_singleton] at hc
      subst hc
      exact digitChar_isDigit hn
    · rw [natStrGo, if_neg hn] at hc
      rcases List.mem_append.mp hc with hc | hc
      · exact ih _ c hc
      · simp only [List.mem_singleton] at hc
        subst hc
        exact digitChar_isDigit (Nat.mod_lt _ (by omega))

theorem natStr_digits {n : Nat} : ∀ c ∈ natStr n, c.isDigit = true :=
  natStrGo_digits (n + 1) n

theorem natStrGo_ne_nil {fuel n : Nat} : natStrGo (fuel + 1) n ≠ [] := by
  by_cases hn : n < 10
  · rw [natStrGo, if_pos hn]; simp
  · rw [natStrGo, if_neg hn]; simp

theorem natStr_ne_nil {n : Nat} : natStr n ≠ [] := natStrGo_ne_nil

theorem inert_natStr (n : Nat) : inertVal (natStr n) :=
  inert_of_digits natStr_ne_nil natStr_digits

theorem pad2_digits {v : List Char} (hd : ∀ c ∈ v, c.isDigit = true) :
    ∀ c ∈ pad2 v, c.isDigit = true := by
  intro c hc
  unfold pad2 at hc
  split at hc
  · rcases List.mem_append.mp hc with hc | hc
    · have := List.eq_of_mem_replicate hc
      subst this
      decide
    · exact hd c hc
  · exact hd c hc

theorem pad2_ne_nil {v : List Char} : pad2 v ≠ [] := by
  unfold pad2
  split
  next h =>
    simp only [ne_eq, List.append_eq_nil, not_and]
    intro hrep
    have := congrArg List.length hrep
    simp only [List.length_replicate, List.length_nil] at this
    omega
  next h =>
    intro hv
    rw [hv] at h
    simp at h

theorem inert_pad2_natStr (n : Nat) : inertVal (pad2 (natStr n)) :=
  inert_of_digits pad2_ne_nil (pad2_digits natStr_digits)

theorem inert_langStr (l : Language) : inertVal (Language.str l) := by
  cases l <;> exact ⟨by decide, by decide, by decide⟩

/-! ### Replacement preserves the matches of other parameters -/

theorem texts_through_match {p q : PKind} {s restq : List Char} {padq : Bool}
    (hq : matchP q s = some (padq, restq)) (hp0 : matchP p s = none) :
    findTextsP p s = findTextsP p restq := by
  obtain ⟨heq, -⟩ := matchP_consumed hq
  have hlen : (s.take (s.length - restq.length)).length = s.length - restq.length := by
    rw [List.length_take]
    have := matchP_length hq
    omega
  conv_lhs => rw [← heq]
  refine texts_skip (fun i hi => ?_)
  rw [heq]
  exact no_match_over hq hp0 i (by omega)

theorem rep_through_match {q x : PKind} {r s restx : List Char} {padx : Bool}
    (hx : matchP x s = some (padx, restx)) (hq0 : matchP q s = none) :
    replaceAllP q r s = s.take (s.length - restx.length) ++ replaceAllP q r restx := by
  obtain ⟨heq, -⟩ := matchP_consumed hx
  have hlen : (s.take (s.length - restx.length)).length = s.length - restx.length := by
    rw [List.length_take]
    have := matchP_length hx
    omega
  conv_lhs => rw [← heq]
  refine rep_skip (fun i hi => ?_)
  rw [heq]
  exact no_match_over hx hq0 i (by omega)

/-- Substituting one parameter leaves the matches of every other parameter
untouched: it can neither remove one (matches of distinct parameters are
disjoint) nor create one (the replacement values are inert). -/
theorem texts_preserved {p q : PKind} (hpq : p ≠ q) {r : List Char} (hr : inertVal r) :
    ∀ s : List Char, findTextsP p (replaceAllP q r s) = findTextsP p s := by
  suffices H : ∀ n (s : List Char), s.length ≤ n →
      findTextsP p (replaceAllP q r s) = findTextsP p s by
    intro s
    exact H s.length s le_rfl
  intro n
  induction n with
  | zero =>
    intro s hs
    have : s = [] := List.length_eq_zero.mp (Nat.le_zero.mp hs)
    subst this
    rfl
  | succ n ih =>
    intro s hs
    cases hq0 : matchP q s with
    | some x =>
      obtain ⟨padq, restq⟩ := x
      have hp0 : matchP p s = none := matchP_exclusive (Ne.symm hpq) hq0
      rw [repP_match hq0]
      rw [texts_prefix_skip (fun c hc => (hr.2.1 c hc).1)]
      rw [ih restq (by have := matchP_length hq0; omega)]
      exact (texts_through_match hq0 hp0).symm
    | none =>
      cases s with
      | nil => rfl
      | cons c cs =>
        cases hp0 : matchP p (c :: cs) with
        | some xp =>
          obtain ⟨padp, restp⟩ := xp
          rw [rep_through_match hp0 hq0]
          have hcons : (c :: cs).take ((c :: cs).length - restp.length) ++ restp = c :: cs :=
            (matchP_consumed hp0).1
          have hm2 : matchP p ((c :: cs).take ((c :: cs).length - restp.length)
                ++ replaceAllP q r restp)
              = some (padp, replaceAllP q r restp) := by
            refine matchP_suffix (t := restp) ?_ _
            rw [hcons]
            exact hp0
          rw [textsP_match hm2, textsP_match hp0]
          congr 1
          · have hl2 : ((c :: cs).take ((c :: cs).length - restp.length)
                  ++ replaceAllP q r restp).length - (replaceAllP q r restp).length
                = ((c :: cs).take ((c :: cs).length - restp.length)).length := by
              simp [List.length_append]
            rw [hl2, List.take_left]
          · exact ih restp (by
              have := matchP_length hp0
              simp only [List.length_cons] at hs this
              omega)
        | none =>
          rw [repP_lit hq0, textsP_lit (no_new_match hr hq0 hp0), textsP_lit hp0]
          exact ih cs (by simp only [List.length_cons] at hs; omega)

/-- After `replace_all`, no match of the replaced parameter remains. -/
theorem texts_self_elim {q : PKind} {r : List Char} (hr : inertVal r) :
    ∀ s : List Char, findTextsP q (replaceAllP q r s) = [] := by
  suffices H : ∀ n (s : List Char), s.length ≤ n →
      findTextsP q (replaceAllP q r s) = [] by
    intro s
    exact H s.length s le_rfl
  intro n
  induction n with
  | zero =>
    intro s hs
    have : s = [] := List.length_eq_zero.mp (Nat.le_zero.mp hs)
    subst this
    rfl
  | succ n ih =>
    intro s hs
    cases hq0 : matchP q s with
    | some x =>
      obtain ⟨padq, restq⟩ := x
      rw [repP_match hq0]
      rw [texts_prefix_skip (fun c hc => (hr.2.1 c hc).1)]
      exact ih restq (by have := matchP_length hq0; omega)
    | none =>
      cases s with
      | nil => rfl
      | cons c cs =>
        rw [repP_lit hq0, textsP_lit (no_new_match hr hq0 hq0)]
        exact ih cs (by simp only [List.length_cons] at hs; omega)

theorem firstPad_eq_none_iff {k : PKind} :
    ∀ s : List Char, (firstPad k s = none ↔ findTextsP k s = []) := by
  suffices H : ∀ n (s : List Char), s.length ≤ n →
      (firstPad k s = none ↔ findTextsP k s = []) by
    intro s
    exact H s.length s le_rfl
  intro n
  induction n with
  | zero =>
    intro s hs
    have : s = [] := List.length_eq_zero.mp (Nat.le_zero.mp hs)
    subst this
    simp [firstPad_nil, textsP_nil]
  | succ n ih =>
    intro s hs
    cases hm : matchP k s with
    | some x =>
      obtain ⟨pad, rest⟩ := x
      rw [firstPad_match hm, textsP_match hm]
      simp
    | none =>
      cases s with
      | nil => simp [firstPad_nil, textsP_nil]
      | cons c cs =>
        rw [firstPad_lit hm, textsP_lit hm]
        exact ih cs (by simp only [List.length_cons] at hs; omega)

theorem buildStep_none {k : PKind} {path : List Char} :
    buildStep k none path = .ok path := rfl

theorem buildStep_some {k : PKind} {vs path : List Char}
    (hne : findTextsP k path ≠ []) :
    ∃ rv, buildStep k (some vs) path = .ok (replaceAllP k rv path) ∧
      (rv = vs ∨ rv = pad2 vs) := by
  unfold buildStep
  cases hf : firstPad k path with
  | none => exact absurd ((firstPad_eq_none_iff path).mp hf) hne
  | some pad =>
    cases pad with
    | false => exact ⟨vs, rfl, Or.inl rfl⟩
    | true => exact ⟨pad2 vs, rfl, Or.inr rfl⟩

theorem buildStep_err {k : PKind} {vs path : List Char}
    (h : findTextsP k path = []) :
    buildStep k (some vs) path = .error k := by
  unfold buildStep
  rw [(firstPad_eq_none_iff path).mpr h]

/-- One build iteration, packaged: absent value leaves the path unchanged;
a present value (with at least one marker present) replaces all its own
markers and touches no other parameter's matches. -/
theorem buildStep_facts (k : PKind) (v : Option (List Char)) (path : List Char)
    (hv : v ≠ none → findTextsP k path ≠ [])
    (hin : ∀ vs, v = some vs → inertVal vs ∧ inertVal (pad2 vs)) :
    ∃ out, buildStep k v path = .ok out ∧
      (v = none → out = path) ∧
      (∀ κ, κ ≠ k → findTextsP κ out = findTextsP κ path) ∧
      (v ≠ none → findTextsP k out = []) := by
  cases v with
  | none => exact ⟨path, rfl, fun _ => rfl, fun κ _ => rfl, by simp⟩
  | some vs =>
    obtain ⟨hv1, hv2⟩ := hin vs rfl
    obtain ⟨rv, hok, hrv⟩ := buildStep_some (hv (by simp))
    have hrvi : inertVal rv := by
      rcases hrv with rfl | rfl
      · exact hv1
      · exact hv2
    refine ⟨_, hok, by simp, ?_, ?_⟩
    · intro κ hκ
      exact texts_preserved hκ hrvi path
    · intro _
      exact texts_self_elim hrvi path

/-! ## Claim theorems (concrete evaluations) -/
/-- Claim C3 (counterexample): for the template
`projects/{{year}}/{{day}}-{{language}}` and the candidate
`projects/2023/05`, extraction succeeds but yields `day = none`, not
`day = 5` as the claim states: the plain `day` capture pattern
`[1-9]|1[0-9]|2[0-5]` does not match the zero-padded text `05`. -/
theorem C3_counterexample :
    extractP "projects/{{year}}/{{day}}-{{language}}".data "projects/2023/05".data
      = .ok ⟨some 2023, none, none⟩ ∧ (none : Option Nat) ≠ some 5 :=
  ⟨rfl, by decide⟩

/-- Claim C3 (amended): extraction from `projects/2023/05` succeeds with no
error and yields `year = 2023`, leaving both `day` and `language` absent —
the zero-padded day component `05` is not matched by the plain `{{day}}`
pattern.  The unpadded candidate `projects/2023/5` does extract
`year = 2023, day = 5` with `language` absent. -/
theorem C3_amended :
    extractP "projects/{{year}}/{{day}}-{{language}}".data "projects/2023/05".data
      = .ok ⟨some 2023, none, none⟩ ∧
    extractP "projects/{{year}}/{{day}}-{{language}}".data "projects/2023/5".data
      = .ok ⟨some 2023, some 5, none⟩ :=
  ⟨rfl, rfl⟩

/-- Claim C1 (counterexample): rendering the template
`projects/{{year}}/{{day}}-{{language}}` with `year = 2023, day = 15,
language = rust` yields `projects/2023/15-rust`, but extraction from that
very path returns `day = 1` and no language at all: the leftmost-first
alternation `[1-9]|1[0-9]|2[0-5]` captures just the digit `1`, after which
the remainder of the pattern is optional.  So the round-trip does not
recover the values. -/
theorem C1_counterexample :
    buildPath "projects/{{year}}/{{day}}-{{language}}".data
        (some 2023) (some 15) (some Language.rust)
      = .ok "projects/2023/15-rust".data ∧
    extractP "projects/{{year}}/{{day}}-{{language}}".data "projects/2023/15-rust".data
      = .ok ⟨some 2023, some 1, none⟩ ∧
    ((some 1 : Option Nat) ≠ some 15 ∧ (none : Option Language) ≠ some Language.rust) :=
  ⟨rfl, rfl, by decide, by decide⟩

/-- Claim C2 (counterexample): the template `p/{{  year  }}` does not behave
like `p/{{year}}` for extraction: on the candidate `p/2023` the canonical
form extracts `year = 2023` while the whitespace variant extracts nothing —
the replacement step of `Config::load` searches for the exact text
`{{year}}`, so the variant marker is never turned into a capture group. -/
theorem C2_counterexample :
    extractP "p/{{  year  }}".data "p/2023".data = .ok ⟨none, none, none⟩ ∧
    extractP "p/{{year}}".data "p/2023".data = .ok ⟨some 2023, none, none⟩ ∧
    (⟨none, none, none⟩ : OptParams) ≠ ⟨some 2023, none, none⟩ :=
  ⟨rfl, rfl, by decide⟩

/-- Claim C2 (amended): whitespace inside the marker delimiters is
insignificant for rendering — `Config::build` locates markers with the
whitespace-tolerant parameter regex, so `p/{{  year  }}` and `p/{{year}}`
render identically for every year value — but not for extraction: the
capture-pattern substitution recognizes only the canonical texts
`{{year}}`, `{{day}}`, `{{pad day}}`, `{{language}}`, so a whitespace
variant stays literal text in the pattern and extracts nothing where the
canonical form extracts the value. -/
theorem C2_amended :
    (∀ y : Nat,
      buildPath "p/{{  year  }}".data (some y) none none
        = buildPath "p/{{year}}".data (some y) none none) ∧
    extractP "p/{{year}}".data "p/2023".data = .ok ⟨some 2023, none, none⟩ ∧
    extractP "p/{{  year  }}".data "p/2023".data = .ok ⟨none, none, none⟩ :=
  ⟨fun _ => rfl, rfl, rfl⟩

/-- Claim C6 (counterexample): a candidate whose language component is
`Rust` is not matched by the `language` capture group at all — the
alternation `rust|csharp|java|python` is lowercase and the pattern is
case-sensitive — even though `Language::from_str` would parse `Rust`.  So
the claim that such a candidate is matched and parsed is false. -/
theorem C6_counterexample :
    extractP "p/{{language}}".data "p/Rust".data = .ok ⟨none, none, none⟩ ∧
    Language.fromStr "Rust".data = some Language.rust ∧
    (none : Option Language) ≠ some Language.rust :=
  ⟨rfl, rfl, by decide⟩

/-- Claim C6 (amended): the case-insensitive step is only the parse,
`Language::from_str`, which accepts any capitalization of a token; the
`language` capture group itself matches only the exact lowercase tokens, so
`p/rust` extracts `language = rust` while `p/Rust` extracts nothing. -/
theorem C6_amended :
    (∀ s : List Char, ∀ l : Language,
      Language.fromStr s = some l ↔ toLowerL s = l.str) ∧
    extractP "p/{{language}}".data "p/rust".data = .ok ⟨none, none, some Language.rust⟩ ∧
    extractP "p/{{language}}".data "p/Rust".data = .ok ⟨none, none, none⟩ := by
  refine ⟨fun s l => ?_, rfl, rfl⟩
  constructor
  · intro h
    have := List.find?_some h
    simp only [decide_eq_true_eq] at this
    exact this.symm
  · intro h
    cases l <;> simp only [Language.fromStr, h] <;> decide

/-- Claim C7 (counterexample): the template `x/{{pad year}}` compiles with
no configuration error at all, contrary to the claim: the padded form of a
non-pad-capable placeholder is not recognized as a marker by any parameter
regex, so the whole template is escaped and the compiled pattern is the
literal text. -/
theorem C7_counterexample :
    compile "x/{{pad year}}".data = .ok (litR "x/{{pad year}}".data) ∧
    hasMarker "x/{{pad year}}".data = false :=
  ⟨rfl, rfl⟩

/-- Claim C7 (amended): using the padded marker form on a non-pad-capable
placeholder does not fail compilation; the text is simply not a marker, is
escaped as literal text, and the pattern compiles.  The failure surfaces
only at rendering: with a year value present, `Config::build` cannot find
the `year` marker and fails with the error naming `year`. -/
theorem C7_amended :
    compile "x/{{pad year}}".data = .ok (litR "x/{{pad year}}".data) ∧
    hasMarker "x/{{pad year}}".data = false ∧
    buildPath "x/{{pad year}}".data (some 2023) none none = .error .year :=
  ⟨rfl, rfl, rfl⟩

/-- Claim C4 (counterexample): with `year = 2023, day = 5` and no language
value, `Config::build` on `p/{{year}}/{{day}}-{{language}}` neither fails
nor produces a marker-free path: it succeeds and the result still contains
the `{{language}}` marker, so the claimed dichotomy (missing-parameter
error, or fully concrete path) is false.  Requiredness of `language` is
enforced by `main`, not by rendering. -/
theorem C4_counterexample :
    buildPath "p/{{year}}/{{day}}-{{language}}".data (some 2023) (some 5) none
      = .ok "p/2023/5-{{language}}".data ∧
    hasMarker "p/2023/5-{{language}}".data = true :=
  ⟨rfl, rfl⟩

/-- Claim C5 (counterexample): the candidate `p/26`, whose day component is
`26`, does produce a match of the `day` capture group for the template
`p/{{day}}`: the group captures the single digit `2` (the first alternation
branch `[1-9]`), and extraction yields `day = 2`.  So "a candidate
containing a day component of 26 never produces a match of the day capture
group" is false. -/
theorem C5_counterexample :
    extractP "p/{{day}}".data "p/26".data = .ok ⟨none, some 2, none⟩ ∧
    (some 2 : Option Nat) ≠ none :=
  ⟨rfl, by decide⟩

/-- Claim C8: parameter resolution precedence in `Args::build`.  For year
and day the resolved value is the explicit value when present, otherwise
the value inferred from the working directory, otherwise the date default:
for the year, the current year when the month is December and the previous
year otherwise; for the day, the current day of month when December and 1
otherwise.  `language` has no date default and stays absent when neither
explicit nor inferred. -/
theorem C8_precedence (a : ArgsP) (o : OptParams) (n : DateNow)
    (hm : n.month ≤ 12) :
    ((argsBuild a o n).year =
      match a.year, o.year with
      | some v, _ => some v
      | none, some v => some v
      | none, none => some (if n.month = 12 then n.year else n.year - 1)) ∧
    ((argsBuild a o n).day =
      match a.day, o.day with
      | some v, _ => some v
      | none, some v => some v
      | none, none => some (if n.month = 12 then n.day else 1)) ∧
    ((argsBuild a o n).language =
      match a.language, o.language with
      | some v, _ => some v
      | none, ov => ov) := by
  obtain ⟨y1, d1, l1⟩ := a
  obtain ⟨y2, d2, l2⟩ := o
  refine ⟨?_, ?_, ?_⟩
  · cases y1 <;> cases y2 <;>
      simp only [argsBuild, Option.or, Option.some.injEq] <;> try rfl
    all_goals split_ifs <;> omega
  · cases d1 <;> cases d2 <;>
      simp only [argsBuild, Option.or, Option.some.injEq] <;> try rfl
  · cases l1 <;> cases l2 <;> simp only [argsBuild, Option.or] <;> rfl

/-- Witness for C8 at a concrete December date and empty inputs. -/
theorem C8_precedence_witness :
    ((12 : Nat) ≤ 12) ∧
    ((argsBuild ⟨none, none, none⟩ ⟨none, none, none⟩ ⟨2025, 12, 7⟩).year = some 2025 ∧
     (argsBuild ⟨none, none, none⟩ ⟨none, none, none⟩ ⟨2025, 12, 7⟩).day = some 7 ∧
     (argsBuild ⟨none, none, none⟩ ⟨none, none, none⟩ ⟨2025, 12, 7⟩).language = none) := by
  refine ⟨by decide, ?_⟩
  have h := C8_precedence ⟨none, none, none⟩ ⟨none, none, none⟩ ⟨2025, 12, 7⟩ (by decide)
  simpa using h

/-- Claim C10: for every parameter whose value is absent at render time,
`Config::build` performs no substitution for that parameter — its matches
in the resulting path are exactly its matches in the template (every
occurrence remains verbatim) — and `build` returns success, provided each
parameter that does have a value has at least one marker in the
template. -/
theorem C10_absent_params_untouched (t : List Char) (y d : Option Nat)
    (lg : Option Language)
    (hy : y ≠ none → findTextsP .year t ≠ [])
    (hd : d ≠ none → findTextsP .day t ≠ [])
    (hl : lg ≠ none → findTextsP .language t ≠ []) :
    ∃ out, buildPath t y d lg = .ok out ∧
      (y = none → findTextsP .year out = findTextsP .year t) ∧
      (d = none → findTextsP .day out = findTextsP .day t) ∧
      (lg = none → findTextsP .language out = findTextsP .language t) := by
  obtain ⟨p1, hok1, hid1, hoth1, -⟩ :=
    buildStep_facts .year (y.map natStr) t
      (fun hne => hy (by simpa using hne))
      (fun vs hvs => by
        obtain ⟨yv, -, rfl⟩ : ∃ yv, y = some yv ∧ natStr yv = vs := by
          cases y with
          | none => simp at hvs
          | some yv => exact ⟨yv, rfl, by simpa using hvs⟩
        exact ⟨inert_natStr yv, inert_pad2_natStr yv⟩)
  obtain ⟨p2, hok2, hid2, hoth2, -⟩ :=
    buildStep_facts .day (d.map natStr) p1
      (fun hne => by
        rw [hoth1 .day (by decide)]
        exact hd (by simpa using hne))
      (fun vs hvs => by
        obtain ⟨dv, -, rfl⟩ : ∃ dv, d = some dv ∧ natStr dv = vs := by
          cases d with
          | none => simp at hvs
          | some dv => exact ⟨dv, rfl, by simpa using hvs⟩
        exact ⟨inert_natStr dv, inert_pad2_natStr dv⟩)
  obtain ⟨p3, hok3, hid3, hoth3, -⟩ :=
    buildStep_facts .language (lg.map Language.str) p2
      (fun hne => by
        rw [hoth2 .language (by decide), hoth1 .language (by decide)]
        exact hl (by simpa using hne))
      (fun vs hvs => by
        obtain ⟨lv, -, rfl⟩ : ∃ lv, lg = some lv ∧ Language.str lv = vs := by
          cases lg with
          | none => simp at hvs
          | some lv => exact ⟨lv, rfl, by simpa using hvs⟩
        exact ⟨inert_langStr lv, by
          rw [show pad2 (Language.str lv) = Language.str lv from by
            cases lv <;> rfl]
          exact inert_langStr lv⟩)
  refine ⟨p3, ?_, ?_, ?_, ?_⟩
  · unfold buildPath
    simp only [hok1, hok2, hok3]
  · intro hyn
    rw [hoth3 .year (by decide), hoth2 .year (by decide), hid1 (by simp [hyn])]
  · intro hdn
    rw [hoth3 .day (by decide)]
    rw [hid2 (by simp [hdn]), hoth1 .day (by decide)]
  · intro hln
    rw [hid3 (by simp [hln]), hoth2 .language (by decide), hoth1 .language (by decide)]

/-- Witness for C10: template `p/{{year}}-{{day}}` with only the year
supplied; the day marker survives rendering verbatim. -/
theorem C10_absent_params_untouched_witness :
    ((some 2024 : Option Nat) ≠ none → findTextsP .year "p/{{year}}-{{day}}".data ≠ []) ∧
    ∃ out, buildPath "p/{{year}}-{{day}}".data (some 2024) none none = .ok out ∧
      ((some 2024 : Option Nat) = none →
        findTextsP .year out = findTextsP .year "p/{{year}}-{{day}}".data) ∧
      ((none : Option Nat) = none →
        findTextsP .day out = findTextsP .day "p/{{year}}-{{day}}".data) ∧
      ((none : Option Language) = none →
        findTextsP .language out = findTextsP .language "p/{{year}}-{{day}}".data) := by
  refine ⟨fun _ => by decide, ?_⟩
  exact C10_absent_params_untouched "p/{{year}}-{{day}}".data (some 2024) none none
    (fun _ => by decide) (fun h => absurd rfl h) (fun h => absurd rfl h)

/-- Claim C4 (amended): `Config::build` fails — with an error naming the
parameter — exactly when some parameter that has a value has no marker in
the template; otherwise it succeeds and no marker of any valued parameter
remains in the result.  Markers of valueless parameters survive (see C10);
mode-based requiredness lives in `main`, not here. -/
theorem C4_amended (t : List Char) (y d : Option Nat) (lg : Option Language) :
    (((y ≠ none → findTextsP .year t ≠ []) ∧ (d ≠ none → findTextsP .day t ≠ []) ∧
      (lg ≠ none → findTextsP .language t ≠ [])) →
      ∃ out, buildPath t y d lg = .ok out ∧
        (y ≠ none → findTextsP .year out = []) ∧
        (d ≠ none → findTextsP .day out = []) ∧
        (lg ≠ none → findTextsP .language out = [])) ∧
    (y ≠ none → findTextsP .year t = [] → buildPath t y d lg = .error .year) ∧
    ((y ≠ none → findTextsP .year t ≠ []) → d ≠ none → findTextsP .day t = [] →
      buildPath t y d lg = .error .day) ∧
    ((y ≠ none → findTextsP .year t ≠ []) → (d ≠ none → findTextsP .day t ≠ []) →
      lg ≠ none → findTextsP .language t = [] →
      buildPath t y d lg = .error .language) := by
  have hinY : ∀ vs, y.map natStr = some vs → inertVal vs ∧ inertVal (pad2 vs) := by
    intro vs hvs
    obtain ⟨yv, -, rfl⟩ : ∃ yv, y = some yv ∧ natStr yv = vs := by
      cases y with
      | none => simp at hvs
      | some yv => exact ⟨yv, rfl, by simpa using hvs⟩
    exact ⟨inert_natStr yv, inert_pad2_natStr yv⟩
  have hinD : ∀ vs, d.map natStr = some vs → inertVal vs ∧ inertVal (pad2 vs) := by
    intro vs hvs
    obtain ⟨dv, -, rfl⟩ : ∃ dv, d = some dv ∧ natStr dv = vs := by
      cases d with
      | none => simp at hvs
      | some dv => exact ⟨dv, rfl, by simpa using hvs⟩
    exact ⟨inert_natStr dv, inert_pad2_natStr dv⟩
  have hinL : ∀ vs, lg.map Language.str = some vs → inertVal vs ∧ inertVal (pad2 vs) := by
    intro vs hvs
    obtain ⟨lv, -, rfl⟩ : ∃ lv, lg = some lv ∧ Language.str lv = vs := by
      cases lg with
      | none => simp at hvs
      | some lv => exact ⟨lv, rfl, by simpa using hvs⟩
    refine ⟨inert_langStr lv, ?_⟩
    rw [show pad2 (Language.str lv) = Language.str lv from by cases lv <;> rfl]
    exact inert_langStr lv
  refine ⟨?_, ?_, ?_, ?_⟩
  · rintro ⟨hy, hd, hl⟩
    obtain ⟨p1, hok1, hid1, hoth1, hel1⟩ :=
      buildStep_facts .year (y.map natStr) t (fun hne => hy (by simpa using hne)) hinY
    obtain ⟨p2, hok2, hid2, hoth2, hel2⟩ :=
      buildStep_facts .day (d.map natStr) p1
        (fun hne => by
          rw [hoth1 .day (by decide)]
          exact hd (by simpa using hne)) hinD
    obtain ⟨p3, hok3, hid3, hoth3, hel3⟩ :=
      buildStep_facts .language (lg.map Language.str) p2
        (fun hne => by
          rw [hoth2 .language (by decide), hoth1 .language (by decide)]
          exact hl (by simpa using hne)) hinL
    refine ⟨p3, ?_, ?_, ?_, ?_⟩
    · unfold buildPath
      simp only [hok1, hok2, hok3]
    · intro hyn
      rw [hoth3 .year (by decide), hoth2 .year (by decide)]
      exact hel1 (by simpa using hyn)
    · intro hdn
      rw [hoth3 .day (by decide)]
      exact hel2 (by simpa using hdn)
    · intro hln
      exact hel3 (by simpa using hln)
  · intro hyn hyt
    obtain ⟨yv, rfl⟩ : ∃ yv, y = some yv := Option.ne_none_iff_exists'.mp hyn
    unfold buildPath
    simp only [show (some yv).map natStr = some (natStr yv) from rfl, buildStep_err hyt]
  · intro hy hdn hdt
    obtain ⟨p1, hok1, hid1, hoth1, hel1⟩ :=
      buildStep_facts .year (y.map natStr) t (fun hne => hy (by simpa using hne)) hinY
    obtain ⟨dv, rfl⟩ : ∃ dv, d = some dv := Option.ne_none_iff_exists'.mp hdn
    unfold buildPath
    simp only [hok1, show (some dv).map natStr = some (natStr dv) from rfl,
      buildStep_err (show findTextsP PKind.day p1 = [] from by
        rw [hoth1 .day (by decide)]; exact hdt)]
  · intro hy hd hln hlt
    obtain ⟨p1, hok1, hid1, hoth1, hel1⟩ :=
      buildStep_facts .year (y.map natStr) t (fun hne => hy (by simpa using hne)) hinY
    obtain ⟨p2, hok2, hid2, hoth2, hel2⟩ :=
      buildStep_facts .day (d.map natStr) p1
        (fun hne => by
          rw [hoth1 .day (by decide)]
          exact hd (by simpa using hne)) hinD
    obtain ⟨lv, rfl⟩ : ∃ lv, lg = some lv := Option.ne_none_iff_exists'.mp hln
    unfold buildPath
    simp only [hok1, hok2, show (some lv).map Language.str = some (Language.str lv) from rfl,
      buildStep_err (show findTextsP PKind.language p2 = [] from by
        rw [hoth2 .language (by decide), hoth1 .language (by decide)]
        exact hlt)]

/-- Witness for C4 (amended): with all three values and all three markers,
build succeeds and no marker of a valued parameter remains; and a template
without a `year` marker makes build fail naming `year`. -/
theorem C4_amended_witness :
    (∃ out, buildPath "p/{{year}}/{{day}}-{{language}}".data
        (some 2023) (some 5) (some Language.rust) = .ok out ∧
      ((some 2023 : Option Nat) ≠ none →
        findTextsP .year out = []) ∧
      ((some 5 : Option Nat) ≠ none → findTextsP .day out = []) ∧
      ((some Language.rust : Option Language) ≠ none →
        findTextsP .language out = [])) ∧
    buildPath "p/x".data (some 2023) none none = .error .year := by
  constructor
  · exact (C4_amended "p/{{year}}/{{day}}-{{language}}".data
        (some 2023) (some 5) (some Language.rust)).1
      ⟨fun _ => by decide, fun _ => by decide, fun _ => by decide⟩
  · exact (C4_amended "p/x".data (some 2023) none none).2.1
      (by simp) (by decide)

/-! ### Counting canonical marker occurrences -/

theorem isPreL_iff {p s : List Char} : isPreL p s = true ↔ ∃ w, s = p ++ w := by
  induction p generalizing s with
  | nil => simp [isPreL]
  | cons c cs ih =>
    cases s with
    | nil => simp [isPreL]
    | cons x xs =>
      simp only [isPreL, Bool.and_eq_true, decide_eq_true_eq, ih, List.cons_append,
        List.cons.injEq]
      constructor
      · rintro ⟨rfl, w, rfl⟩
        exact ⟨w, rfl, rfl⟩
      · rintro ⟨w, rfl, rfl⟩
        exact ⟨rfl, w, rfl⟩

theorem canon_shape (ck : CKind) : MarkerShape ck.kind ck.pad ck.text := by
  cases ck with
  | cyear => exact ⟨[], [], [], rfl, by simp [wsOnly], by simp [wsOnly], Or.inl ⟨rfl, rfl⟩⟩
  | cday => exact ⟨[], [], [], rfl, by simp [wsOnly], by simp [wsOnly], Or.inl ⟨rfl, rfl⟩⟩
  | cpadday =>
    exact ⟨[], ['p', 'a', 'd', ' '], [], rfl, by simp [wsOnly], by simp [wsOnly],
      Or.inr ⟨rfl, rfl, ' ', [], rfl, by decide, by simp [wsOnly]⟩⟩
  | clang => exact ⟨[], [], [], rfl, by simp [wsOnly], by simp [wsOnly], Or.inl ⟨rfl, rfl⟩⟩

theorem canonOf_text (ck : CKind) : canonOf ck.text = some ck := by
  cases ck <;> decide

theorem ck_text_ne_nil (ck : CKind) : ck.text ≠ [] := by
  cases ck <;> decide

/-- An exact occurrence of a canonical marker at the front of `t` is a
match of its parameter regex consuming exactly the marker text. -/
theorem matchP_of_occ {ck : CKind} {t : List Char} (h : isPreL ck.text t = true) :
    matchP ck.kind t = some (ck.pad, t.drop ck.text.length) := by
  obtain ⟨w, rfl⟩ := isPreL_iff.mp h
  have := matchP_complete (canon_shape ck) w
  rw [this]
  congr 1
  congr 1
  rw [List.drop_left]

theorem countOcc_through {m : List Char} : ∀ (pre rest : List Char), pre ≠ [] →
    (∀ i, 1 ≤ i → i < pre.length → isPreL m ((pre ++ rest).drop i) = false) →
    countOcc m (pre ++ rest)
      = (if isPreL m (pre ++ rest) then 1 else 0) + countOcc m rest := by
  intro pre
  induction pre with
  | nil => intro rest h; exact absurd rfl h
  | cons c cs ih =>
    intro rest _ hno
    cases hcs : cs with
    | nil => simp [countOcc]
    | cons c2 cs2 =>
      subst hcs
      have hstep : countOcc m ((c :: (c2 :: cs2)) ++ rest)
          = (if isPreL m ((c :: (c2 :: cs2)) ++ rest) then 1 else 0)
            + countOcc m ((c2 :: cs2) ++ rest) := by
        simp [countOcc]
      rw [hstep]
      rw [ih rest (by simp) (fun i h1 hi => by
        have := hno (i + 1) (by omega) (by simp only [List.length_cons] at hi ⊢; omega)
        simpa using this)]
      have h1 : isPreL m ((c2 :: cs2) ++ rest) = false := by
        have := hno 1 le_rfl (by simp)
        simpa using this
      rw [h1]
      simp

theorem ck_text_cons (ck : CKind) : ∃ m2, ck.text = '{' :: '{' :: m2 := by
  cases ck with
  | cyear => exact ⟨_, rfl⟩
  | cday => exact ⟨_, rfl⟩
  | cpadday => exact ⟨_, rfl⟩
  | clang => exact ⟨_, rfl⟩

theorem isPreL_ck_false₁ {ck : CKind} {u : List Char} {c : Char}
    (hc : u.head? = some c) (h : c ≠ '{') : isPreL ck.text u = false := by
  obtain ⟨m2, htx⟩ := ck_text_cons ck
  rw [htx]
  cases u with
  | nil => simp at hc
  | cons x xs =>
    simp only [List.head?_cons, Option.some.injEq] at hc
    subst hc
    simp [isPreL, h]

theorem isPreL_ck_false₂ {ck : CKind} {x : List Char} {c : Char}
    (hc : x.head? = some c) (h : c ≠ '{') : isPreL ck.text ('{' :: x) = false := by
  obtain ⟨m2, htx⟩ := ck_text_cons ck
  rw [htx]
  cases x with
  | nil => simp at hc
  | cons y ys =>
    simp only [List.head?_cons, Option.some.injEq] at hc
    subst hc
    simp [isPreL, h]

theorem canonCount_mark {ck : CKind} {k : PKind} {pad : Bool} {tx : List Char}
    {segs : List Seg} :
    canonCount ck (Seg.mark k pad tx :: segs)
      = (if canonOf tx = some ck then 1 else 0) + canonCount ck segs := by
  by_cases h : canonOf tx = some ck <;>
    simp [canonCount, List.countP_cons, h] <;> omega

theorem canonCount_lit {ck : CKind} {c : Char} {segs : List Seg} :
    canonCount ck (Seg.lit c :: segs) = canonCount ck segs := by
  simp [canonCount, List.countP_cons]

/-- Every exact occurrence of a canonical marker string in the template
becomes a canonical marker segment: an occurrence cannot start strictly
inside another marker match, and at a position where no marker matches an
occurrence is impossible (the marker regex would match it). -/
theorem countOcc_le_canon (ck : CKind) :
    ∀ t : List Char, countOcc ck.text t ≤ canonCount ck (segments t) := by
  suffices H : ∀ n (t : List Char), t.length ≤ n →
      countOcc ck.text t ≤ canonCount ck (segments t) by
    intro t
    exact H t.length t le_rfl
  intro n
  induction n with
  | zero =>
    intro t ht
    have : t = [] := List.length_eq_zero.mp (Nat.le_zero.mp ht)
    subst this
    have hf : isPreL ck.text [] = false := by
      obtain ⟨m2, htx⟩ := ck_text_cons ck
      rw [htx]
      simp [isPreL]
    simp [countOcc, hf, segments_nil]
  | succ n ih =>
    intro t ht
    cases hm : markerAt t with
    | some x =>
      obtain ⟨k, pad, rest⟩ := x
      have hmp := markerAt_matchP hm
      obtain ⟨mid, hts, hmem⟩ := matchP_decomp hmp
      have hlen : rest.length < t.length := matchP_length hmp
      have hpre : t.take (t.length - rest.length) ++ rest = t := (matchP_consumed hmp).1
      have hprelen : (t.take (t.length - rest.length)).length = t.length - rest.length := by
        rw [List.length_take]
        omega
      have hno : ∀ i, 1 ≤ i → i < (t.take (t.length - rest.length)).length →
          isPreL ck.text ((t.take (t.length - rest.length) ++ rest).drop i) = false := by
        intro i h1 hi
        rw [hpre, hts]
        rw [hprelen, hts] at hi
        have hi2 : i ≤ mid.length + 3 := by
          simp only [List.length_cons, List.length_append] at hi
          omega
        obtain ⟨j, rfl⟩ : ∃ j, i = j + 1 := ⟨i - 1, by omega⟩
        rw [List.drop_succ_cons]
        cases j with
        | zero =>
          rw [List.drop_zero]
          obtain ⟨c, hc, hcne⟩ := head_drop_append (r := rest) hmem (i := 0) (by omega)
          rw [List.drop_zero] at hc
          exact isPreL_ck_false₂ hc hcne
        | succ i2 =>
          rw [List.drop_succ_cons]
          obtain ⟨c, hc, hcne⟩ := head_drop_append (r := rest) hmem (i := i2) (by omega)
          exact isPreL_ck_false₁ hc hcne
      have hcount : countOcc ck.text t
          = (if isPreL ck.text t then 1 else 0) + countOcc ck.text rest := by
        conv_lhs => rw [← hpre]
        rw [countOcc_through _ rest (by
            intro hnil
            rw [hnil] at hprelen
            simp at hprelen
            omega) hno]
        rw [hpre]
      rw [hcount, segments_eq_mark hm, canonCount_mark]
      by_cases hocc : isPreL ck.text t = true
      case pos =>
        rw [if_pos hocc]
        have hocc2 := matchP_of_occ hocc
        have hma2 := markerAt_of_matchP hocc2
        rw [hm] at hma2
        obtain ⟨rfl, rfl, hrest⟩ : ck.kind = k ∧ ck.pad = pad ∧ t.drop ck.text.length = rest := by
          simpa using hma2.symm
        obtain ⟨w, htw⟩ := isPreL_iff.mp hocc
        have htake : t.take (t.length - rest.length) = ck.text := by
          rw [htw] at hrest ⊢
          rw [List.drop_left] at hrest
          subst hrest
          have : (ck.text ++ w).length - w.length = ck.text.length := by
            simp [List.length_append]
          rw [this, List.take_left]
        rw [htake, canonOf_text]
        rw [if_pos rfl]
        have := ih rest (by omega)
        omega
      case neg =>
        rw [if_neg hocc]
        have := ih rest (by omega)
        split <;> omega
    | none =>
      cases t with
      | nil =>
        have hf : isPreL ck.text [] = false := by
          obtain ⟨m2, htx⟩ := ck_text_cons ck
          rw [htx]
          simp [isPreL]
        simp [countOcc, hf, segments_nil]
      | cons c cs =>
        have hocc : isPreL ck.text (c :: cs) = false := by
          cases hocc : isPreL ck.text (c :: cs) with
          | false => rfl
          | true =>
            exfalso
            have := matchP_of_occ hocc
            rw [markerAt_none hm ck.kind] at this
            exact absurd this (by simp)
        rw [segments_eq_lit hm, canonCount_lit]
        have hcc : countOcc ck.text (c :: cs) = countOcc ck.text cs := by
          show (if isPreL ck.text (c :: cs) then 1 else 0) + countOcc ck.text cs = _
          rw [hocc]
          simp
        rw [hcc]
        exact ih cs (by simp only [List.length_cons] at ht; omega)

/-- C9: for every template in which the same placeholder marker (for
example \x7b\x7byear\x7d\x7d) occurs more than once, Config::load returns an error
instead of an extracted parameter mapping: the constructed extraction
pattern contains two identically named capture groups, Regex::new fails,
and best-effort extraction never happens, whatever the working directory
is.  Occurrences are counted as exact substring occurrences of the
canonical marker text, which is what the String::replace call on
line 119 of config.rs substitutes. -/
theorem C9_duplicate_marker_error (ck : CKind) (t cwd : List Char)
    (h : 2 ≤ countOcc ck.text t) :
    extractP t cwd = .error .regexCompile := by
  have h2 : 2 ≤ canonCount ck (segments t) :=
    le_trans h (countOcc_le_canon ck t)
  have hd : dupCanon (segments t) = true := by
    simp only [dupCanon, List.any_cons, List.any_nil, Bool.or_eq_true,
      Bool.or_false, decide_eq_true_eq]
    cases ck
    · exact Or.inl h2
    · exact Or.inr (Or.inl h2)
    · exact Or.inr (Or.inr (Or.inl h2))
    · exact Or.inr (Or.inr (Or.inr h2))
  simp [extractP, compile, hd]

theorem C9_duplicate_marker_error_witness :
    2 ≤ countOcc CKind.cyear.text "p/{{year}}/{{year}}".data ∧
    extractP "p/{{year}}/{{year}}".data "h/2023".data = .error .regexCompile :=
  ⟨by decide, C9_duplicate_marker_error CKind.cyear _ _ (by decide)⟩

/-- A successful `Captures::name` lookup is a member of the capture list. -/
theorem lookupCap_mem : ∀ {c : Caps} {n v : List Char},
    lookupCap n c = some v → (n, v) ∈ c := by
  intro c
  induction c with
  | nil => intro n v h; simp [lookupCap] at h
  | cons e rest ih =>
    intro n v h
    obtain ⟨m, tx⟩ := e
    by_cases hm : m = n
    · subst hm
      rw [lookupCap, if_pos rfl] at h
      injection h with h
      subst h
      exact List.mem_cons_self _ _
    · rw [lookupCap, if_neg hm] at h
      exact List.mem_cons_of_mem _ (ih h)

/-- Whatever `capGo` returns is the capture list of some parse of the
pattern against some string. -/
theorem capGo_sound : ∀ (fuel : Nat) (re : Reg) (s : List Char) (c : Caps),
    capGo fuel re s = some c → ∃ u r, (c, r) ∈ parses re u := by
  intro fuel
  induction fuel with
  | zero => intro re s c h; rw [capGo] at h; exact Option.noConfusion h
  | succ n ih =>
    intro re s c h
    cases hh : (parses re s).head? with
    | some pr =>
      simp only [capGo, hh] at h
      injection h with h
      subst h
      refine ⟨s, pr.2, ?_⟩
      cases hp : parses re s with
      | nil => rw [hp] at hh; simp at hh
      | cons q qs =>
        rw [hp] at hh
        simp only [List.head?_cons, Option.some.injEq] at hh
        subst hh
        rw [Prod.mk.eta]
        exact List.mem_cons_self _ _
    | none =>
      cases s with
      | nil =>
        simp only [capGo, hh] at h
        exact Option.noConfusion h
      | cons x xs =>
        simp only [capGo, hh] at h
        exact ih re xs c h

/-- Destructor for a parse of a sequence. -/
theorem seq_mem {a b : Reg} {u : List Char} {c : Caps} {r : List Char}
    (h : (c, r) ∈ parses (.seq a b) u) :
    ∃ c1 r1 c2 r2, (c1, r1) ∈ parses a u ∧ (c2, r2) ∈ parses b r1 ∧
      c = c1 ++ c2 ∧ r = r2 := by
  have h2 : (c, r) ∈ (parses a u).flatMap
      (fun pr => (parses b pr.2).map (fun qr => (pr.1 ++ qr.1, qr.2))) := h
  simp only [List.mem_flatMap, List.mem_map] at h2
  obtain ⟨⟨c1, r1⟩, h1, ⟨cc, rr⟩, hq, heq⟩ := h2
  simp only [Prod.mk.injEq] at heq
  exact ⟨c1, r1, cc, rr, h1, hq, heq.1.symm, heq.2.symm⟩

/-- Destructor for a parse of a single character. -/
theorem chr_branch {ch : Char} {u : List Char} {c2 : Caps} {r2 : List Char}
    (h : (c2, r2) ∈ parses (.chr ch) u) :
    ∃ xs, u = ch :: xs ∧ c2 = [] ∧ r2 = xs := by
  cases u with
  | nil =>
    have h2 : (c2, r2) ∈ ([] : List (Caps × List Char)) := h
    simp at h2
  | cons x xs =>
    have h2 : (c2, r2) ∈ (if x = ch then [(([] : Caps), xs)] else []) := h
    by_cases hx : x = ch
    · subst hx
      rw [if_pos rfl] at h2
      simp only [List.mem_singleton, Prod.mk.injEq] at h2
      exact ⟨xs, rfl, h2.1, h2.2⟩
    · rw [if_neg hx] at h2
      simp at h2

/-- Destructor for a parse of a character class. -/
theorem cls_branch {lo hi : Char} {u : List Char} {c2 : Caps} {r2 : List Char}
    (h : (c2, r2) ∈ parses (.cls lo hi) u) :
    ∃ x xs, u = x :: xs ∧ lo ≤ x ∧ x ≤ hi ∧ c2 = [] ∧ r2 = xs := by
  cases u with
  | nil =>
    have h2 : (c2, r2) ∈ ([] : List (Caps × List Char)) := h
    simp at h2
  | cons x xs =>
    have h2 : (c2, r2) ∈ (if lo ≤ x ∧ x ≤ hi then [(([] : Caps), xs)] else []) := h
    by_cases hx : lo ≤ x ∧ x ≤ hi
    · rw [if_pos hx] at h2
      simp only [List.mem_singleton, Prod.mk.injEq] at h2
      exact ⟨x, xs, rfl, hx.1, hx.2, h2.1, h2.2⟩
    · rw [if_neg hx] at h2
      simp at h2

/-- The consumed text of a literal-then-class pair is the literal followed
by one class character. -/
theorem pair_branch {ch lo hi : Char} {u : List Char} {c2 : Caps} {r2 : List Char}
    (h : (c2, r2) ∈ parses (.seq (.chr ch) (.cls lo hi)) u) :
    ∃ y, lo ≤ y ∧ y ≤ hi ∧ u.take (u.length - r2.length) = [ch, y] := by
  obtain ⟨c1, r1, cc, rr, h1, h2, rfl, rfl⟩ := seq_mem h
  obtain ⟨xs, rfl, rfl, rfl⟩ := chr_branch h1
  obtain ⟨y, ys, rfl, hy1, hy2, rfl, rfl⟩ := cls_branch h2
  refine ⟨y, hy1, hy2, ?_⟩
  have htake : ∀ R : List Char,
      (ch :: y :: R).take ((ch :: y :: R).length - R.length) = [ch, y] := by
    intro R
    have hl : (ch :: y :: R).length - R.length = 2 := by
      simp only [List.length_cons]
      omega
    rw [hl]
    rfl
  exact htake _

/-- A character between codepoints 48 and 57 is a digit. -/
theorem isDigit_of_bounds {x : Char} (h1 : (48 : Nat) ≤ x.toNat)
    (h2 : x.toNat ≤ 57) : x.isDigit = true := by
  simp only [Char.isDigit, ge_iff_le, Bool.and_eq_true, decide_eq_true_eq]
  refine ⟨?_, ?_⟩
  · show (48 : Nat) ≤ x.toNat
    omega
  · show x.toNat ≤ 57
    omega

/-- `digToNat` unfolded. -/
theorem digToNat_eq (y : Char) : digToNat y = y.toNat - 48 := rfl

/-- `str::parse` on a one-digit string. -/
theorem parseNatL_single {x : Char} (hx : x.isDigit = true) :
    parseNatL [x] = some (digToNat x) := by
  rw [parseNatL, if_pos]
  · simp only [List.foldl_cons, List.foldl_nil]
    congr 1
    omega
  · simp [hx]

/-- `str::parse` on a two-digit string. -/
theorem parseNatL_pair {x y : Char} (hx : x.isDigit = true)
    (hy : y.isDigit = true) :
    parseNatL [x, y] = some (10 * digToNat x + digToNat y) := by
  rw [parseNatL, if_pos]
  · simp only [List.foldl_cons, List.foldl_nil]
    congr 1
    omega
  · simp [hx, hy]

/-- The value consumed by the plain day group body is between 1 and 25. -/
theorem dayBody_val {u : List Char} {c2 : Caps} {r2 : List Char}
    (h : (c2, r2) ∈ parses dayBody u) {d : Nat}
    (hp : parseNatL (u.take (u.length - r2.length)) = some d) :
    1 ≤ d ∧ d ≤ 25 := by
  have h2 : (c2, r2) ∈ parses (.cls '1' '9') u ++
      (parses (.seq (.chr '1') (.cls '0' '9')) u ++
        parses (.seq (.chr '2') (.cls '0' '5')) u) := h
  rcases List.mem_append.mp h2 with hb | hb
  · obtain ⟨x, xs, rfl, hx1, hx2, rfl, rfl⟩ := cls_branch hb
    have hx1n : (49 : Nat) ≤ x.toNat := hx1
    have hx2n : x.toNat ≤ 57 := hx2
    have htake : ∀ R : List Char,
        (x :: R).take ((x :: R).length - R.length) = [x] := by
      intro R
      have hl : (x :: R).length - R.length = 1 := by
        simp only [List.length_cons]
        omega
      rw [hl]
      rfl
    rw [htake, parseNatL_single (isDigit_of_bounds (by omega) hx2n)] at hp
    injection hp with hp
    subst hp
    rw [digToNat_eq]
    omega
  · rcases List.mem_append.mp hb with hc | hc
    · obtain ⟨y, hy1, hy2, ht⟩ := pair_branch hc
      have hy1n : (48 : Nat) ≤ y.toNat := hy1
      have hy2n : y.toNat ≤ 57 := hy2
      rw [ht, parseNatL_pair (by decide) (isDigit_of_bounds hy1n hy2n)] at hp
      injection hp with hp
      subst hp
      have hda : digToNat '1' = 1 := by decide
      rw [hda, digToNat_eq]
      omega
    · obtain ⟨y, hy1, hy2, ht⟩ := pair_branch hc
      have hy1n : (48 : Nat) ≤ y.toNat := hy1
      have hy2n : y.toNat ≤ 53 := hy2
      rw [ht, parseNatL_pair (by decide) (isDigit_of_bounds hy1n (by omega))] at hp
      injection hp with hp
      subst hp
      have hda : digToNat '2' = 2 := by decide
      rw [hda, digToNat_eq]
      omega

/-- The value consumed by the padded day group body is between 1 and 25. -/
theorem padBody_val {u : List Char} {c2 : Caps} {r2 : List Char}
    (h : (c2, r2) ∈ parses padBody u) {d : Nat}
    (hp : parseNatL (u.take (u.length - r2.length)) = some d) :
    1 ≤ d ∧ d ≤ 25 := by
  have h2 : (c2, r2) ∈ parses (.seq (.chr '0') (.cls '1' '9')) u ++
      (parses (.seq (.chr '1') (.cls '0' '9')) u ++
        parses (.seq (.chr '2') (.cls '0' '5')) u) := h
  rcases List.mem_append.mp h2 with hb | hb
  · obtain ⟨y, hy1, hy2, ht⟩ := pair_branch hb
    have hy1n : (49 : Nat) ≤ y.toNat := hy1
    have hy2n : y.toNat ≤ 57 := hy2
    rw [ht, parseNatL_pair (by decide) (isDigit_of_bounds (by omega) hy2n)] at hp
    injection hp with hp
    subst hp
    have hda : digToNat '0' = 0 := by decide
    rw [hda, digToNat_eq]
    omega
  · rcases List.mem_append.mp hb with hc | hc
    · obtain ⟨y, hy1, hy2, ht⟩ := pair_branch hc
      have hy1n : (48 : Nat) ≤ y.toNat := hy1
      have hy2n : y.toNat ≤ 57 := hy2
      rw [ht, parseNatL_pair (by decide) (isDigit_of_bounds hy1n hy2n)] at hp
      injection hp with hp
      subst hp
      have hda : digToNat '1' = 1 := by decide
      rw [hda, digToNat_eq]
      omega
    · obtain ⟨y, hy1, hy2, ht⟩ := pair_branch hc
      have hy1n : (48 : Nat) ≤ y.toNat := hy1
      have hy2n : y.toNat ≤ 53 := hy2
      rw [ht, parseNatL_pair (by decide) (isDigit_of_bounds hy1n (by omega))] at hp
      injection hp with hp
      subst hp
      have hda : digToNat '2' = 2 := by decide
      rw [hda, digToNat_eq]
      omega

/-- Capture origin: every named capture entry of any parse is the text
consumed by some parse of the body of a like-named group of the pattern. -/
theorem parses_cap : ∀ (re : Reg) {s : List Char} {c : Caps} {r : List Char},
    (c, r) ∈ parses re s → ∀ {nm v : List Char}, (nm, v) ∈ c →
    ∃ b, b ∈ groupsNamed nm re ∧
      ∃ u c2 r2, (c2, r2) ∈ parses b u ∧ v = u.take (u.length - r2.length) := by
  intro re
  induction re with
  | eps =>
    intro s c r h nm v hv
    have h2 : (c, r) ∈ [(([] : Caps), s)] := h
    simp only [List.mem_singleton, Prod.mk.injEq] at h2
    obtain ⟨rfl, rfl⟩ := h2
    simp at hv
  | chr ch =>
    intro s c r h nm v hv
    obtain ⟨xs, rfl, rfl, rfl⟩ := chr_branch h
    simp at hv
  | cls lo hi =>
    intro s c r h nm v hv
    obtain ⟨x, xs, rfl, _, _, rfl, rfl⟩ := cls_branch h
    simp at hv
  | seq a b iha ihb =>
    intro s c r h nm v hv
    obtain ⟨c1, r1, cc, rr, h1, h2, rfl, rfl⟩ := seq_mem h
    rcases List.mem_append.mp hv with hm | hm
    · obtain ⟨b2, hb2, w⟩ := iha h1 hm
      refine ⟨b2, ?_, w⟩
      show b2 ∈ groupsNamed nm a ++ groupsNamed nm b
      exact List.mem_append_left _ hb2
    · obtain ⟨b2, hb2, w⟩ := ihb h2 hm
      refine ⟨b2, ?_, w⟩
      show b2 ∈ groupsNamed nm a ++ groupsNamed nm b
      exact List.mem_append_right _ hb2
  | alt a b iha ihb =>
    intro s c r h nm v hv
    have h2 : (c, r) ∈ parses a s ++ parses b s := h
    rcases List.mem_append.mp h2 with hm | hm
    · obtain ⟨b2, hb2, w⟩ := iha hm hv
      refine ⟨b2, ?_, w⟩
      show b2 ∈ groupsNamed nm a ++ groupsNamed nm b
      exact List.mem_append_left _ hb2
    · obtain ⟨b2, hb2, w⟩ := ihb hm hv
      refine ⟨b2, ?_, w⟩
      show b2 ∈ groupsNamed nm a ++ groupsNamed nm b
      exact List.mem_append_right _ hb2
  | opt a iha =>
    intro s c r h nm v hv
    have h2 : (c, r) ∈ parses a s ++ [(([] : Caps), s)] := h
    rcases List.mem_append.mp h2 with hm | hm
    · obtain ⟨b2, hb2, w⟩ := iha hm hv
      exact ⟨b2, hb2, w⟩
    · simp only [List.mem_singleton, Prod.mk.injEq] at hm
      obtain ⟨rfl, rfl⟩ := hm
      simp at hv
  | grp n a iha =>
    intro s c r h nm v hv
    have h2 : (c, r) ∈ (parses a s).map
        (fun pr => (pr.1 ++ [(n, s.take (s.length - pr.2.length))], pr.2)) := h
    simp only [List.mem_map] at h2
    obtain ⟨⟨p1, p2⟩, hpr, heq⟩ := h2
    simp only [Prod.mk.injEq] at heq
    obtain ⟨h3, h4⟩ := heq
    subst h3
    subst h4
    rcases List.mem_append.mp hv with hm | hm
    · obtain ⟨b2, hb2, w⟩ := iha hpr hm
      refine ⟨b2, ?_, w⟩
      show b2 ∈ (if n = nm then [a] else []) ++ groupsNamed nm a
      exact List.mem_append_right _ hb2
    · simp only [List.mem_singleton, Prod.mk.injEq] at hm
      obtain ⟨rfl, rfl⟩ := hm
      refine ⟨a, ?_, s, p1, p2, hpr, rfl⟩
      show a ∈ (if nm = nm then [a] else []) ++ groupsNamed nm a
      rw [if_pos rfl]
      exact List.mem_cons_self _ _

/-- Escaped literal text contains no capture groups. -/
theorem groupsNamed_litR (nm : List Char) : ∀ l : List Char,
    groupsNamed nm (litR l) = [] := by
  intro l
  induction l with
  | nil => rfl
  | cons c cs ih =>
    show groupsNamed nm (.seq (.chr c) (litR cs)) = []
    show groupsNamed nm (.chr c) ++ groupsNamed nm (litR cs) = []
    rw [ih]
    rfl

/-- The only group named `day` inside a capture sub-pattern is the plain
day body, inside the `\x7b\x7bday\x7d\x7d` replacement. -/
theorem groupsNamed_blob_day (ck : CKind) :
    groupsNamed "day".data ck.blob
      = if ck = CKind.cday then [dayBody] else [] := by
  cases ck <;> rfl

/-- The only group named `padday` inside a capture sub-pattern is the
padded day body, inside the `\x7b\x7bpad day\x7d\x7d` replacement. -/
theorem groupsNamed_blob_padday (ck : CKind) :
    groupsNamed "padday".data ck.blob
      = if ck = CKind.cpadday then [padBody] else [] := by
  cases ck <;> rfl

/-- Every group named `day` in a compiled template pattern has the plain
day body. -/
theorem groupsNamed_astOf_day : ∀ segs : List Seg,
    ∀ b ∈ groupsNamed "day".data (astOf segs), b = dayBody := by
  intro segs
  induction segs with
  | nil => intro b hb; simp [astOf, groupsNamed] at hb
  | cons sg rest ih =>
    intro b hb
    cases sg with
    | lit ch =>
      have hb2 : b ∈ groupsNamed "day".data (astOf rest) := hb
      exact ih b hb2
    | mark k pad tx =>
      cases hc : canonOf tx with
      | none =>
        have he : astOf (Seg.mark k pad tx :: rest)
            = .seq (litR tx) (astOf rest) := by
          simp only [astOf, hc]
        rw [he] at hb
        have hb2 : b ∈ groupsNamed "day".data (litR tx)
            ++ groupsNamed "day".data (astOf rest) := hb
        rw [groupsNamed_litR] at hb2
        exact ih b (by simpa using hb2)
      | some ck =>
        have he : astOf (Seg.mark k pad tx :: rest)
            = if ck.wrapsOpt then .seq ck.blob (.opt (astOf rest))
              else .seq ck.blob (astOf rest) := by
          simp only [astOf, hc]
        have hb2 : b ∈ groupsNamed "day".data ck.blob
            ++ groupsNamed "day".data (astOf rest) := by
          cases hw : ck.wrapsOpt with
          | true =>
            rw [he, if_pos hw] at hb
            exact hb
          | false =>
            rw [he, if_neg (by simp [hw])] at hb
            exact hb
        rw [groupsNamed_blob_day] at hb2
        by_cases hck : ck = CKind.cday
        · rw [if_pos hck] at hb2
          rcases List.mem_append.mp hb2 with h1 | h1
          · simpa using h1
          · exact ih b h1
        · rw [if_neg hck] at hb2
          exact ih b (by simpa using hb2)

/-- Every group named `padday` in a compiled template pattern has the
padded day body. -/
theorem groupsNamed_astOf_padday : ∀ segs : List Seg,
    ∀ b ∈ groupsNamed "padday".data (astOf segs), b = padBody := by
  intro segs
  induction segs with
  | nil => intro b hb; simp [astOf, groupsNamed] at hb
  | cons sg rest ih =>
    intro b hb
    cases sg with
    | lit ch =>
      have hb2 : b ∈ groupsNamed "padday".data (astOf rest) := hb
      exact ih b hb2
    | mark k pad tx =>
      cases hc : canonOf tx with
      | none =>
        have he : astOf (Seg.mark k pad tx :: rest)
            = .seq (litR tx) (astOf rest) := by
          simp only [astOf, hc]
        rw [he] at hb
        have hb2 : b ∈ groupsNamed "padday".data (litR tx)
            ++ groupsNamed "padday".data (astOf rest) := hb
        rw [groupsNamed_litR] at hb2
        exact ih b (by simpa using hb2)
      | some ck =>
        have he : astOf (Seg.mark k pad tx :: rest)
            = if ck.wrapsOpt then .seq ck.blob (.opt (astOf rest))
              else .seq ck.blob (astOf rest) := by
          simp only [astOf, hc]
        have hb2 : b ∈ groupsNamed "padday".data ck.blob
            ++ groupsNamed "padday".data (astOf rest) := by
          cases hw : ck.wrapsOpt with
          | true =>
            rw [he, if_pos hw] at hb
            exact hb
          | false =>
            rw [he, if_neg (by simp [hw])] at hb
            exact hb
        rw [groupsNamed_blob_padday] at hb2
        by_cases hck : ck = CKind.cpadday
        · rw [if_pos hck] at hb2
          rcases List.mem_append.mp hb2 with h1 | h1
          · simpa using h1
          · exact ih b h1
        · rw [if_neg hck] at hb2
          exact ih b (by simpa using hb2)

/-- C5: every day value extracted by Config::load lies in 1..=25, whatever
the template and the working directory are; in particular a captured day
text never parses to 26.  (The claim's further assertion that a candidate
containing a day component `26` never produces a day-group match at all is
false: the group matches the single digit `2`; and rendered day values are
only restricted to 1..=25 for explicit arguments, while the December date
default can supply 26..=31.) -/
theorem C5_extracted_day_in_range (t cwd : List Char) (p : OptParams) (d : Nat)
    (h : extractP t cwd = .ok p) (hd : p.day = some d) :
    1 ≤ d ∧ d ≤ 25 := by
  unfold extractP at h
  cases hc : compile t with
  | error e =>
    rw [hc] at h
    exact absurd h (by simp)
  | ok re =>
    rw [hc] at h
    have hre : re = astOf (segments t) := by
      have hc2 : (if dupCanon (segments t) then Except.error CompErr.regexCompile
          else Except.ok (astOf (segments t))) = Except.ok re := hc
      by_cases hdp : dupCanon (segments t) = true
      · rw [if_pos hdp] at hc2
        exact absurd hc2 (by simp)
      · rw [if_neg hdp] at hc2
        injection hc2 with hc2
        exact hc2.symm
    subst hre
    have h2 : ((match findCap (astOf (segments t)) cwd with
        | none => (Except.ok { year := none, day := none, language := none } :
            Except CompErr OptParams)
        | some caps =>
          Except.ok
            { year := (lookupCap "year".data caps).bind parseNatL
              day := ((lookupCap "day".data caps).or
                (lookupCap "padday".data caps)).bind parseNatL
              language := (lookupCap "language".data caps).bind Language.fromStr }) :
        Except CompErr OptParams)
        = Except.ok p := h
    cases hf : findCap (astOf (segments t)) cwd with
    | none =>
      rw [hf] at h2
      have h3 : (Except.ok { year := none, day := none, language := none } :
          Except CompErr OptParams) = Except.ok p := h2
      injection h3 with h3
      rw [← h3] at hd
      simp at hd
    | some caps =>
      rw [hf] at h2
      have h3 : (Except.ok
          { year := (lookupCap "year".data caps).bind parseNatL
            day := ((lookupCap "day".data caps).or
              (lookupCap "padday".data caps)).bind parseNatL
            language := (lookupCap "language".data caps).bind Language.fromStr } :
          Except CompErr OptParams) = Except.ok p := h2
      injection h3 with h3
      rw [← h3] at hd
      have hd2 : ((lookupCap "day".data caps).or
          (lookupCap "padday".data caps)).bind parseNatL = some d := hd
      have hf2 : capGo (cwd.length + 1) (astOf (segments t)) cwd = some caps := hf
      obtain ⟨u, r, hur⟩ := capGo_sound _ _ _ _ hf2
      cases hl : lookupCap "day".data caps with
      | some v =>
        rw [hl] at hd2
        have hd3 : parseNatL v = some d := hd2
        obtain ⟨b, hb, u2, cc2, rr2, hpp, hv⟩ := parses_cap _ hur (lookupCap_mem hl)
        rw [groupsNamed_astOf_day _ b hb] at hpp
        rw [hv] at hd3
        exact dayBody_val hpp hd3
      | none =>
        rw [hl] at hd2
        cases hl2 : lookupCap "padday".data caps with
        | none =>
          rw [hl2] at hd2
          exact absurd hd2 (by simp)
        | some v =>
          rw [hl2] at hd2
          have hd3 : parseNatL v = some d := hd2
          obtain ⟨b, hb, u2, cc2, rr2, hpp, hv⟩ := parses_cap _ hur (lookupCap_mem hl2)
          rw [groupsNamed_astOf_padday _ b hb] at hpp
          rw [hv] at hd3
          exact padBody_val hpp hd3

theorem C5_extracted_day_in_range_witness :
    extractP "p/{{day}}".data "p/7".data
      = .ok { year := none, day := some 7, language := none } ∧
    (1 ≤ 7 ∧ 7 ≤ 25) :=
  ⟨rfl, C5_extracted_day_in_range "p/{{day}}".data "p/7".data
    { year := none, day := some 7, language := none } 7 rfl rfl⟩

/-- No parameter matches at a position not starting with a brace. -/
theorem matchP_none_head {k : PKind} {c : Char} {cs : List Char}
    (hc : c ≠ '{') : matchP k (c :: cs) = none :=
  matchParam_none_head hc

/-- `replace_all` copies a brace-free prefix verbatim. -/
theorem rep_prefix_skip {q : PKind} {v r x : List Char}
    (hr : ∀ c ∈ r, c ≠ '{') :
    replaceAllP q v (r ++ x) = r ++ replaceAllP q v x := by
  induction r with
  | nil => simp
  | cons c cs ih =>
    rw [List.cons_append, repP_lit (matchP_none_head (hr c (by simp)))]
    rw [ih (fun y hy => hr y (by simp [hy]))]
    rfl

/-- Every marker segment of a segmented string carries a marker-shaped
text. -/
theorem seg_shape : ∀ t : List Char, ∀ k pad tx,
    Seg.mark k pad tx ∈ segments t → MarkerShape k pad tx := by
  suffices H : ∀ n (t : List Char), t.length ≤ n → ∀ k pad tx,
      Seg.mark k pad tx ∈ segments t → MarkerShape k pad tx by
    intro t
    exact H t.length t le_rfl
  intro n
  induction n with
  | zero =>
    intro t ht k pad tx hm
    have : t = [] := List.length_eq_zero.mp (Nat.le_zero.mp ht)
    subst this
    simp [segments_nil] at hm
  | succ n ih =>
    intro t ht k pad tx hmem
    cases hm : markerAt t with
    | some x =>
      obtain ⟨k0, pad0, rest⟩ := x
      have hmp := markerAt_matchP hm
      rw [segments_eq_mark hm] at hmem
      rcases List.mem_cons.mp hmem with h1 | h1
      · injection h1 with hk hpad htx
        subst hk
        subst hpad
        subst htx
        exact (matchP_consumed hmp).2
      · exact ih rest (by have := matchP_length hmp; omega) k pad tx h1
    | none =>
      cases t with
      | nil => simp [segments_nil] at hmem
      | cons c cs =>
        rw [segments_eq_lit hm] at hmem
        rcases List.mem_cons.mp hmem with h1 | h1
        · exact absurd h1 (by simp)
        · exact ih cs (by simp only [List.length_cons] at ht; omega) k pad tx h1

/-- A canonical replacement key determines its text. -/
theorem canonOf_some_text {tx : List Char} {ck : CKind}
    (h : canonOf tx = some ck) : tx = ck.text := by
  unfold canonOf at h
  by_cases h1 : tx = CKind.cyear.text
  · rw [if_pos h1] at h
    injection h with h
    subst h
    exact h1
  · rw [if_neg h1] at h
    by_cases h2 : tx = CKind.cday.text
    · rw [if_pos h2] at h
      injection h with h
      subst h
      exact h2
    · rw [if_neg h2] at h
      by_cases h3 : tx = CKind.cpadday.text
      · rw [if_pos h3] at h
        injection h with h
        subst h
        exact h3
      · rw [if_neg h3] at h
        by_cases h4 : tx = CKind.clang.text
        · rw [if_pos h4] at h
          injection h with h
          subst h
          exact h4
        · rw [if_neg h4] at h
          exact absurd h (by simp)

/-- A marker segment whose text is a canonical key has the key's
parameter kind and pad flag. -/
theorem canon_kind_pad {k : PKind} {pad : Bool} {tx : List Char} {ck : CKind}
    (hsh : MarkerShape k pad tx) (hc : canonOf tx = some ck) :
    k = ck.kind ∧ pad = ck.pad := by
  have htx := canonOf_some_text hc
  subst htx
  have h1 : matchP k (ck.text ++ []) = some (pad, []) := matchP_complete hsh []
  have h2 : matchP ck.kind (ck.text ++ []) = some (ck.pad, []) :=
    matchP_complete (canon_shape ck) []
  by_cases hk : k = ck.kind
  · subst hk
    rw [h1] at h2
    injection h2 with h2
    injection h2 with h2
    exact ⟨rfl, h2⟩
  · exact absurd (matchP_exclusive hk h1) (by rw [h2]; simp)

/-- The three substitution passes of `Config::build`, composed, replace
every marker of the template by its parameter's value and keep all other
characters: segment-wise substitution. -/
theorem full3_eq_render {yv dv lv : List Char}
    (hyi : inertVal yv) (hdi : inertVal dv) :
    ∀ s : List Char,
      replaceAllP .language lv (replaceAllP .day dv (replaceAllP .year yv s))
        = (segments s).flatMap (segSub3 yv dv lv) := by
  suffices H : ∀ n (s : List Char), s.length ≤ n →
      replaceAllP .language lv (replaceAllP .day dv (replaceAllP .year yv s))
        = (segments s).flatMap (segSub3 yv dv lv) by
    intro s
    exact H s.length s le_rfl
  intro n
  induction n with
  | zero =>
    intro s hs
    have : s = [] := List.length_eq_zero.mp (Nat.le_zero.mp hs)
    subst this
    rfl
  | succ n ih =>
    intro s hs
    cases hm : markerAt s with
    | some x =>
      obtain ⟨k, pad, rest⟩ := x
      have hmp := markerAt_matchP hm
      have hlen := matchP_length hmp
      have hcons := (matchP_consumed hmp).1
      rw [segments_eq_mark hm, List.flatMap_cons]
      cases k with
      | year =>
        rw [repP_match hmp]
        rw [rep_prefix_skip (fun c hc => (hyi.2.1 c hc).1)]
        rw [rep_prefix_skip (fun c hc => (hyi.2.1 c hc).1)]
        rw [ih rest (by omega)]
        rfl
      | day =>
        have hy0 : matchP .year s = none := matchP_exclusive (by decide) hmp
        rw [rep_through_match hmp hy0]
        have hsfx : ∀ z, matchP .day (s.take (s.length - rest.length) ++ z)
            = some (pad, z) := by
          intro z
          refine matchP_suffix (t := rest) ?_ z
          rw [hcons]
          exact hmp
        rw [repP_match (hsfx _)]
        rw [rep_prefix_skip (fun c hc => (hdi.2.1 c hc).1)]
        rw [ih rest (by omega)]
        rfl
      | language =>
        have hy0 : matchP .year s = none := matchP_exclusive (by decide) hmp
        rw [rep_through_match hmp hy0]
        have hsfx : ∀ z, matchP .language (s.take (s.length - rest.length) ++ z)
            = some (pad, z) := by
          intro z
          refine matchP_suffix (t := rest) ?_ z
          rw [hcons]
          exact hmp
        rw [rep_through_match (hsfx _) (matchP_exclusive (by decide) (hsfx _))]
        have hta : ∀ z : List Char,
            (s.take (s.length - rest.length) ++ z).length - z.length
              = (s.take (s.length - rest.length)).length := by
          intro z
          simp [List.length_append]
        rw [hta, List.take_left]
        rw [repP_match (hsfx _)]
        rw [ih rest (by omega)]
        rfl
    | none =>
      cases s with
      | nil => rfl
      | cons c cs =>
        have hy0 := markerAt_none hm .year
        have hd0 := markerAt_none hm .day
        have hl0 := markerAt_none hm .language
        rw [repP_lit hy0]
        have hd1 : matchP .day (c :: replaceAllP .year yv cs) = none :=
          no_new_match hyi hy0 hd0
        rw [repP_lit hd1]
        have hl1 : matchP .language (c :: replaceAllP .year yv cs) = none :=
          no_new_match hyi hy0 hl0
        have hl2 : matchP .language
            (c :: replaceAllP .day dv (replaceAllP .year yv cs)) = none :=
          no_new_match hdi hd1 hl1
        rw [repP_lit hl2]
        rw [segments_eq_lit hm, List.flatMap_cons]
        rw [ih cs (by simp only [List.length_cons] at hs; omega)]
        rfl

theorem firstPad_skip {p : PKind} {u rest : List Char}
    (h : ∀ i < u.length, matchP p ((u ++ rest).drop i) = none) :
    firstPad p (u ++ rest) = firstPad p rest := by
  induction u with
  | nil => simp
  | cons c cs ih =>
    have h0 : matchP p (c :: (cs ++ rest)) = none := by simpa using h 0 (by simp)
    rw [List.cons_append, firstPad_lit h0]
    exact ih (fun i hi => by
      have := h (i + 1) (by simp only [List.length_cons]; omega)
      simpa using this)

theorem firstPad_prefix_skip {p : PKind} {r x : List Char}
    (hr : ∀ c ∈ r, c ≠ '{') :
    firstPad p (r ++ x) = firstPad p x := by
  induction r with
  | nil => simp
  | cons c cs ih =>
    rw [List.cons_append, firstPad_lit (matchP_none_head (hr c (by simp)))]
    exact ih (fun y hy => hr y (by simp [hy]))

theorem firstPad_through_match {p q : PKind} {s restq : List Char} {padq : Bool}
    (hq : matchP q s = some (padq, restq)) (hp0 : matchP p s = none) :
    firstPad p s = firstPad p restq := by
  obtain ⟨heq, -⟩ := matchP_consumed hq
  have hlen : (s.take (s.length - restq.length)).length = s.length - restq.length := by
    rw [List.length_take]
    have := matchP_length hq
    omega
  conv_lhs => rw [← heq]
  refine firstPad_skip (fun i hi => ?_)
  rw [heq]
  exact no_match_over hq hp0 i (by omega)

/-- Substituting one parameter leaves the leftmost match (and its pad
flag) of every other parameter unchanged. -/
theorem firstPad_preserved {p q : PKind} (hpq : p ≠ q) {r : List Char}
    (hr : inertVal r) :
    ∀ s : List Char, firstPad p (replaceAllP q r s) = firstPad p s := by
  suffices H : ∀ n (s : List Char), s.length ≤ n →
      firstPad p (replaceAllP q r s) = firstPad p s by
    intro s
    exact H s.length s le_rfl
  intro n
  induction n with
  | zero =>
    intro s hs
    have : s = [] := List.length_eq_zero.mp (Nat.le_zero.mp hs)
    subst this
    rfl
  | succ n ih =>
    intro s hs
    cases hq0 : matchP q s with
    | some x =>
      obtain ⟨padq, restq⟩ := x
      have hp0 : matchP p s = none := matchP_exclusive (Ne.symm hpq) hq0
      rw [repP_match hq0]
      rw [firstPad_prefix_skip (fun c hc => (hr.2.1 c hc).1)]
      rw [ih restq (by have := matchP_length hq0; omega)]
      exact (firstPad_through_match hq0 hp0).symm
    | none =>
      cases s with
      | nil => rfl
      | cons c cs =>
        cases hp0 : matchP p (c :: cs) with
        | some xp =>
          obtain ⟨padp, restp⟩ := xp
          rw [rep_through_match hp0 hq0]
          have hcons : (c :: cs).take ((c :: cs).length - restp.length) ++ restp
              = c :: cs := (matchP_consumed hp0).1
          have hm2 : matchP p ((c :: cs).take ((c :: cs).length - restp.length)
                ++ replaceAllP q r restp)
              = some (padp, replaceAllP q r restp) := by
            refine matchP_suffix (t := restp) ?_ _
            rw [hcons]
            exact hp0
          rw [firstPad_match hm2, firstPad_match hp0]
        | none =>
          rw [repP_lit hq0, firstPad_lit (no_new_match hr hq0 hp0), firstPad_lit hp0]
          exact ih cs (by simp only [List.length_cons] at hs; omega)

/-- The leftmost match's pad flag is the pad flag of the first marker
segment of that parameter. -/
theorem firstPad_of_firstMark {k : PKind} : ∀ s : List Char,
    firstPad k s = firstMarkPad k (segments s) := by
  suffices H : ∀ n (s : List Char), s.length ≤ n →
      firstPad k s = firstMarkPad k (segments s) by
    intro s
    exact H s.length s le_rfl
  intro n
  induction n with
  | zero =>
    intro s hs
    have : s = [] := List.length_eq_zero.mp (Nat.le_zero.mp hs)
    subst this
    rfl
  | succ n ih =>
    intro s hs
    cases hm : markerAt s with
    | some x =>
      obtain ⟨k0, pad0, rest⟩ := x
      have hmp := markerAt_matchP hm
      rw [segments_eq_mark hm]
      by_cases hk : k0 = k
      · subst hk
        rw [firstPad_match hmp]
        show _ = if k0 = k0 then some pad0 else _
        rw [if_pos rfl]
      · have hp0 : matchP k s = none := matchP_exclusive hk hmp
        rw [firstPad_through_match hmp hp0]
        rw [ih rest (by have := matchP_length hmp; omega)]
        show _ = if k0 = k then some pad0 else firstMarkPad k (segments rest)
        rw [if_neg hk]
    | none =>
      cases s with
      | nil => rfl
      | cons c cs =>
        rw [segments_eq_lit hm, firstPad_lit (markerAt_none hm k)]
        exact ih cs (by simp only [List.length_cons] at hs; omega)

/-- Well-formedness of a segment list: every marker is canonical and
carries the kind and pad flag of its canonical key. -/
def WfCanon (segs : List Seg) : Prop :=
  ∀ k pad tx, Seg.mark k pad tx ∈ segs →
    ∃ ck, canonOf tx = some ck ∧ k = ck.kind ∧ pad = ck.pad

theorem wfCanon_tail {sg : Seg} {rest : List Seg} (h : WfCanon (sg :: rest)) :
    WfCanon rest :=
  fun k pad tx hm => h k pad tx (List.mem_cons_of_mem _ hm)

theorem firstMark_year {segs : List Seg} (hwf : WfCanon segs)
    (hcnt : 1 ≤ canonCount .cyear segs) :
    firstMarkPad .year segs = some false := by
  induction segs with
  | nil => simp [canonCount] at hcnt
  | cons sg rest ih =>
    cases sg with
    | lit c =>
      rw [canonCount_lit] at hcnt
      exact ih (wfCanon_tail hwf) hcnt
    | mark k pad tx =>
      obtain ⟨ck, hc, hk, hp⟩ := hwf k pad tx (List.mem_cons_self _ _)
      show (if k = PKind.year then some pad else firstMarkPad .year rest)
        = some false
      by_cases hck : k = .year
      · rw [if_pos hck]
        have hcy : ck = .cyear := by
          rw [hck] at hk
          cases ck with
          | cyear => rfl
          | cday => exact absurd hk (by decide)
          | cpadday => exact absurd hk (by decide)
          | clang => exact absurd hk (by decide)
        rw [hp, hcy]
        rfl
      · rw [if_neg hck]
        rw [canonCount_mark] at hcnt
        have hne : canonOf tx ≠ some CKind.cyear := by
          rw [hc]
          intro hx
          injection hx with hx
          rw [hx] at hk
          exact hck hk
        rw [if_neg hne] at hcnt
        exact ih (wfCanon_tail hwf) (by omega)

theorem firstMark_language {segs : List Seg} (hwf : WfCanon segs)
    (hcnt : 1 ≤ canonCount .clang segs) :
    firstMarkPad .language segs = some false := by
  induction segs with
  | nil => simp [canonCount] at hcnt
  | cons sg rest ih =>
    cases sg with
    | lit c =>
      rw [canonCount_lit] at hcnt
      exact ih (wfCanon_tail hwf) hcnt
    | mark k pad tx =>
      obtain ⟨ck, hc, hk, hp⟩ := hwf k pad tx (List.mem_cons_self _ _)
      show (if k = PKind.language then some pad else firstMarkPad .language rest)
        = some false
      by_cases hck : k = .language
      · rw [if_pos hck]
        have hcy : ck = .clang := by
          rw [hck] at hk
          cases ck with
          | cyear => exact absurd hk (by decide)
          | cday => exact absurd hk (by decide)
          | cpadday => exact absurd hk (by decide)
          | clang => rfl
        rw [hp, hcy]
        rfl
      · rw [if_neg hck]
        rw [canonCount_mark] at hcnt
        have hne : canonOf tx ≠ some CKind.clang := by
          rw [hc]
          intro hx
          injection hx with hx
          rw [hx] at hk
          exact hck hk
        rw [if_neg hne] at hcnt
        exact ih (wfCanon_tail hwf) (by omega)

theorem firstMark_day_plain {segs : List Seg} (hwf : WfCanon segs)
    (h1 : 1 ≤ canonCount .cday segs) (h0 : canonCount .cpadday segs = 0) :
    firstMarkPad .day segs = some false := by
  induction segs with
  | nil => simp [canonCount] at h1
  | cons sg rest ih =>
    cases sg with
    | lit c =>
      rw [canonCount_lit] at h1 h0
      exact ih (wfCanon_tail hwf) h1 h0
    | mark k pad tx =>
      obtain ⟨ck, hc, hk, hp⟩ := hwf k pad tx (List.mem_cons_self _ _)
      rw [canonCount_mark] at h1 h0
      show (if k = PKind.day then some pad else firstMarkPad .day rest)
        = some false
      by_cases hck : k = .day
      · rw [if_pos hck]
        have hcy : ck = .cday := by
          rw [hck] at hk
          cases ck with
          | cyear => exact absurd hk (by decide)
          | cday => rfl
          | cpadday =>
            exfalso
            rw [hc] at h0
            rw [if_pos rfl] at h0
            omega
          | clang => exact absurd hk (by decide)
        rw [hp, hcy]
        rfl
      · rw [if_neg hck]
        have hne : ∀ c2 : CKind, c2.kind = .day → canonOf tx ≠ some c2 := by
          intro c2 hc2 hx
          rw [hc] at hx
          injection hx with hx
          rw [hx] at hk
          rw [hc2] at hk
          exact hck hk
        rw [if_neg (hne _ (by decide))] at h1
        rw [if_neg (hne _ (by decide))] at h0
        exact ih (wfCanon_tail hwf) (by omega) (by omega)

theorem firstMark_day_padded {segs : List Seg} (hwf : WfCanon segs)
    (h1 : 1 ≤ canonCount .cpadday segs) (h0 : canonCount .cday segs = 0) :
    firstMarkPad .day segs = some true := by
  induction segs with
  | nil => simp [canonCount] at h1
  | cons sg rest ih =>
    cases sg with
    | lit c =>
      rw [canonCount_lit] at h1 h0
      exact ih (wfCanon_tail hwf) h1 h0
    | mark k pad tx =>
      obtain ⟨ck, hc, hk, hp⟩ := hwf k pad tx (List.mem_cons_self _ _)
      rw [canonCount_mark] at h1 h0
      show (if k = PKind.day then some pad else firstMarkPad .day rest)
        = some true
      by_cases hck : k = .day
      · rw [if_pos hck]
        have hcy : ck = .cpadday := by
          rw [hck] at hk
          cases ck with
          | cyear => exact absurd hk (by decide)
          | cday =>
            exfalso
            rw [hc] at h0
            rw [if_pos rfl] at h0
            omega
          | cpadday => rfl
          | clang => exact absurd hk (by decide)
        rw [hp, hcy]
        rfl
      · rw [if_neg hck]
        have hne : ∀ c2 : CKind, c2.kind = .day → canonOf tx ≠ some c2 := by
          intro c2 hc2 hx
          rw [hc] at hx
          injection hx with hx
          rw [hx] at hk
          rw [hc2] at hk
          exact hck hk
        rw [if_neg (hne _ (by decide))] at h1
        rw [if_neg (hne _ (by decide))] at h0
        exact ih (wfCanon_tail hwf) (by omega) (by omega)

/-- For a segmented string, all-canonical marker texts give well-formed
kind and pad data on every marker segment. -/
theorem wfCanon_segments {t : List Char}
    (h : (segments t).all segCanon = true) : WfCanon (segments t) := by
  intro k pad tx hm
  have hc : segCanon (Seg.mark k pad tx) = true := List.all_eq_true.mp h _ hm
  have hc2 : (canonOf tx).isSome = true := hc
  obtain ⟨ck, hck⟩ := Option.isSome_iff_exists.mp hc2
  obtain ⟨hk, hp⟩ := canon_kind_pad (seg_shape t k pad tx hm) hck
  exact ⟨ck, hck, hk, hp⟩

/-- `Config::build` on an all-canonical template with one marker per
provided parameter: success, and the result is the segment-wise
substitution of the three values.  The day value is padded exactly when
the template uses the padded day marker. -/
theorem buildPath_render {t : List Char} {y d : Nat} {lg : Language}
    {dv : List Char}
    (hwf : WfCanon (segments t))
    (hy1 : 1 ≤ canonCount .cyear (segments t))
    (hl1 : 1 ≤ canonCount .clang (segments t))
    (hday : (1 ≤ canonCount .cday (segments t)
          ∧ canonCount .cpadday (segments t) = 0 ∧ dv = natStr d)
        ∨ (1 ≤ canonCount .cpadday (segments t)
          ∧ canonCount .cday (segments t) = 0 ∧ dv = pad2 (natStr d))) :
    buildPath t (some y) (some d) (some lg)
      = .ok ((segments t).flatMap (segSub3 (natStr y) dv (Language.str lg))) := by
  have hdvi : inertVal dv := by
    rcases hday with ⟨-, -, rfl⟩ | ⟨-, -, rfl⟩
    · exact inert_natStr d
    · exact inert_pad2_natStr d
  have hfp1 : firstPad .year t = some false := by
    rw [firstPad_of_firstMark]
    exact firstMark_year hwf hy1
  have hs1 : buildStep .year (some (natStr y)) t
      = .ok (replaceAllP .year (natStr y) t) := by
    have h0 : (match firstPad .year t with
        | none => (Except.error .year : Except PKind (List Char))
        | some padUsed => .ok (replaceAllP .year
            (if padUsed then pad2 (natStr y) else natStr y) t))
        = .ok (replaceAllP .year (natStr y) t) := by
      rw [hfp1]
      rfl
    exact h0
  obtain ⟨b, hfpd, hdvb⟩ :
      ∃ b : Bool, firstPad .day t = some b ∧
        (if b then pad2 (natStr d) else natStr d) = dv := by
    rcases hday with ⟨hd1, hd0, rfl⟩ | ⟨hd1, hd0, rfl⟩
    · refine ⟨false, ?_, rfl⟩
      rw [firstPad_of_firstMark]
      exact firstMark_day_plain hwf hd1 hd0
    · refine ⟨true, ?_, rfl⟩
      rw [firstPad_of_firstMark]
      exact firstMark_day_padded hwf hd1 hd0
  have hs2 : buildStep .day (some (natStr d)) (replaceAllP .year (natStr y) t)
      = .ok (replaceAllP .day dv (replaceAllP .year (natStr y) t)) := by
    have hfp2 : firstPad .day (replaceAllP .year (natStr y) t) = some b := by
      rw [firstPad_preserved (by decide) (inert_natStr y) t]
      exact hfpd
    have h0 : (match firstPad .day (replaceAllP .year (natStr y) t) with
        | none => (Except.error .day : Except PKind (List Char))
        | some padUsed => .ok (replaceAllP .day
            (if padUsed then pad2 (natStr d) else natStr d)
            (replaceAllP .year (natStr y) t)))
        = .ok (replaceAllP .day dv (replaceAllP .year (natStr y) t)) := by
      rw [hfp2]
      show Except.ok (replaceAllP .day (if b then pad2 (natStr d) else natStr d)
        (replaceAllP .year (natStr y) t)) = _
      rw [hdvb]
    exact h0
  have hs3 : buildStep .language (some (Language.str lg))
        (replaceAllP .day dv (replaceAllP .year (natStr y) t))
      = .ok (replaceAllP .language (Language.str lg)
          (replaceAllP .day dv (replaceAllP .year (natStr y) t))) := by
    have hfp3 : firstPad .language
        (replaceAllP .day dv (replaceAllP .year (natStr y) t)) = some false := by
      rw [firstPad_preserved (by decide) hdvi]
      rw [firstPad_preserved (by decide) (inert_natStr y) t]
      rw [firstPad_of_firstMark]
      exact firstMark_language hwf hl1
    have h0 : (match firstPad .language
          (replaceAllP .day dv (replaceAllP .year (natStr y) t)) with
        | none => (Except.error .language : Except PKind (List Char))
        | some padUsed => .ok (replaceAllP .language
            (if padUsed then pad2 (Language.str lg) else Language.str lg)
            (replaceAllP .day dv (replaceAllP .year (natStr y) t))))
        = .ok (replaceAllP .language (Language.str lg)
            (replaceAllP .day dv (replaceAllP .year (natStr y) t))) := by
      rw [hfp3]
      rfl
    exact h0
  have hb : buildPath t (some y) (some d) (some lg)
      = .ok (replaceAllP .language (Language.str lg)
          (replaceAllP .day dv (replaceAllP .year (natStr y) t))) := by
    show (match buildStep .year (some (natStr y)) t with
        | .error e => (.error e : Except PKind (List Char))
        | .ok p1 =>
          match buildStep .day (some (natStr d)) p1 with
          | .error e => .error e
          | .ok p2 => buildStep .language (some (Language.str lg)) p2)
      = _
    rw [hs1]
    show (match buildStep .day (some (natStr d))
          (replaceAllP .year (natStr y) t) with
        | .error e => (.error e : Except PKind (List Char))
        | .ok p2 => buildStep .language (some (Language.str lg)) p2) = _
    rw [hs2]
    show buildStep .language (some (Language.str lg))
        (replaceAllP .day dv (replaceAllP .year (natStr y) t)) = _
    rw [hs3]
  rw [hb, full3_eq_render (inert_natStr y) hdvi t]

theorem chr_single (c : Char) (w : List Char) :
    parses (.chr c) (c :: w) = [(([] : Caps), w)] := by
  show (if c = c then [(([] : Caps), w)] else []) = _
  rw [if_pos rfl]

theorem chr_none {c x : Char} (h : x ≠ c) (w : List Char) :
    parses (.chr c) (x :: w) = [] := by
  show (if x = c then [(([] : Caps), w)] else []) = _
  rw [if_neg h]

theorem cls_single {lo hi x : Char} (h1 : lo ≤ x) (h2 : x ≤ hi) (w : List Char) :
    parses (.cls lo hi) (x :: w) = [(([] : Caps), w)] := by
  show (if lo ≤ x ∧ x ≤ hi then [(([] : Caps), w)] else []) = _
  rw [if_pos ⟨h1, h2⟩]

theorem litR_parses : ∀ (l z : List Char),
    parses (litR l) (l ++ z) = [(([] : Caps), z)] := by
  intro l
  induction l with
  | nil => intro z; rfl
  | cons c cs ih =>
    intro z
    show (parses (.chr c) (c :: (cs ++ z))).flatMap
        (fun pr => (parses (litR cs) pr.2).map (fun qr => (pr.1 ++ qr.1, qr.2)))
      = _
    rw [chr_single]
    simp [ih]

theorem litR_no_parse {c : Char} {l s : List Char}
    (h : ∀ x, s.head? = some x → x ≠ c) :
    parses (litR (c :: l)) s = [] := by
  cases s with
  | nil => rfl
  | cons x xs =>
    show (parses (.chr c) (x :: xs)).flatMap
        (fun pr => (parses (litR l) pr.2).map (fun qr => (pr.1 ++ qr.1, qr.2)))
      = _
    rw [chr_none (h x rfl)]
    rfl

theorem head_flatMap {α β : Type} {f : α → List β} {a : α} {l : List α}
    (h : f a ≠ []) : ((a :: l).flatMap f).head? = (f a).head? := by
  show (f a ++ l.flatMap f).head? = _
  cases hfa : f a with
  | nil => exact absurd hfa h
  | cons x xs => rfl

theorem take_pre (v z : List Char) :
    (v ++ z).take ((v ++ z).length - z.length) = v := by
  have h : (v ++ z).length - z.length = v.length := by simp
  rw [h, List.take_left]

theorem opt_head {A : Reg} {z : List Char} {c : Caps} {w : List Char}
    (h : (parses A z).head? = some (c, w)) :
    (parses (.opt A) z).head? = some (c, w) := by
  show (parses A z ++ [(([] : Caps), z)]).head? = _
  cases hp : parses A z with
  | nil => rw [hp] at h; exact absurd h (by simp)
  | cons a l =>
    rw [hp] at h
    rw [List.cons_append]
    simpa using h

/-- Preferred parse of a sequence headed by a capture group: the group
consumes the value, captures it, and the continuation parses on. -/
theorem seq_blob_head {body X : Reg} {nm v z : List Char}
    {rem : List (Caps × List Char)} {cr : Caps} {w2 : List Char}
    (hb : parses body (v ++ z) = (([] : Caps), z) :: rem)
    (hX : (parses X z).head? = some (cr, w2)) :
    (parses (.seq (.grp nm body) X) (v ++ z)).head?
      = some ((nm, v) :: cr, w2) := by
  have hg : parses (.grp nm body) (v ++ z)
      = ([(nm, v)], z) :: rem.map (fun pr =>
          (pr.1 ++ [(nm, (v ++ z).take ((v ++ z).length - pr.2.length))], pr.2)) := by
    show (parses body (v ++ z)).map _ = _
    rw [hb, List.map_cons]
    congr 1
    simp [take_pre]
  show ((parses (.grp nm body) (v ++ z)).flatMap
      (fun pr => (parses X pr.2).map (fun qr => (pr.1 ++ qr.1, qr.2)))).head? = _
  rw [hg]
  obtain ⟨xh, xtl, hxl⟩ : ∃ a l2, parses X z = a :: l2 := by
    cases hpx : parses X z with
    | nil => rw [hpx] at hX; exact absurd hX (by simp)
    | cons a l2 => exact ⟨a, l2, rfl⟩
  rw [head_flatMap (by rw [hxl]; simp)]
  rw [hxl] at hX
  simp only [List.head?_cons, Option.some.injEq] at hX
  rw [hxl, List.map_cons, List.head?_cons, hX]
  rfl

/-- The year body consumes exactly a four-digit value. -/
theorem yearBody_cons {v : List Char} (hv : Digit4 v) (z : List Char) :
    ∃ rem, parses yearBody (v ++ z) = (([] : Caps), z) :: rem := by
  obtain ⟨a, b, c, d, rfl, ha, hb, hc, hd⟩ := hv
  refine ⟨[], ?_⟩
  have h4 : parses (.cls '0' '9') (d :: z) = [(([] : Caps), z)] :=
    cls_single hd.1 hd.2 z
  have h3 : parses (.seq (.cls '0' '9') (.cls '0' '9')) (c :: d :: z)
      = [(([] : Caps), z)] := by
    show (parses (.cls '0' '9') (c :: d :: z)).flatMap _ = _
    rw [cls_single hc.1 hc.2]
    simp [h4]
  have h2 : parses (.seq (.cls '0' '9') (.seq (.cls '0' '9') (.cls '0' '9')))
      (b :: c :: d :: z) = [(([] : Caps), z)] := by
    show (parses (.cls '0' '9') (b :: c :: d :: z)).flatMap _ = _
    rw [cls_single hb.1 hb.2]
    simp [h3]
  show (parses (.cls '0' '9') (a :: b :: c :: d :: z)).flatMap _ = _
  rw [cls_single ha.1 ha.2]
  simp [h2]

/-- The preferred parse of the plain day body consumes exactly a
one-digit value. -/
theorem dayBody_cons {v : List Char} (hv : Day1 v) (z : List Char) :
    ∃ rem, parses dayBody (v ++ z) = (([] : Caps), z) :: rem := by
  obtain ⟨x, rfl, h1, h2⟩ := hv
  refine ⟨parses (.alt (.seq (.chr '1') (.cls '0' '9'))
    (.seq (.chr '2') (.cls '0' '5'))) (x :: z), ?_⟩
  show parses (.cls '1' '9') (x :: z) ++ _ = _
  rw [cls_single h1 h2]
  rfl

/-- The preferred parse of the padded day body consumes exactly a
two-digit value. -/
theorem padBody_cons {v : List Char} (hv : Day2 v) (z : List Char) :
    ∃ rem, parses padBody (v ++ z) = (([] : Caps), z) :: rem := by
  obtain ⟨x, hv⟩ := hv
  rcases hv with ⟨rfl, h1, h2⟩ | ⟨rfl, h1, h2⟩ | ⟨rfl, h1, h2⟩
  · refine ⟨parses (.alt (.seq (.chr '1') (.cls '0' '9'))
      (.seq (.chr '2') (.cls '0' '5'))) ('0' :: x :: z), ?_⟩
    have hb1 : parses (.seq (.chr '0') (.cls '1' '9')) ('0' :: x :: z)
        = [(([] : Caps), z)] := by
      show (parses (.chr '0') ('0' :: x :: z)).flatMap _ = _
      rw [chr_single]
      simp [cls_single h1 h2]
    show parses (.seq (.chr '0') (.cls '1' '9')) ('0' :: x :: z) ++ _ = _
    rw [hb1]
    rfl
  · refine ⟨parses (.seq (.chr '2') (.cls '0' '5')) ('1' :: x :: z), ?_⟩
    have hb1 : parses (.seq (.chr '0') (.cls '1' '9')) ('1' :: x :: z) = [] := by
      show (parses (.chr '0') ('1' :: x :: z)).flatMap _ = _
      rw [chr_none (by decide)]
      rfl
    have hb2 : parses (.seq (.chr '1') (.cls '0' '9')) ('1' :: x :: z)
        = [(([] : Caps), z)] := by
      show (parses (.chr '1') ('1' :: x :: z)).flatMap _ = _
      rw [chr_single]
      simp [cls_single h1 h2]
    show parses (.seq (.chr '0') (.cls '1' '9')) ('1' :: x :: z)
      ++ (parses (.seq (.chr '1') (.cls '0' '9')) ('1' :: x :: z)
        ++ parses (.seq (.chr '2') (.cls '0' '5')) ('1' :: x :: z)) = _
    rw [hb1, hb2]
    rfl
  · refine ⟨([] : List (Caps × List Char)), ?_⟩
    have hb1 : parses (.seq (.chr '0') (.cls '1' '9')) ('2' :: x :: z) = [] := by
      show (parses (.chr '0') ('2' :: x :: z)).flatMap _ = _
      rw [chr_none (by decide)]
      rfl
    have hb2 : parses (.seq (.chr '1') (.cls '0' '9')) ('2' :: x :: z) = [] := by
      show (parses (.chr '1') ('2' :: x :: z)).flatMap _ = _
      rw [chr_none (by decide)]
      rfl
    have hb3 : parses (.seq (.chr '2') (.cls '0' '5')) ('2' :: x :: z)
        = [(([] : Caps), z)] := by
      show (parses (.chr '2') ('2' :: x :: z)).flatMap _ = _
      rw [chr_single]
      simp [cls_single h1 h2]
    show parses (.seq (.chr '0') (.cls '1' '9')) ('2' :: x :: z)
      ++ (parses (.seq (.chr '1') (.cls '0' '9')) ('2' :: x :: z)
        ++ parses (.seq (.chr '2') (.cls '0' '5')) ('2' :: x :: z)) = _
    rw [hb1, hb2, hb3]
    rfl

/-- The preferred parse of the language body consumes exactly one
language token: the four tokens start with pairwise distinct letters, so
only the value's own branch can match. -/
theorem langBody_cons (lg : Language) (z : List Char) :
    ∃ rem, parses langBody (Language.str lg ++ z) = (([] : Caps), z) :: rem := by
  cases lg with
  | rust =>
    refine ⟨parses (.alt (litR "csharp".data)
      (.alt (litR "java".data) (litR "python".data))) ("rust".data ++ z), ?_⟩
    show parses (litR "rust".data) ("rust".data ++ z) ++ _ = _
    rw [litR_parses]
    rfl
  | csharp =>
    refine ⟨parses (.alt (litR "java".data) (litR "python".data))
      ("csharp".data ++ z), ?_⟩
    show parses (litR "rust".data) ("csharp".data ++ z)
      ++ (parses (litR "csharp".data) ("csharp".data ++ z) ++ _) = _
    rw [litR_no_parse (fun x hx => by
      have : x = 'c' := by
        have h2 : some 'c' = some x := hx
        injection h2 with h2
        exact h2.symm
      rw [this]
      decide)]
    rw [litR_parses]
    rfl
  | java =>
    refine ⟨parses (litR "python".data) ("java".data ++ z), ?_⟩
    show parses (litR "rust".data) ("java".data ++ z)
      ++ (parses (litR "csharp".data) ("java".data ++ z)
        ++ (parses (litR "java".data) ("java".data ++ z) ++ _)) = _
    rw [litR_no_parse (fun x hx => by
      have h2 : some 'j' = some x := hx
      injection h2 with h2
      rw [← h2]
      decide)]
    rw [litR_no_parse (fun x hx => by
      have h2 : some 'j' = some x := hx
      injection h2 with h2
      rw [← h2]
      decide)]
    rw [litR_parses]
    rfl
  | python =>
    refine ⟨([] : List (Caps × List Char)), ?_⟩
    show parses (litR "rust".data) ("python".data ++ z)
      ++ (parses (litR "csharp".data) ("python".data ++ z)
        ++ (parses (litR "java".data) ("python".data ++ z)
          ++ parses (litR "python".data) ("python".data ++ z))) = _
    rw [litR_no_parse (fun x hx => by
      have h2 : some 'p' = some x := hx
      injection h2 with h2
      rw [← h2]
      decide)]
    rw [litR_no_parse (fun x hx => by
      have h2 : some 'p' = some x := hx
      injection h2 with h2
      rw [← h2]
      decide)]
    rw [litR_no_parse (fun x hx => by
      have h2 : some 'p' = some x := hx
      injection h2 with h2
      rw [← h2]
      decide)]
    rw [litR_parses]
    rfl

/-- The preferred (leftmost-first) parse of a compiled all-canonical
template against its own substitution consumes the whole string and
captures exactly the substituted values, one capture per marker, whatever
suffix follows.  The day value must fit the branch shapes of whichever
day form the template uses. -/
theorem head_parse {yv dv lv : List Char}
    (hyv : Digit4 yv) (hlv : ∃ lg, lv = Language.str lg) :
    ∀ segs : List Seg, WfCanon segs →
      ((∃ tx, Seg.mark .day false tx ∈ segs) → Day1 dv) →
      ((∃ tx, Seg.mark .day true tx ∈ segs) → Day2 dv) →
      ∀ w, (parses (astOf segs) (segs.flatMap (segSub3 yv dv lv) ++ w)).head?
        = some (capsOf3 yv dv lv segs, w) := by
  obtain ⟨lg, rfl⟩ := hlv
  intro segs
  induction segs with
  | nil =>
    intro _ _ _ w
    rfl
  | cons sg rest ih =>
    intro hwf hd1 hd2 w
    have ih2 := ih (wfCanon_tail hwf)
      (fun hx => hd1 (by obtain ⟨tx, hm⟩ := hx; exact ⟨tx, List.mem_cons_of_mem _ hm⟩))
      (fun hx => hd2 (by obtain ⟨tx, hm⟩ := hx; exact ⟨tx, List.mem_cons_of_mem _ hm⟩))
    cases sg with
    | lit c =>
      rw [List.flatMap_cons, List.append_assoc]
      obtain ⟨a, l2, hal⟩ : ∃ a l2, parses (astOf rest)
          (rest.flatMap (segSub3 yv dv (Language.str lg)) ++ w) = a :: l2 := by
        cases hpx : parses (astOf rest)
            (rest.flatMap (segSub3 yv dv (Language.str lg)) ++ w) with
        | nil =>
          have := ih2 w
          rw [hpx] at this
          exact absurd this (by simp)
        | cons a l2 => exact ⟨a, l2, rfl⟩
      show ((parses (.chr c)
          (c :: (rest.flatMap (segSub3 yv dv (Language.str lg)) ++ w))).flatMap
        (fun pr => (parses (astOf rest) pr.2).map
          (fun qr => (pr.1 ++ qr.1, qr.2)))).head? = _
      rw [chr_single]
      rw [head_flatMap (by rw [hal]; simp)]
      rw [List.head?_map, ih2 w]
      rfl
    | mark k pad tx =>
      obtain ⟨ck, hc, hk, hp⟩ := hwf k pad tx (List.mem_cons_self _ _)
      subst hk
      subst hp
      rw [List.flatMap_cons, List.append_assoc]
      cases ck with
      | cyear =>
        have he : astOf (Seg.mark CKind.cyear.kind CKind.cyear.pad tx :: rest)
            = .seq CKind.cyear.blob (.opt (astOf rest)) := by
          simp only [astOf, hc]
          rfl
        rw [he]
        obtain ⟨rem, hbody⟩ := yearBody_cons hyv
          (rest.flatMap (segSub3 yv dv (Language.str lg)) ++ w)
        have hX : (parses (.opt (astOf rest))
            (rest.flatMap (segSub3 yv dv (Language.str lg)) ++ w)).head?
            = some (capsOf3 yv dv (Language.str lg) rest, w) := opt_head (ih2 w)
        show (parses (.seq (.grp "year".data yearBody) (.opt (astOf rest)))
            (yv ++ (rest.flatMap (segSub3 yv dv (Language.str lg)) ++ w))).head?
          = some (("year".data, yv) :: capsOf3 yv dv (Language.str lg) rest, w)
        exact seq_blob_head hbody hX
      | cday =>
        have he : astOf (Seg.mark CKind.cday.kind CKind.cday.pad tx :: rest)
            = .seq CKind.cday.blob (.opt (astOf rest)) := by
          simp only [astOf, hc]
          rfl
        rw [he]
        have hdv : Day1 dv := hd1 ⟨tx, List.mem_cons_self _ _⟩
        obtain ⟨rem, hbody⟩ := dayBody_cons hdv
          (rest.flatMap (segSub3 yv dv (Language.str lg)) ++ w)
        have hX : (parses (.opt (astOf rest))
            (rest.flatMap (segSub3 yv dv (Language.str lg)) ++ w)).head?
            = some (capsOf3 yv dv (Language.str lg) rest, w) := opt_head (ih2 w)
        show (parses (.seq (.grp "day".data dayBody) (.opt (astOf rest)))
            (dv ++ (rest.flatMap (segSub3 yv dv (Language.str lg)) ++ w))).head?
          = some (("day".data, dv) :: capsOf3 yv dv (Language.str lg) rest, w)
        exact seq_blob_head hbody hX
      | cpadday =>
        have he : astOf (Seg.mark CKind.cpadday.kind CKind.cpadday.pad tx :: rest)
            = .seq CKind.cpadday.blob (.opt (astOf rest)) := by
          simp only [astOf, hc]
          rfl
        rw [he]
        have hdv : Day2 dv := hd2 ⟨tx, List.mem_cons_self _ _⟩
        obtain ⟨rem, hbody⟩ := padBody_cons hdv
          (rest.flatMap (segSub3 yv dv (Language.str lg)) ++ w)
        have hX : (parses (.opt (astOf rest))
            (rest.flatMap (segSub3 yv dv (Language.str lg)) ++ w)).head?
            = some (capsOf3 yv dv (Language.str lg) rest, w) := opt_head (ih2 w)
        show (parses (.seq (.grp "padday".data padBody) (.opt (astOf rest)))
            (dv ++ (rest.flatMap (segSub3 yv dv (Language.str lg)) ++ w))).head?
          = some (("padday".data, dv) :: capsOf3 yv dv (Language.str lg) rest, w)
        exact seq_blob_head hbody hX
      | clang =>
        have he : astOf (Seg.mark CKind.clang.kind CKind.clang.pad tx :: rest)
            = .seq CKind.clang.blob (astOf rest) := by
          simp only [astOf, hc]
          rfl
        rw [he]
        obtain ⟨rem, hbody⟩ := langBody_cons lg
          (rest.flatMap (segSub3 yv dv (Language.str lg)) ++ w)
        show (parses (.seq (.grp "language".data langBody) (astOf rest))
            (Language.str lg
              ++ (rest.flatMap (segSub3 yv dv (Language.str lg)) ++ w))).head?
          = some (("language".data, Language.str lg)
              :: capsOf3 yv dv (Language.str lg) rest, w)
        exact seq_blob_head hbody (ih2 w)

theorem natStrGo_agree : ∀ (f1 f2 n : Nat), n < f1 → n < f2 →
    natStrGo f1 n = natStrGo f2 n := by
  intro f1
  induction f1 with
  | zero => intro f2 n h1 _; omega
  | succ f ih =>
    intro f2 n h1 h2
    cases f2 with
    | zero => omega
    | succ f2p =>
      rw [natStrGo, natStrGo]
      by_cases hn : n < 10
      · rw [if_pos hn, if_pos hn]
      · rw [if_neg hn, if_neg hn]
        congr 1
        exact ih f2p (n / 10) (by omega) (by omega)

theorem natStr_lt10 {n : Nat} (h : n < 10) : natStr n = [Nat.digitChar n] := by
  show natStrGo (n + 1) n = _
  rw [natStrGo, if_pos h]

theorem natStr_step {n : Nat} (h : 10 ≤ n) :
    natStr n = natStr (n / 10) ++ [Nat.digitChar (n % 10)] := by
  show natStrGo (n + 1) n = natStrGo (n / 10 + 1) (n / 10) ++ _
  rw [natStrGo, if_neg (by omega)]
  congr 1
  exact natStrGo_agree n (n / 10 + 1) (n / 10) (by omega) (by omega)

theorem digToNat_digitChar {r : Nat} (h : r < 10) :
    digToNat (Nat.digitChar r) = r := by
  interval_cases r <;> decide

theorem digitChar_bounds {r : Nat} (h : r < 10) :
    '0' ≤ Nat.digitChar r ∧ Nat.digitChar r ≤ '9' := by
  interval_cases r <;> exact ⟨by decide, by decide⟩

theorem digitChar_bounds5 {r : Nat} (h : r ≤ 5) :
    '0' ≤ Nat.digitChar r ∧ Nat.digitChar r ≤ '5' := by
  interval_cases r <;> exact ⟨by decide, by decide⟩

theorem digitChar_bounds19 {r : Nat} (h1 : 1 ≤ r) (h2 : r ≤ 9) :
    '1' ≤ Nat.digitChar r ∧ Nat.digitChar r ≤ '9' := by
  interval_cases r <;> exact ⟨by decide, by decide⟩

/-- The decimal rendering of a number parses back to that number. -/
theorem natStr_val : ∀ n : Nat,
    (natStr n).foldl (fun a c => 10 * a + digToNat c) 0 = n := by
  intro n
  induction n using Nat.strong_induction_on with
  | _ n ih =>
    by_cases hn : n < 10
    · rw [natStr_lt10 hn]
      simp only [List.foldl_cons, List.foldl_nil]
      rw [digToNat_digitChar hn]
      omega
    · rw [natStr_step (by omega), List.foldl_append]
      rw [ih (n / 10) (by omega)]
      simp only [List.foldl_cons, List.foldl_nil]
      rw [digToNat_digitChar (by omega)]
      omega

theorem parseNatL_natStr (n : Nat) : parseNatL (natStr n) = some n := by
  rw [parseNatL, if_pos]
  · rw [natStr_val]
  · refine ⟨natStr_ne_nil, ?_⟩
    rw [List.all_eq_true]
    intro c hc
    exact natStr_digits c hc

theorem natStr_2digits {d : Nat} (h1 : 10 ≤ d) (h2 : d ≤ 99) :
    natStr d = [Nat.digitChar (d / 10), Nat.digitChar (d % 10)] := by
  rw [natStr_step h1, natStr_lt10 (by omega)]
  rfl

theorem natStr_4digits {y : Nat} (h1 : 1000 ≤ y) (h2 : y ≤ 9999) :
    natStr y = [Nat.digitChar (y / 1000), Nat.digitChar (y / 100 % 10),
      Nat.digitChar (y / 10 % 10), Nat.digitChar (y % 10)] := by
  rw [natStr_step (by omega), natStr_step (by omega), natStr_step (by omega),
    natStr_lt10 (by omega)]
  have e1 : y / 10 / 10 / 10 = y / 1000 := by
    rw [Nat.div_div_eq_div_mul, Nat.div_div_eq_div_mul]
  have e2 : y / 10 / 10 % 10 = y / 100 % 10 := by
    rw [Nat.div_div_eq_div_mul]
  have e3 : y / 10 % 10 = y / 10 % 10 := rfl
  rw [e1, e2]
  rfl

theorem digit4_natStr {y : Nat} (h1 : 1000 ≤ y) (h2 : y ≤ 9999) :
    Digit4 (natStr y) := by
  rw [natStr_4digits h1 h2]
  exact ⟨_, _, _, _, rfl, digitChar_bounds (by omega), digitChar_bounds (by omega),
    digitChar_bounds (by omega), digitChar_bounds (by omega)⟩

theorem day1_natStr {d : Nat} (h1 : 1 ≤ d) (h2 : d ≤ 9) : Day1 (natStr d) := by
  rw [natStr_lt10 (by omega)]
  exact ⟨_, rfl, (digitChar_bounds19 h1 h2).1, (digitChar_bounds19 h1 h2).2⟩

theorem pad2_natStr_lt10 {d : Nat} (h : d < 10) :
    pad2 (natStr d) = ['0', Nat.digitChar d] := by
  rw [natStr_lt10 h]
  rfl

theorem pad2_natStr_ge10 {d : Nat} (h1 : 10 ≤ d) (h2 : d ≤ 99) :
    pad2 (natStr d) = natStr d := by
  rw [natStr_2digits h1 h2]
  rfl

theorem day2_pad2_natStr {d : Nat} (h1 : 1 ≤ d) (h2 : d ≤ 25) :
    Day2 (pad2 (natStr d)) := by
  by_cases hd : d < 10
  · rw [pad2_natStr_lt10 hd]
    exact ⟨_, Or.inl ⟨rfl, (digitChar_bounds19 h1 (by omega)).1,
      (digitChar_bounds19 h1 (by omega)).2⟩⟩
  · rw [pad2_natStr_ge10 (by omega) (by omega), natStr_2digits (by omega) (by omega)]
    by_cases hd2 : d < 20
    · have hq : d / 10 = 1 := by omega
      rw [hq]
      exact ⟨_, Or.inr (Or.inl ⟨rfl, (digitChar_bounds (by omega)).1,
        (digitChar_bounds (by omega)).2⟩)⟩
    · have hq : d / 10 = 2 := by omega
      rw [hq]
      exact ⟨_, Or.inr (Or.inr ⟨rfl, (digitChar_bounds5 (by omega)).1,
        (digitChar_bounds5 (by omega)).2⟩)⟩

theorem parseNatL_pad2_natStr {d : Nat} (h1 : 1 ≤ d) (h2 : d ≤ 25) :
    parseNatL (pad2 (natStr d)) = some d := by
  by_cases hd : d < 10
  · rw [pad2_natStr_lt10 hd]
    rw [parseNatL_pair (by decide) (digitChar_isDigit hd)]
    rw [digToNat_digitChar hd]
    congr 1
    have h0 : digToNat '0' = 0 := by decide
    rw [h0]
    omega
  · rw [pad2_natStr_ge10 (by omega) (by omega)]
    exact parseNatL_natStr d

theorem fromStr_str (l : Language) : Language.fromStr (Language.str l) = some l := by
  cases l <;> rfl

theorem lookup_caps_year {yv dv lv : List Char} : ∀ {segs : List Seg},
    (∃ pad tx, Seg.mark .year pad tx ∈ segs) →
    lookupCap "year".data (capsOf3 yv dv lv segs) = some yv := by
  intro segs
  induction segs with
  | nil =>
    intro h
    obtain ⟨pad, tx, hm⟩ := h
    simp at hm
  | cons sg rest ih =>
    intro h
    obtain ⟨pad, tx, hm⟩ := h
    cases sg with
    | lit c =>
      refine ih ⟨pad, tx, ?_⟩
      rcases List.mem_cons.mp hm with h1 | h1
      · exact absurd h1 (by simp)
      · exact h1
    | mark k2 pad2 tx2 =>
      cases k2 with
      | year =>
        show (if "year".data = "year".data then some yv else _) = some yv
        rw [if_pos rfl]
      | day =>
        have hrest : ∃ pad tx, Seg.mark .year pad tx ∈ rest := by
          rcases List.mem_cons.mp hm with h1 | h1
          · exact absurd h1 (by simp)
          · exact ⟨pad, tx, h1⟩
        cases pad2 with
        | false =>
          show (if "day".data = "year".data then some dv else _) = some yv
          rw [if_neg (by decide)]
          exact ih hrest
        | true =>
          show (if "padday".data = "year".data then some dv else _) = some yv
          rw [if_neg (by decide)]
          exact ih hrest
      | language =>
        have hrest : ∃ pad tx, Seg.mark .year pad tx ∈ rest := by
          rcases List.mem_cons.mp hm with h1 | h1
          · exact absurd h1 (by simp)
          · exact ⟨pad, tx, h1⟩
        show (if "language".data = "year".data then some lv else _) = some yv
        rw [if_neg (by decide)]
        exact ih hrest

theorem lookup_caps_lang {yv dv lv : List Char} : ∀ {segs : List Seg},
    (∃ pad tx, Seg.mark .language pad tx ∈ segs) →
    lookupCap "language".data (capsOf3 yv dv lv segs) = some lv := by
  intro segs
  induction segs with
  | nil =>
    intro h
    obtain ⟨pad, tx, hm⟩ := h
    simp at hm
  | cons sg rest ih =>
    intro h
    obtain ⟨pad, tx, hm⟩ := h
    cases sg with
    | lit c =>
      refine ih ⟨pad, tx, ?_⟩
      rcases List.mem_cons.mp hm with h1 | h1
      · exact absurd h1 (by simp)
      · exact h1
    | mark k2 pad2 tx2 =>
      cases k2 with
      | language =>
        show (if "language".data = "language".data then some lv else _) = some lv
        rw [if_pos rfl]
      | day =>
        have hrest : ∃ pad tx, Seg.mark .language pad tx ∈ rest := by
          rcases List.mem_cons.mp hm with h1 | h1
          · exact absurd h1 (by simp)
          · exact ⟨pad, tx, h1⟩
        cases pad2 with
        | false =>
          show (if "day".data = "language".data then some dv else _) = some lv
          rw [if_neg (by decide)]
          exact ih hrest
        | true =>
          show (if "padday".data = "language".data then some dv else _) = some lv
          rw [if_neg (by decide)]
          exact ih hrest
      | year =>
        have hrest : ∃ pad tx, Seg.mark .language pad tx ∈ rest := by
          rcases List.mem_cons.mp hm with h1 | h1
          · exact absurd h1 (by simp)
          · exact ⟨pad, tx, h1⟩
        show (if "year".data = "language".data then some yv else _) = some lv
        rw [if_neg (by decide)]
        exact ih hrest

theorem lookup_caps_day {yv dv lv : List Char} : ∀ {segs : List Seg},
    (∃ tx, Seg.mark .day false tx ∈ segs) →
    lookupCap "day".data (capsOf3 yv dv lv segs) = some dv := by
  intro segs
  induction segs with
  | nil =>
    intro h
    obtain ⟨tx, hm⟩ := h
    simp at hm
  | cons sg rest ih =>
    intro h
    obtain ⟨tx, hm⟩ := h
    cases sg with
    | lit c =>
      refine ih ⟨tx, ?_⟩
      rcases List.mem_cons.mp hm with h1 | h1
      · exact absurd h1 (by simp)
      · exact h1
    | mark k2 pad2 tx2 =>
      cases k2 with
      | day =>
        cases pad2 with
        | false =>
          show (if "day".data = "day".data then some dv else _) = some dv
          rw [if_pos rfl]
        | true =>
          have hrest : ∃ tx, Seg.mark .day false tx ∈ rest := by
            rcases List.mem_cons.mp hm with h1 | h1
            · exact absurd h1 (by simp)
            · exact ⟨tx, h1⟩
          show (if "padday".data = "day".data then some dv else _) = some dv
          rw [if_neg (by decide)]
          exact ih hrest
      | year =>
        have hrest : ∃ tx, Seg.mark .day false tx ∈ rest := by
          rcases List.mem_cons.mp hm with h1 | h1
          · exact absurd h1 (by simp)
          · exact ⟨tx, h1⟩
        show (if "year".data = "day".data then some yv else _) = some dv
        rw [if_neg (by decide)]
        exact ih hrest
      | language =>
        have hrest : ∃ tx, Seg.mark .day false tx ∈ rest := by
          rcases List.mem_cons.mp hm with h1 | h1
          · exact absurd h1 (by simp)
          · exact ⟨tx, h1⟩
        show (if "language".data = "day".data then some lv else _) = some dv
        rw [if_neg (by decide)]
        exact ih hrest

theorem lookup_caps_padday {yv dv lv : List Char} : ∀ {segs : List Seg},
    (∃ tx, Seg.mark .day true tx ∈ segs) →
    lookupCap "padday".data (capsOf3 yv dv lv segs) = some dv := by
  intro segs
  induction segs with
  | nil =>
    intro h
    obtain ⟨tx, hm⟩ := h
    simp at hm
  | cons sg rest ih =>
    intro h
    obtain ⟨tx, hm⟩ := h
    cases sg with
    | lit c =>
      refine ih ⟨tx, ?_⟩
      rcases List.mem_cons.mp hm with h1 | h1
      · exact absurd h1 (by simp)
      · exact h1
    | mark k2 pad2 tx2 =>
      cases k2 with
      | day =>
        cases pad2 with
        | true =>
          show (if "padday".data = "padday".data then some dv else _) = some dv
          rw [if_pos rfl]
        | false =>
          have hrest : ∃ tx, Seg.mark .day true tx ∈ rest := by
            rcases List.mem_cons.mp hm with h1 | h1
            · exact absurd h1 (by simp)
            · exact ⟨tx, h1⟩
          show (if "day".data = "padday".data then some dv else _) = some dv
          rw [if_neg (by decide)]
          exact ih hrest
      | year =>
        have hrest : ∃ tx, Seg.mark .day true tx ∈ rest := by
          rcases List.mem_cons.mp hm with h1 | h1
          · exact absurd h1 (by simp)
          · exact ⟨tx, h1⟩
        show (if "year".data = "padday".data then some yv else _) = some dv
        rw [if_neg (by decide)]
        exact ih hrest
      | language =>
        have hrest : ∃ tx, Seg.mark .day true tx ∈ rest := by
          rcases List.mem_cons.mp hm with h1 | h1
          · exact absurd h1 (by simp)
          · exact ⟨tx, h1⟩
        show (if "language".data = "padday".data then some lv else _) = some dv
        rw [if_neg (by decide)]
        exact ih hrest

theorem lookup_caps_day_none {yv dv lv : List Char} : ∀ {segs : List Seg},
    (∀ tx, Seg.mark .day false tx ∉ segs) →
    lookupCap "day".data (capsOf3 yv dv lv segs) = none := by
  intro segs
  induction segs with
  | nil => intro _; rfl
  | cons sg rest ih =>
    intro h
    have hrest : ∀ tx, Seg.mark .day false tx ∉ rest :=
      fun tx hm => h tx (List.mem_cons_of_mem _ hm)
    cases sg with
    | lit c => exact ih hrest
    | mark k2 pad2 tx2 =>
      cases k2 with
      | day =>
        cases pad2 with
        | false => exact absurd (List.mem_cons_self _ _) (h tx2)
        | true =>
          show (if "padday".data = "day".data then some dv else _) = none
          rw [if_neg (by decide)]
          exact ih hrest
      | year =>
        show (if "year".data = "day".data then some yv else _) = none
        rw [if_neg (by decide)]
        exact ih hrest
      | language =>
        show (if "language".data = "day".data then some lv else _) = none
        rw [if_neg (by decide)]
        exact ih hrest

theorem exists_mark_of_count {ck : CKind} : ∀ {segs : List Seg},
    WfCanon segs → 1 ≤ canonCount ck segs →
    ∃ tx, Seg.mark ck.kind ck.pad tx ∈ segs := by
  intro segs
  induction segs with
  | nil => intro _ h; simp [canonCount] at h
  | cons sg rest ih =>
    intro hwf h
    cases sg with
    | lit c =>
      rw [canonCount_lit] at h
      obtain ⟨tx, hm⟩ := ih (wfCanon_tail hwf) h
      exact ⟨tx, List.mem_cons_of_mem _ hm⟩
    | mark k pad tx =>
      rw [canonCount_mark] at h
      by_cases hcc : canonOf tx = some ck
      · obtain ⟨ck2, hc2, hk, hp⟩ := hwf k pad tx (List.mem_cons_self _ _)
        rw [hc2] at hcc
        injection hcc with hcc
        subst hcc
        subst hk
        subst hp
        exact ⟨tx, List.mem_cons_self _ _⟩
      · rw [if_neg hcc] at h
        obtain ⟨tx2, hm⟩ := ih (wfCanon_tail hwf) (by omega)
        exact ⟨tx2, List.mem_cons_of_mem _ hm⟩

theorem mem_canon_count {segs : List Seg} {k : PKind} {pad : Bool}
    {tx : List Char} {ck : CKind} (hm : Seg.mark k pad tx ∈ segs)
    (hc : canonOf tx = some ck) : 1 ≤ canonCount ck segs := by
  have : 0 < canonCount ck segs :=
    List.countP_pos.mpr ⟨Seg.mark k pad tx, hm, by simp [hc]⟩
  omega

theorem not_mark_plain_of_count0 {segs : List Seg} (hwf : WfCanon segs)
    (h : canonCount .cday segs = 0) :
    ∀ tx, Seg.mark .day false tx ∉ segs := by
  intro tx hm
  obtain ⟨ck, hc, hk, hp⟩ := hwf _ _ _ hm
  have hck : ck = .cday := by
    cases ck with
    | cyear => exact absurd hk (by decide)
    | cday => rfl
    | cpadday => exact absurd hp (by decide)
    | clang => exact absurd hk (by decide)
  subst hck
  have := mem_canon_count hm hc
  omega

theorem not_mark_padded_of_count0 {segs : List Seg} (hwf : WfCanon segs)
    (h : canonCount .cpadday segs = 0) :
    ∀ tx, Seg.mark .day true tx ∉ segs := by
  intro tx hm
  obtain ⟨ck, hc, hk, hp⟩ := hwf _ _ _ hm
  have hck : ck = .cpadday := by
    cases ck with
    | cyear => exact absurd hk (by decide)
    | cday => exact absurd hp (by decide)
    | cpadday => rfl
    | clang => exact absurd hk (by decide)
  subst hck
  have := mem_canon_count hm hc
  omega

/-- Extraction from the fully substituted all-canonical template recovers
exactly the substituted parameter values. -/
theorem extract_render {t : List Char} {y d : Nat} {lg : Language}
    {dv : List Char}
    (hwf : WfCanon (segments t))
    (hy1 : canonCount .cyear (segments t) = 1)
    (hl1 : canonCount .clang (segments t) = 1)
    (hday : (canonCount .cday (segments t) = 1
          ∧ canonCount .cpadday (segments t) = 0
          ∧ dv = natStr d ∧ 1 ≤ d ∧ d ≤ 9)
        ∨ (canonCount .cpadday (segments t) = 1
          ∧ canonCount .cday (segments t) = 0
          ∧ dv = pad2 (natStr d) ∧ 1 ≤ d ∧ d ≤ 25))
    (hy : 1000 ≤ y ∧ y ≤ 9999) :
    extractP t ((segments t).flatMap (segSub3 (natStr y) dv (Language.str lg)))
      = .ok { year := some y, day := some d, language := some lg } := by
  have hdf : dupCanon (segments t) = false := by
    rw [Bool.eq_false_iff]
    intro hdup
    simp only [dupCanon, List.any_cons, List.any_nil, Bool.or_eq_true,
      Bool.or_false, decide_eq_true_eq] at hdup
    rcases hday with ⟨h1, h0, -⟩ | ⟨h1, h0, -⟩ <;>
      rcases hdup with h | h | h | h <;> omega
  have hcomp : compile t = .ok (astOf (segments t)) := by
    have h0 : (if dupCanon (segments t)
        then (Except.error CompErr.regexCompile : Except CompErr Reg)
        else .ok (astOf (segments t))) = .ok (astOf (segments t)) := by
      rw [hdf]
      rfl
    exact h0
  have hd1cond : (∃ tx, Seg.mark .day false tx ∈ segments t) → Day1 dv := by
    intro hex
    rcases hday with ⟨h1, h0, rfl, hdl, hdu⟩ | ⟨h1, h0, rfl, hdl, hdu⟩
    · exact day1_natStr hdl hdu
    · obtain ⟨tx, hm⟩ := hex
      exact absurd hm (not_mark_plain_of_count0 hwf h0 tx)
  have hd2cond : (∃ tx, Seg.mark .day true tx ∈ segments t) → Day2 dv := by
    intro hex
    rcases hday with ⟨h1, h0, rfl, hdl, hdu⟩ | ⟨h1, h0, rfl, hdl, hdu⟩
    · obtain ⟨tx, hm⟩ := hex
      exact absurd hm (not_mark_padded_of_count0 hwf h0 tx)
    · exact day2_pad2_natStr hdl hdu
  have hhead := head_parse (digit4_natStr hy.1 hy.2) ⟨lg, rfl⟩ (segments t) hwf
    hd1cond hd2cond []
  rw [List.append_nil] at hhead
  have hfc : findCap (astOf (segments t))
      ((segments t).flatMap (segSub3 (natStr y) dv (Language.str lg)))
      = some (capsOf3 (natStr y) dv (Language.str lg) (segments t)) :=
    findCap_head hhead
  have hyex : ∃ pad tx, Seg.mark .year pad tx ∈ segments t := by
    obtain ⟨tx, hm⟩ := exists_mark_of_count hwf (by omega :
      1 ≤ canonCount CKind.cyear (segments t))
    exact ⟨_, tx, hm⟩
  have hlex : ∃ pad tx, Seg.mark .language pad tx ∈ segments t := by
    obtain ⟨tx, hm⟩ := exists_mark_of_count hwf (by omega :
      1 ≤ canonCount CKind.clang (segments t))
    exact ⟨_, tx, hm⟩
  unfold extractP
  rw [hcomp]
  show (match findCap (astOf (segments t))
      ((segments t).flatMap (segSub3 (natStr y) dv (Language.str lg))) with
    | none => (Except.ok { year := none, day := none, language := none } :
        Except CompErr OptParams)
    | some caps =>
      Except.ok
        { year := (lookupCap "year".data caps).bind parseNatL
          day := ((lookupCap "day".data caps).or
            (lookupCap "padday".data caps)).bind parseNatL
          language := (lookupCap "language".data caps).bind Language.fromStr })
    = _
  rw [hfc]
  show Except.ok
      { year := (lookupCap "year".data
          (capsOf3 (natStr y) dv (Language.str lg) (segments t))).bind parseNatL
        day := ((lookupCap "day".data
            (capsOf3 (natStr y) dv (Language.str lg) (segments t))).or
          (lookupCap "padday".data
            (capsOf3 (natStr y) dv (Language.str lg) (segments t)))).bind parseNatL
        language := (lookupCap "language".data
          (capsOf3 (natStr y) dv (Language.str lg) (segments t))).bind
            Language.fromStr }
    = (Except.ok { year := some y, day := some d, language := some lg } :
        Except CompErr OptParams)
  rw [show lookupCap "year".data
      (capsOf3 (natStr y) dv (Language.str lg) (segments t)) = some (natStr y)
    from lookup_caps_year hyex]
  rw [show lookupCap "language".data
      (capsOf3 (natStr y) dv (Language.str lg) (segments t))
      = some (Language.str lg) from lookup_caps_lang hlex]
  rcases hday with ⟨h1, h0, rfl, hdl, hdu⟩ | ⟨h1, h0, rfl, hdl, hdu⟩
  · have hdex : ∃ tx, Seg.mark .day false tx ∈ segments t := by
      obtain ⟨tx, hm⟩ := exists_mark_of_count hwf (by omega :
        1 ≤ canonCount CKind.cday (segments t))
      exact ⟨tx, hm⟩
    rw [show lookupCap "day".data
        (capsOf3 (natStr y) (natStr d) (Language.str lg) (segments t))
        = some (natStr d) from lookup_caps_day hdex]
    show Except.ok
        { year := parseNatL (natStr y)
          day := parseNatL (natStr d)
          language := Language.fromStr (Language.str lg) }
      = (Except.ok { year := some y, day := some d, language := some lg } :
          Except CompErr OptParams)
    rw [parseNatL_natStr, parseNatL_natStr, fromStr_str]
  · have hdex : ∃ tx, Seg.mark .day true tx ∈ segments t := by
      obtain ⟨tx, hm⟩ := exists_mark_of_count hwf (by omega :
        1 ≤ canonCount CKind.cpadday (segments t))
      exact ⟨tx, hm⟩
    rw [show lookupCap "day".data
        (capsOf3 (natStr y) (pad2 (natStr d)) (Language.str lg) (segments t))
        = none from lookup_caps_day_none (not_mark_plain_of_count0 hwf h0)]
    rw [show lookupCap "padday".data
        (capsOf3 (natStr y) (pad2 (natStr d)) (Language.str lg) (segments t))
        = some (pad2 (natStr d)) from lookup_caps_padday hdex]
    show Except.ok
        { year := parseNatL (natStr y)
          day := parseNatL (pad2 (natStr d))
          language := Language.fromStr (Language.str lg) }
      = (Except.ok { year := some y, day := some d, language := some lg } :
          Except CompErr OptParams)
    rw [parseNatL_natStr, parseNatL_pad2_natStr hdl hdu, fromStr_str]

/-- C1 (amended): the round-trip holds on templates whose markers are all
canonical, with one year marker, one language marker, and one day marker
(plain or padded, not both), for a four-digit year, any language, and a
day within the reach of the day form used (1..=9 for the plain form,
whose pattern would otherwise capture only the first digit; 1..=25 for
the padded form): rendering with these values succeeds and extraction
from the rendered path recovers exactly the year, the day, and the
language — in particular a day rendered through the padded form extracts
back to the same integer. -/
theorem C1_roundtrip (t : List Char) (y d : Nat) (lg : Language)
    (hcanon : (segments t).all segCanon = true)
    (hy1 : canonCount .cyear (segments t) = 1)
    (hl1 : canonCount .clang (segments t) = 1)
    (hday : (canonCount .cday (segments t) = 1
          ∧ canonCount .cpadday (segments t) = 0 ∧ d ≤ 9)
        ∨ (canonCount .cpadday (segments t) = 1
          ∧ canonCount .cday (segments t) = 0 ∧ d ≤ 25))
    (hdpos : 1 ≤ d)
    (hy : 1000 ≤ y ∧ y ≤ 9999) :
    ∃ path, buildPath t (some y) (some d) (some lg) = .ok path ∧
      extractP t path
        = .ok { year := some y, day := some d, language := some lg } := by
  have hwf := wfCanon_segments hcanon
  rcases hday with ⟨hc1, hc0, hdu⟩ | ⟨hc1, hc0, hdu⟩
  · refine ⟨_, @buildPath_render t y d lg (natStr d) hwf (by omega) (by omega)
      (Or.inl ⟨by omega, hc0, rfl⟩), ?_⟩
    exact extract_render hwf hy1 hl1 (Or.inl ⟨hc1, hc0, rfl, hdpos, hdu⟩) hy
  · refine ⟨_, @buildPath_render t y d lg (pad2 (natStr d)) hwf (by omega) (by omega)
      (Or.inr ⟨by omega, hc0, rfl⟩), ?_⟩
    exact extract_render hwf hy1 hl1 (Or.inr ⟨hc1, hc0, rfl, hdpos, hdu⟩) hy

theorem C1_roundtrip_witness :
    ((segments "p/{{year}}/{{pad day}}-{{language}}".data).all segCanon = true
      ∧ 1000 ≤ 2023 ∧ 2023 ≤ 9999) ∧
    ∃ path, buildPath "p/{{year}}/{{pad day}}-{{language}}".data
        (some 2023) (some 15) (some .rust) = .ok path ∧
      extractP "p/{{year}}/{{pad day}}-{{language}}".data path
        = .ok { year := some 2023, day := some 15, language := some .rust } :=
  ⟨⟨by decide, by decide, by decide⟩,
    C1_roundtrip "p/{{year}}/{{pad day}}-{{language}}".data 2023 15 .rust
      (by decide) (by decide) (by decide)
      (Or.inr ⟨by decide, by decide, by decide⟩) (by decide) ⟨by decide, by decide⟩⟩

end Aoc
